import Mathlib

/-!
A verification development for the xdsl immutable-IR mirror, constraint
matcher and rewrite combinators.

The Python sources are shallowly embedded as Lean definitions:

* pure functions become Lean functions;
* Python object identity is modelled by tagging every allocated node with a
  `Nat` identity drawn from an allocation counter that is threaded
  explicitly through every constructor (two separately constructed nodes
  thus carry distinct identity tags, mirroring distinct addresses);
* Python `dict`s keyed by object identity become association lists looked
  up with the corresponding equality;
* code that can raise returns `Except String`;
* mutable back-references that would form reference cycles in a term
  representation (`IBlockArg.block`, the producing-op link inside a stored
  result list) are either dropped (when no embedded operation reads them)
  or derived on demand.
-/

set_option autoImplicit false

namespace XdslSpec

/-- Attributes of the builtin dialect, modelled as a closed value type.
Equality of attributes is structural (plain constructor equality), in
contrast to the identity-based equality of IR nodes. -/
inductive Attr where
  | intType (width : Nat)
  | intAttr (value : Nat) (width : Nat)
  | strAttr (s : String)
  | unitAttr
  deriving DecidableEq, Repr

/-- Operation kinds (`op_type` in the source): the Python class object of an
operation.  A closed tag type; `rewriteId` stands for the `RewriteId`
class of the rewrite dialect, the remaining tags for arbitrary other
operation classes. -/
inductive OpType where
  | rewriteId
  | moduleOp
  | constOp
  | addOp
  | branchOp
  | otherOp (n : Nat)
  deriving DecidableEq, Repr

/-- The Python class-level operation name of an operation kind
(`op_type.name`). -/
def OpType.pyName : OpType → String
  | .rewriteId => "rewrite.id"
  | .moduleOp => "builtin.module"
  | .constOp => "arith.constant"
  | .addOp => "arith.addi"
  | .branchOp => "cf.br"
  | .otherOp n => "test.op" ++ toString n

/-- Attribute dictionaries (`dict[str, Attribute]`), insertion ordered. -/
abbrev AttrDict := List (String × Attr)

/-! ## `IList`: the sealed container of the immutable mirror

`class IList(List[_T])` inherits from the built-in Python `list` and
overrides exactly six mutators (`append`, `extend`, `insert`, `remove`,
`pop`, `clear`) to raise once `_frozen` is set.  A Python list is modelled
as the pair of its element list and the `_frozen` flag; the overridden
methods return `Except` mirroring the `raise`. -/
structure IList (α : Type) where
  data : List α
  frozenFlag : Bool
  deriving DecidableEq, Repr

namespace IList

/-- `IList.__init__` / construction from a sequence: `_frozen` starts `False`. -/
def ofList {α : Type} (l : List α) : IList α := ⟨l, false⟩

/-- `IList.freeze`. -/
def freeze {α : Type} (l : IList α) : IList α := ⟨l.data, true⟩

/-- `IList.append`: raises when frozen, otherwise appends at the end. -/
def append {α : Type} (l : IList α) (x : α) : Except String (IList α) :=
  if l.frozenFlag then .error "frozen list can not be modified"
  else .ok ⟨l.data ++ [x], l.frozenFlag⟩

/-- `IList.extend`: raises when frozen, otherwise appends all elements. -/
def extend {α : Type} (l : IList α) (xs : List α) : Except String (IList α) :=
  if l.frozenFlag then .error "frozen list can not be modified"
  else .ok ⟨l.data ++ xs, l.frozenFlag⟩

/-- `IList.insert`: raises when frozen, otherwise inserts at the index
(Python `list.insert` clamps the index). -/
def insertAt {α : Type} (l : IList α) (i : Nat) (x : α) : Except String (IList α) :=
  if l.frozenFlag then .error "frozen list can not be modified"
  else .ok ⟨l.data.take i ++ x :: l.data.drop i, l.frozenFlag⟩

/-- `IList.remove`: raises when frozen, otherwise removes the first
occurrence (Python raises `ValueError` when the value is absent). -/
def removeVal {α : Type} [DecidableEq α] (l : IList α) (x : α) : Except String (IList α) :=
  if l.frozenFlag then .error "frozen list can not be modified"
  else if x ∈ l.data then .ok ⟨l.data.erase x, l.frozenFlag⟩
  else .error "ValueError"

/-- `IList.pop`: raises when frozen, otherwise removes and returns the
element at the index (`IndexError` when out of range). -/
def pop {α : Type} (l : IList α) (i : Nat) : Except String (α × IList α) :=
  if l.frozenFlag then .error "frozen list can not be modified"
  else
    match l.data[i]? with
    | some x => .ok (x, ⟨l.data.take i ++ l.data.drop (i + 1), l.frozenFlag⟩)
    | none => .error "IndexError"

/-- `IList.clear`: raises when frozen, otherwise empties the list. -/
def clear {α : Type} (l : IList α) : Except String (IList α) :=
  if l.frozenFlag then .error "frozen list can not be modified"
  else .ok ⟨[], l.frozenFlag⟩

/-- `list.reverse`, inherited unchanged from the Python built-in `list`
base class: `IList` does not override it, so it mutates in place without
consulting `_frozen`. -/
def reverse {α : Type} (l : IList α) : IList α := ⟨l.data.reverse, l.frozenFlag⟩

/-- `list.__setitem__`, inherited unchanged from the Python built-in
`list` base class: `IList` does not override it, so it mutates in place
without consulting `_frozen` (out-of-range indices raise `IndexError`). -/
def setItem {α : Type} (l : IList α) (i : Nat) (x : α) : Except String (IList α) :=
  if i < l.data.length then .ok ⟨l.data.set i x, l.frozenFlag⟩
  else .error "IndexError"

end IList

/-! ## The immutable IR mirror

The node types of `immutable_ir.py`.  Every node carries a `Nat` identity
tag modelling Python object identity; tags are minted from an allocation
counter threaded through the constructors.  The `IBlockArg.block`
back-reference (set after block construction and read by no embedded
operation) is dropped; an operation's stored result list is derived on
demand from its `result_types` (in Python it holds `IResult(t, self, i)`
values whose op field is the operation itself). -/

/-- `OpData`: the shareable identity-independent record of an operation
(name, operation class, attribute dictionary).  `did` is its identity. -/
structure OpData where
  did : Nat
  name : String
  opType : OpType
  attributes : AttrDict
  deriving DecidableEq, Repr

/-- `IBlockArg` (minus the block back-reference): type, identity, index. -/
structure IBlockArg where
  typ : Attr
  argId : Nat
  index : Nat
  deriving DecidableEq, Repr

mutual
/-- `ISSAValue`: an operand reference, either an `IResult` (carrying its
producing operation, as the Python object reference does) or an
`IBlockArg`. -/
inductive IVal : Type where
  | result (typ : Attr) (op : IOp) (resultIndex : Nat)
  | blockArg (arg : IBlockArg)

/-- `IOp`: identity, shared `OpData`, operands, result types, successor
blocks, regions. -/
inductive IOp : Type where
  | mk (oid : Nat) (opData : OpData) (operands : List IVal)
       (resultTypes : List Attr) (successors : List IBlock)
       (regions : List IRegion)

/-- `IRegion`: identity and owned blocks. -/
inductive IRegion : Type where
  | mk (rid : Nat) (blocks : List IBlock)

/-- `IBlock`: identity, arguments and owned operations. -/
inductive IBlock : Type where
  | mk (bid : Nat) (args : List IBlockArg) (ops : List IOp)
end

namespace IOp

def oid : IOp → Nat
  | .mk i _ _ _ _ _ => i

def opData : IOp → OpData
  | .mk _ d _ _ _ _ => d

def operands : IOp → List IVal
  | .mk _ _ os _ _ _ => os

def resultTypes : IOp → List Attr
  | .mk _ _ _ ts _ _ => ts

def successors : IOp → List IBlock
  | .mk _ _ _ _ ss _ => ss

def regions : IOp → List IRegion
  | .mk _ _ _ _ _ rs => rs

/-- `IOp.name` (delegates to the shared `OpData`). -/
def name (op : IOp) : String := op.opData.name

/-- `IOp.op_type` (delegates to the shared `OpData`). -/
def opType (op : IOp) : OpType := op.opData.opType

/-- `IOp.attributes` (delegates to the shared `OpData`). -/
def attributes (op : IOp) : AttrDict := op.opData.attributes

/-- `IOp.results`: the result list, derived from the result types; the
Python list is built in `__init__` as `IResult(type, self, idx)`. -/
def results (op : IOp) : List IVal :=
  op.resultTypes.mapIdx fun i t => IVal.result t op i

/-- `IOp.result`: the first result, or `None` when there are none. -/
def resultOpt (op : IOp) : Option IVal :=
  match op.resultTypes with
  | [] => none
  | t :: _ => some (IVal.result t op 0)

/-- `IOp.__eq__` is `self is __o`: object identity, modelled by the
identity tag. -/
def beqId (a b : IOp) : Bool := a.oid == b.oid

end IOp

namespace IVal

/-- The `__eq__`/`__hash__` key of an SSA value: `IResult.__eq__` compares
the producing operation by identity and the result index; `IBlockArg.__eq__`
is `self is __o`; values of different variants are unequal. -/
def beqKey : IVal → IVal → Bool
  | .result _ o i, .result _ o' i' => o.oid == o'.oid && i == i'
  | .blockArg a, .blockArg a' => a.argId == a'.argId
  | _, _ => false

/-- The `typ` field common to both value variants. -/
def typ : IVal → Attr
  | .result t _ _ => t
  | .blockArg a => a.typ

/-- Whether a value is an `IResult` whose producing operation's kind is
`RewriteId` (the special case tested by `_unpack_operands`). -/
def isRewriteIdResult : IVal → Bool
  | .result _ o _ => o.opType == OpType.rewriteId
  | .blockArg _ => false

end IVal

def IBlock.bid : IBlock → Nat
  | .mk i _ _ => i

def IBlock.args : IBlock → List IBlockArg
  | .mk _ a _ => a

def IBlock.ops : IBlock → List IOp
  | .mk _ _ o => o

/-- `IBlock.__eq__` is `self is __o`. -/
def IBlock.beqId (a b : IBlock) : Bool := a.bid == b.bid

def IRegion.rid : IRegion → Nat
  | .mk i _ => i

def IRegion.blocks : IRegion → List IBlock
  | .mk _ b => b

/-- `IRegion.__eq__` is `self is __o`. -/
def IRegion.beqId (a b : IRegion) : Bool := a.rid == b.rid

/-! ### Walks

`IOp.walk` applies the visitor to the operation itself and then to every
operation nested in its regions; `IBlock.walk` walks the block's
operations.  Only the existential form is needed here. -/

mutual
/-- Whether `p` holds for the operation or any operation nested in its
regions (the reachability of `IOp.walk`). -/
def IOp.deepAny (p : IOp → Bool) : IOp → Bool
  | .mk oid d os ts ss rs =>
    p (.mk oid d os ts ss rs) || IOp.deepAnyRegions p rs

def IOp.deepAnyRegions (p : IOp → Bool) : List IRegion → Bool
  | [] => false
  | r :: rs => IOp.deepAnyRegion p r || IOp.deepAnyRegions p rs

def IOp.deepAnyRegion (p : IOp → Bool) : IRegion → Bool
  | .mk _ blocks => IOp.deepAnyBlocks p blocks

def IOp.deepAnyBlocks (p : IOp → Bool) : List IBlock → Bool
  | [] => false
  | b :: bs => IOp.deepAnyBlock p b || IOp.deepAnyBlocks p bs

/-- Whether `p` holds for any operation reached by `IBlock.walk`. -/
def IOp.deepAnyBlock (p : IOp → Bool) : IBlock → Bool
  | .mk _ _ ops => IOp.deepAnyOps p ops

def IOp.deepAnyOps (p : IOp → Bool) : List IOp → Bool
  | [] => false
  | o :: os => IOp.deepAny p o || IOp.deepAnyOps p os
end

/-! ### Allocation-threaded constructors -/

/-- Allocation of an `OpData` record (one Python object). -/
def OpData.make (name : String) (opType : OpType) (attributes : AttrDict)
    (σ : Nat) : OpData × Nat :=
  (⟨σ, name, opType, attributes⟩, σ + 1)

/-- `IOp.__init__` with an existing `OpData` record: allocates only the
operation object itself (results are derived, the contained lists are
frozen at construction). -/
def IOp.make (d : OpData) (operands : List IVal) (resultTypes : List Attr)
    (successors : List IBlock) (regions : List IRegion) (σ : Nat) : IOp × Nat :=
  (.mk σ d operands resultTypes successors regions, σ + 1)

/-- `IOp.get`: builds a fresh `OpData` record and an operation using it. -/
def IOp.get (name : String) (opType : OpType) (operands : List IVal)
    (resultTypes : List Attr) (attributes : AttrDict)
    (successors : List IBlock) (regions : List IRegion) (σ : Nat) : IOp × Nat :=
  let (d, σ1) := OpData.make name opType attributes σ
  IOp.make d operands resultTypes successors regions σ1

/-- `IRegion.__init__`. -/
def IRegion.make (blocks : List IBlock) (σ : Nat) : IRegion × Nat :=
  (.mk σ blocks, σ + 1)

/-- `IBlock.__init__` with a sequence of `IBlockArg`s (the block
back-reference each arg receives is dropped from the embedding). -/
def IBlock.makeFromArgs (args : List IBlockArg) (ops : List IOp) (σ : Nat) :
    IBlock × Nat :=
  (.mk σ args ops, σ + 1)

/-- `IBlock.__init__` with a sequence of types: block arguments are minted
with increasing indices. -/
def IBlock.makeFromTypes (types : List Attr) (ops : List IOp) (σ : Nat) :
    IBlock × Nat :=
  let args := types.mapIdx fun i t => (⟨t, σ + i, i⟩ : IBlockArg)
  (.mk (σ + types.length) args ops, σ + types.length + 1)

/-! ### Value environments

`dict[ISSAValue, ISSAValue]`, keyed by the `__eq__`/`__hash__` of the
values (identity of the producing op plus index for results, identity for
block arguments).  Assignment with first-match lookup models dictionary
overwrite. -/

abbrev Env := List (IVal × IVal)

namespace Env

def find? (env : Env) (v : IVal) : Option IVal :=
  (List.find? (fun p => IVal.beqKey p.1 v) env).map (·.2)

def containsKey (env : Env) (v : IVal) : Bool :=
  (env.find? v).isSome

/-- `env[k] = v`. -/
def insert (env : Env) (k v : IVal) : Env := (k, v) :: env

/-- Lookup defaulting to the value itself: `env[v] if v in env else v`. -/
def applyTo (env : Env) (v : IVal) : IVal := (env.find? v).getD v

end Env

/-! ### Rewrite combinators: `_unpack_operands`, `new_op`, `from_op` -/

/-- An operand argument of `new_op`/`from_op`:
`ISSAValue | IOp | Sequence[IOp]`. -/
inductive OpndArg : Type where
  | val (v : IVal)
  | op (o : IOp)
  | ops (l : List IOp)

/-- One pass of the duplicate-removing prepend loop of `_unpack_operands`:
`for op in reversed(ops): if op in rewritten_ops: rewritten_ops.remove(op);
rewritten_ops = [op] + rewritten_ops` (membership and removal use
`IOp.__eq__`, i.e. identity). -/
def prependDedup (l : List IOp) (acc : List IOp) : List IOp :=
  l.foldr (fun op acc => op :: acc.eraseP (fun o => IOp.beqId o op)) acc

/-- The per-value tail of the `_unpack_operands` loop body: the optional
environment substitution followed by the `RewriteId` unwrapping
(`operand.op.operands[-1]`, an `IndexError` when that operation has no
operands). -/
def resolveVal (env : Env) (v : IVal) : Except String IVal :=
  let v1 := Env.applyTo env v
  if v1.isRewriteIdResult then
    match v1 with
    | .result _ o _ =>
      match o.operands.getLast? with
      | some w => .ok w
      | none => .error "IndexError"
    | .blockArg _ => .error "unreachable"
  else .ok v1

/-- The body of the `_unpack_operands` loop for one operand argument,
returning the unpacked value and the updated `rewritten_ops`
accumulator. -/
def unpackStep (a : OpndArg) (env : Env) (acc : List IOp) :
    Except String (IVal × List IOp) :=
  match a with
  | .val v => do
    let v' ← resolveVal env v
    .ok (v', acc)
  | .op o =>
    -- `assert operand.result is not None; operand = operand.result`
    match o.resultOpt with
    | none => .error "AssertionError: operand.result is not None"
    | some r => do
      let v' ← resolveVal env r
      .ok (v', acc)
  | .ops l =>
    -- `ops[-1]` raises on an empty list; then the dedup loop runs and the
    -- last operation's first result is threaded through.
    match l.getLast? with
    | none => .error "IndexError"
    | some lastOp =>
      match lastOp.resultOpt with
      | none => .error "AssertionError: ops[-1].result is not None"
      | some r => do
        let v' ← resolveVal env r
        .ok (v', prependDedup l acc)

/-- The `_unpack_operands` loop over all operand arguments. -/
def unpackGo (args : List OpndArg) (env : Env) (acc : List IOp) :
    Except String (List IVal × List IOp) :=
  match args with
  | [] => .ok ([], acc)
  | a :: rest => do
    let (v, acc1) ← unpackStep a env acc
    let (vs, acc2) ← unpackGo rest env acc1
    .ok (v :: vs, acc2)

/-- `_unpack_operands(operands, env)` (a `None` environment behaves as the
empty dictionary). -/
def unpackOperands (args : List OpndArg) (env : Env) :
    Except String (List IVal × List IOp) :=
  unpackGo args env []

/-- `new_op`: builds a fresh operation, returning all operations created in
the current nesting with the new one last. -/
def newOp (opType : OpType) (operands : Option (List OpndArg))
    (resultTypes : Option (List Attr)) (attributes : Option AttrDict)
    (successors : Option (List IBlock)) (regions : Option (List IRegion))
    (σ : Nat) : Except String (List IOp × Nat) := do
  let (newOperands, rewritten) ← unpackOperands (operands.getD []) []
  let (op, σ1) := IOp.get opType.pyName opType newOperands
    (resultTypes.getD []) (attributes.getD []) (successors.getD [])
    (regions.getD []) σ
  .ok (rewritten ++ [op], σ1)

/-- The result-mapping loop at the end of `from_op` when an environment is
supplied: `env[old_op.results[idx]] = result` for each result of the new
operation (an `IndexError` if the new operation has more results than the
old one). -/
def addResultMappings (env : Env) (oldOp newOp : IOp) : Except String Env :=
  go newOp.results.enum env
where
  go : List (Nat × IVal) → Env → Except String Env
    | [], e => .ok e
    | (idx, r) :: rest, e =>
      match oldOp.results[idx]? with
      | some oldR => go rest (e.insert oldR r)
      | none => .error "IndexError"

/-- `from_op`: derives a new operation from `old_op`, overriding only the
supplied fields; with no attribute override the old operation's `OpData`
record is reused as-is.  Returns the created operations (new one last),
the updated environment when one was supplied, and the allocation
counter. -/
def fromOp (oldOp : IOp) (operands : Option (List OpndArg))
    (resultTypes : Option (List Attr)) (attributes : Option AttrDict)
    (successors : Option (List IBlock)) (regions : Option (List IRegion))
    (env : Option Env) (σ : Nat) :
    Except String (List IOp × Option Env × Nat) := do
  let opnds := operands.getD (oldOp.operands.map OpndArg.val)
  let rts := resultTypes.getD oldOp.resultTypes
  let succ := successors.getD oldOp.successors
  let regs := regions.getD oldOp.regions
  let (newOperands, rewritten) ← unpackOperands opnds (env.getD [])
  let (op, σ1) :=
    match attributes with
    | none => IOp.make oldOp.opData newOperands rts succ regs σ
    | some attrs => IOp.get oldOp.name oldOp.opType newOperands rts attrs succ regs σ
  match env with
  | none => .ok (rewritten ++ [op], none, σ1)
  | some e => do
    let e' ← addResultMappings e oldOp op
    .ok (rewritten ++ [op], some e', σ1)

/-! ### `IBlock.from_iblock`: localized rebuild with substitution

The argument-minting loop, then `substitute_if_required` for each
operation.  The environment and the allocation counter are threaded in
program order, exactly as the Python dictionary is mutated. -/

/-- The argument loop of `from_iblock`: for each old argument a new
`IBlockArg` with the same type and the enumeration index is minted and
`env[old_arg] = new_block_arg` is recorded. -/
def mintArgs (args : List IBlockArg) (env : Env) (σ : Nat) :
    List IBlockArg × Env × Nat :=
  go args 0 env σ
where
  go : List IBlockArg → Nat → Env → Nat → List IBlockArg × Env × Nat
    | [], _, e, s => ([], e, s)
    | a :: rest, idx, e, s =>
      let na : IBlockArg := ⟨a.typ, s, idx⟩
      let (nrest, e', s') :=
        go rest (idx + 1) (e.insert (.blockArg a) (.blockArg na)) (s + 1)
      (na :: nrest, e', s')

/-- The operand check of `subst_necessary`: whether any operand of the
operation is a key of the environment. -/
def opRefsEnv (env : Env) (op : IOp) : Bool :=
  op.operands.any (fun v => env.containsKey v)

theorem sizeOf_regions_lt (op : IOp) : sizeOf op.regions < sizeOf op := by
  cases op with
  | mk oid d os ts ss rs => simp [IOp.regions]

theorem sizeOf_blocks_lt (r : IRegion) : sizeOf r.blocks < sizeOf r := by
  cases r with
  | mk rid bs => simp [IRegion.blocks]

theorem sizeOf_ops_succ_le (b : IBlock) : sizeOf b.ops + 1 ≤ sizeOf b := by
  cases b with
  | mk bid as os => simp [IBlock.ops]; omega

mutual
/-- `[substitute_if_required(op) for op in ops]`, threading the
environment mutations in list order. -/
def substOps (ops : List IOp) (env : Env) (σ : Nat) :
    Except String (List IOp × Env × Nat) :=
  match ops with
  | [] => .ok ([], env, σ)
  | op :: rest => do
    let (op', env1, σ1) ← substOp op env σ
    let (rest', env2, σ2) ← substOps rest env1 σ1
    .ok (op' :: rest', env2, σ2)

/-- `substitute_if_required`: rebuild the regions that need it, remap the
direct operands found in the environment, and rebuild the operation via
`from_op` when anything changed, otherwise return it unchanged. -/
def substOp (op : IOp) (env : Env) (σ : Nat) :
    Except String (IOp × Env × Nat) :=
  match op with
  | .mk oid d os ts ss rs => do
    let (newRegions, regionsRequired, env1, σ1) ← substRegions rs env σ
    let newOperands := os.map (fun v => env1.applyTo v)
    let operandRequired := os.any (fun v => env1.containsKey v)
    if regionsRequired || operandRequired then do
      let (l, env2, σ2) ← fromOp (.mk oid d os ts ss rs)
        (some (newOperands.map OpndArg.val)) none none none
        (some newRegions) (some env1) σ1
      match l, env2 with
      | [single], some e => .ok (single, e, σ2)
      | _, _ => .error "AssertionError: len(substituted_op) == 1"
    else
      .ok (.mk oid d os ts ss rs, env1, σ1)

/-- The region loop of `substitute_if_required`: every region is either
rebuilt from its (possibly partially reused) blocks or reused verbatim.
The returned flag is `substitution_required` as far as regions set it. -/
def substRegions (regions : List IRegion) (env : Env) (σ : Nat) :
    Except String (List IRegion × Bool × Env × Nat) :=
  match regions with
  | [] => .ok ([], false, env, σ)
  | r :: rest => do
    let (r', req, env1, σ1) ← substRegion r env σ
    let (rest', reqs, env2, σ2) ← substRegions rest env1 σ1
    .ok (r' :: rest', req || reqs, env2, σ2)

/-- One region of the loop: its blocks are checked (and possibly rebuilt)
in order; a fresh `IRegion` is allocated only when some block was
rebuilt. -/
def substRegion (r : IRegion) (env : Env) (σ : Nat) :
    Except String (IRegion × Bool × Env × Nat) :=
  match r with
  | .mk rid blocks => do
    let (newBlocks, req, env1, σ1) ← substBlocks blocks env σ
    if req then
      let (r', σ2) := IRegion.make newBlocks σ1
      .ok (r', true, env1, σ2)
    else
      .ok (.mk rid blocks, false, env1, σ1)

/-- The block loop: `block.walk(subst_necessary)` decides against the
current environment whether the block must be rebuilt; if so it is rebuilt
by the recursive `IBlock.from_iblock(block.ops, block, env)` — whose body
(argument minting, operation substitution, block construction) is inlined
here so the recursion is structural; `fromIBlock` below is that same body
and `substBlocks_rebuild_eq` records the equality — otherwise the block is
reused by reference. -/
def substBlocks (blocks : List IBlock) (env : Env) (σ : Nat) :
    Except String (List IBlock × Bool × Env × Nat) :=
  match blocks with
  | [] => .ok ([], false, env, σ)
  | b :: rest =>
    if IOp.deepAnyBlock (opRefsEnv env) b then
      match b with
      | .mk bid args ops => do
        let (blockArgs, env1, σ1) := mintArgs args env σ
        let (newOps, env2, σ2) ← substOps ops env1 σ1
        let (b', σ3) := IBlock.makeFromArgs blockArgs newOps σ2
        let (rest', _, env3, σ4) ← substBlocks rest env2 σ3
        .ok (b' :: rest', true, env3, σ4)
    else do
      let (rest', reqs, env2, σ2) ← substBlocks rest env σ
      .ok (b :: rest', reqs, env2, σ2)
end

/-- `IBlock.from_iblock(ops, old_block, env)`: mints fresh block arguments
(recorded in `env`), rebuilds exactly the given operations that require
substitution, and builds the replacement block. -/
def fromIBlock (ops : List IOp) (oldBlock : IBlock) (env : Env) (σ : Nat) :
    Except String (IBlock × Env × Nat) := do
  let (blockArgs, env1, σ1) := mintArgs oldBlock.args env σ
  let (newOps, env2, σ2) ← substOps ops env1 σ1
  let (blk, σ3) := IBlock.makeFromArgs blockArgs newOps σ2
  .ok (blk, env2, σ3)

/-- The rebuild branch of `substBlocks` is exactly the recursive
`from_iblock` call of the source. -/
theorem substBlocks_rebuild_eq (b : IBlock) (rest : List IBlock) (env : Env)
    (σ : Nat) (h : IOp.deepAnyBlock (opRefsEnv env) b = true) :
    substBlocks (b :: rest) env σ =
      (do
        let (b', env1, σ1) ← fromIBlock b.ops b env σ
        let (rest', _, env2, σ2) ← substBlocks rest env1 σ1
        .ok (b' :: rest', true, env2, σ2) :
        Except String (List IBlock × Bool × Env × Nat)) := by
  cases b with
  | mk bid args ops =>
    rw [substBlocks]
    simp only [h, if_pos]
    rw [fromIBlock]
    simp only [IBlock.args, IBlock.ops, bind, Except.bind]
    cases mintArgs args env σ with
    | mk blockArgs p =>
      obtain ⟨env1, σ1⟩ := p
      cases substOps ops env1 σ1 with
      | error e => rfl
      | ok q =>
        obtain ⟨newOps, env2, σ2⟩ := q
        rfl

/-! ## The mutable IR core model

Modelled from the spec: the mutable `Operation`/`Block`/`Region`/`SSAValue`
classes of `xdsl.ir` are not part of the provided sources (only their
callers in `immutable_ir.py` are), so they are reconstructed from the
spec's data model (§3) and operation-factory contract (§4.1, §6):
operations carry operands, declared result types, attributes, successor
blocks and owned regions; result values are synthesized with strictly
increasing indices from zero; values are `OpResult`/`BlockArgument`
variants identified by their definition site; equality and hashing of IR
nodes are identity-based (§9), modelled by `Nat` identity tags. -/

/-- Modelled from the spec: a mutable `BlockArgument` — owning-block link
dropped (no embedded operation reads it), identity, type and index. -/
structure MBlockArg where
  vid : Nat
  typ : Attr
  index : Nat
  deriving DecidableEq, Repr

mutual
/-- Modelled from the spec: a mutable `SSAValue` — an `OpResult` carrying
its producing operation (the producer reference may be absent, as in the
dangling placeholder `OpResult(typ, None, 0)`), or a `BlockArgument`. -/
inductive MVal : Type where
  | opResult (vid : Nat) (typ : Attr) (producer : Option MOp) (index : Nat)
  | blockArg (a : MBlockArg)

/-- Modelled from the spec: a mutable `Operation`.  `resVidBase` is the
identity of the first synthesized result value (result `i` has identity
`resVidBase + i`); the name is the class-level name of its kind. -/
inductive MOp : Type where
  | mk (moid : Nat) (opType : OpType) (operands : List MVal)
       (resultTypes : List Attr) (resVidBase : Nat) (attributes : AttrDict)
       (successors : List MBlock) (regions : List MRegion)

/-- Modelled from the spec: a mutable `Block` with arguments and owned
operations; `parentSet` records whether the block has been attached to a
parent region. -/
inductive MBlock : Type where
  | mk (mbid : Nat) (args : List MBlockArg) (ops : List MOp) (parentSet : Bool)

/-- Modelled from the spec: a mutable `Region` owning its blocks. -/
inductive MRegion : Type where
  | mk (blocks : List MBlock)
end

namespace MVal

/-- The identity of a mutable value (identity-based `__eq__`/`__hash__`). -/
def vid : MVal → Nat
  | .opResult v _ _ _ => v
  | .blockArg a => a.vid

def typ : MVal → Attr
  | .opResult _ t _ _ => t
  | .blockArg a => a.typ

end MVal

namespace MOp

def moid : MOp → Nat
  | .mk i _ _ _ _ _ _ _ => i

def opType : MOp → OpType
  | .mk _ t _ _ _ _ _ _ => t

def operands : MOp → List MVal
  | .mk _ _ os _ _ _ _ _ => os

def resultTypes : MOp → List Attr
  | .mk _ _ _ ts _ _ _ _ => ts

def resVidBase : MOp → Nat
  | .mk _ _ _ _ b _ _ _ => b

def attributes : MOp → AttrDict
  | .mk _ _ _ _ _ a _ _ => a

def successors : MOp → List MBlock
  | .mk _ _ _ _ _ _ ss _ => ss

def regions : MOp → List MRegion
  | .mk _ _ _ _ _ _ _ rs => rs

/-- `Operation.name`: the class-level operation name. -/
def name (op : MOp) : String := op.opType.pyName

/-- The synthesized result values of a mutable operation. -/
def results (op : MOp) : List MVal :=
  op.resultTypes.mapIdx fun i t => MVal.opResult (op.resVidBase + i) t (some op) i

/-- Modelled from the spec: `op_type.create(operands, result_types,
attributes, successors, regions)` — the operation factory contract. -/
def create (opType : OpType) (operands : List MVal) (resultTypes : List Attr)
    (attributes : AttrDict) (successors : List MBlock)
    (regions : List MRegion) (σ : Nat) : MOp × Nat :=
  (.mk σ opType operands resultTypes (σ + 1) attributes successors regions,
   σ + 1 + resultTypes.length)

end MOp

def MBlock.mbid : MBlock → Nat
  | .mk i _ _ _ => i

def MBlock.margs : MBlock → List MBlockArg
  | .mk _ a _ _ => a

def MBlock.mops : MBlock → List MOp
  | .mk _ _ o _ => o

def MBlock.parentSet : MBlock → Bool
  | .mk _ _ _ p => p

def MRegion.mblocks : MRegion → List MBlock
  | .mk bs => bs

/-- Modelled from the spec: `Block.from_arg_types` — a fresh unattached
block whose arguments are minted with increasing indices. -/
def MBlock.fromArgTypes (types : List Attr) (σ : Nat) : MBlock × Nat :=
  let args := types.mapIdx fun i t => (⟨σ + 1 + i, t, i⟩ : MBlockArg)
  (.mk σ args [] false, σ + 1 + types.length)

/-- Modelled from the spec: `Block.add_op` appends an operation to the
block. -/
def MBlock.addOp (b : MBlock) (op : MOp) : MBlock :=
  .mk b.mbid b.margs (b.mops ++ [op]) b.parentSet

/-- Modelled from the spec: `Region.from_block_list` — a region owning the
given blocks, which become attached. -/
def MRegion.fromBlockList (blocks : List MBlock) : MRegion :=
  .mk (blocks.map fun b => .mk b.mbid b.margs b.mops true)

/-! ## `from_mutable`: converting the mutable IR to the immutable mirror

`value_map : dict[SSAValue, ISSAValue]` and
`block_map : dict[Block, IBlock]` are keyed by the identity of the mutable
nodes. -/

/-- `value_map` of the mutable-to-immutable direction, keyed by mutable
value identity. -/
abbrev FVMap := List (Nat × IVal)

/-- `block_map` of the mutable-to-immutable direction, keyed by mutable
block identity. -/
abbrev FBMap := List (Nat × IBlock)

def FVMap.find? (m : FVMap) (vid : Nat) : Option IVal :=
  (List.find? (fun p => p.1 == vid) m).map (·.2)

def FBMap.find? (m : FBMap) (mbid : Nat) : Option IBlock :=
  (List.find? (fun p => p.1 == mbid) m).map (·.2)

theorem msizeOf_operands_lt (op : MOp) : sizeOf op.operands < sizeOf op := by
  cases op with
  | mk a b c d e f g h => simp [MOp.operands] <;> omega

theorem msizeOf_successors_lt (op : MOp) : sizeOf op.successors < sizeOf op := by
  cases op with
  | mk a b c d e f g h => simp [MOp.successors] <;> omega

theorem msizeOf_regions_lt (op : MOp) : sizeOf op.regions < sizeOf op := by
  cases op with
  | mk a b c d e f g h => simp [MOp.regions] <;> omega

theorem msizeOf_mops_lt (b : MBlock) : sizeOf b.mops < sizeOf b := by
  cases b with
  | mk i a o p => simp [MBlock.mops] <;> omega

theorem msizeOf_mblocks_succ_le (r : MRegion) : sizeOf r.mblocks + 1 ≤ sizeOf r := by
  cases r with
  | mk bs => simp [MRegion.mblocks] <;> omega

/-- The argument loop of `IBlock.from_mutable`: each immutable argument is
freshly minted with the mutable argument's type and index and recorded in
the value map. -/
def convFArgs (args : List MBlockArg) (vm : FVMap) (σ : Nat) :
    List IBlockArg × FVMap × Nat :=
  match args with
  | [] => ([], vm, σ)
  | a :: rest =>
    let ia : IBlockArg := ⟨a.typ, σ, a.index⟩
    let (ias, vm1, σ1) := convFArgs rest ((a.vid, .blockArg ia) :: vm) (σ + 1)
    (ia :: ias, vm1, σ1)

/-- The result-registration loop closing `IOp.from_mutable`:
`value_map[result] = immutable_op.results[idx]`. -/
def registerResults (op : MOp) (iop : IOp) (vm : FVMap) : FVMap :=
  (op.results.zip iop.results).foldl
    (fun m (p : MVal × IVal) => (p.1.vid, p.2) :: m) vm

mutual
/-- `IOp.from_mutable`: creates an immutable view of a mutable operation
and all nested regions, threading the value/block correspondence maps. -/
def iopFromMutable (op : MOp) (vm : FVMap) (bm : FBMap) (σ : Nat) :
    Except String (IOp × FVMap × FBMap × Nat) :=
  match op with
  | .mk moid t operands rts rvb attrs succ regs => do
    let (opndsI, σ1) ← convMOperands t.pyName operands vm σ
    let (succI, bm1, σ2) ← convMSuccessors succ bm σ1
    let (regsI, vm1, bm2, σ3) ← convMRegions regs vm bm1 σ2
    let (iop, σ4) := IOp.get t.pyName t opndsI rts attrs succI regsI σ3
    .ok (iop, registerResults (.mk moid t operands rts rvb attrs succ regs)
      iop vm1, bm2, σ4)

/-- The operand loop of `IOp.from_mutable`. -/
def convMOperands (opName : String) (vals : List MVal) (vm : FVMap) (σ : Nat) :
    Except String (List IVal × Nat) :=
  match vals with
  | [] => .ok ([], σ)
  | v :: rest => do
    let (iv, σ1) ← convMOperand opName v vm σ
    let (ivs, σ2) ← convMOperands opName rest vm σ1
    .ok (iv :: ivs, σ2)

/-- One operand of `IOp.from_mutable`: an `OpResult` already in the map
resolves to the mapped result's producing operation (`.op` on a mapped
block argument is an `AttributeError`); an unmapped `OpResult` is
converted on demand by a recursive `IOp.from_mutable(operand.op)` with
fresh empty maps; a `BlockArgument` must already be mapped. -/
def convMOperand (opName : String) (v : MVal) (vm : FVMap) (σ : Nat) :
    Except String (IVal × Nat) :=
  match v with
  | .opResult vid typ producer idx =>
    (match FVMap.find? vm vid with
    | some (.result _ o _) => .ok (.result typ o idx, σ)
    | some (.blockArg _) => .error "AttributeError"
    | none =>
      match producer with
      | none => .error "AssertionError: isinstance(op, Operation)"
      | some p => do
        let (o, _, _, σ1) ← iopFromMutable p [] [] σ
        .ok (.result typ o idx, σ1))
  | .blockArg a =>
    match FVMap.find? vm a.vid with
    | some iv => .ok (iv, σ)
    | none => .error ("Block argument expected in mapping for op: " ++ opName)

/-- The successor loop of `IOp.from_mutable`: an unmapped successor block
is converted by `IBlock.from_mutable(successor)` with fresh empty maps and
then registered. -/
def convMSuccessors (succ : List MBlock) (bm : FBMap) (σ : Nat) :
    Except String (List IBlock × FBMap × Nat) :=
  match succ with
  | [] => .ok ([], bm, σ)
  | s :: rest =>
    match FBMap.find? bm s.mbid with
    | some ib => do
      let (ibs, bm1, σ1) ← convMSuccessors rest bm σ
      .ok (ib :: ibs, bm1, σ1)
    | none => do
      let (ib, _, _, σ1) ← iblockFromMutable s [] [] σ
      let (ibs, bm1, σ2) ← convMSuccessors rest ((s.mbid, ib) :: bm) σ1
      .ok (ib :: ibs, bm1, σ2)

/-- The region loop of `IOp.from_mutable`, each region converted by
`IRegion.from_mutable(region.blocks, value_map, block_map)` — whose body
(block conversion, the parent assert, region construction) is inlined here
so the recursion is structural; `iregionFromMutable` below is that same
body and `convMRegions_cons_eq` records the equality. -/
def convMRegions (regions : List MRegion) (vm : FVMap) (bm : FBMap) (σ : Nat) :
    Except String (List IRegion × FVMap × FBMap × Nat) :=
  match regions with
  | [] => .ok ([], vm, bm, σ)
  | .mk blocks :: rest => do
    let (ibs, vm1, bm1, σ1) ← convFBlocks blocks vm bm σ
    match blocks with
    | [] => .error "IndexError"
    | b :: _ =>
      if b.parentSet then do
        let (ir, σ2) := IRegion.make ibs σ1
        let (irs, vm2, bm2, σ3) ← convMRegions rest vm1 bm1 σ2
        .ok (ir :: irs, vm2, bm2, σ3)
      else .error "AssertionError: blocks[0].parent is not None"

def convFBlocks (blocks : List MBlock) (vm : FVMap) (bm : FBMap) (σ : Nat) :
    Except String (List IBlock × FVMap × FBMap × Nat) :=
  match blocks with
  | [] => .ok ([], vm, bm, σ)
  | b :: rest => do
    let (ib, vm1, bm1, σ1) ← iblockFromMutable b vm bm σ
    let (ibs, vm2, bm2, σ2) ← convFBlocks rest vm1 bm1 σ1
    .ok (ib :: ibs, vm2, bm2, σ2)

/-- `IBlock.from_mutable`: mints immutable block arguments (recorded in
the value map), converts the operations with the shared maps and builds
the immutable block.  The new block is not recorded in `block_map`. -/
def iblockFromMutable (b : MBlock) (vm : FVMap) (bm : FBMap) (σ : Nat) :
    Except String (IBlock × FVMap × FBMap × Nat) :=
  match b with
  | .mk mbid margs mops parent => do
    let (iargs, vm1, σ1) := convFArgs margs vm σ
    let (iops, vm2, bm1, σ2) ← convFOps mops vm1 bm σ1
    let (ib, σ3) := IBlock.makeFromArgs iargs iops σ2
    .ok (ib, vm2, bm1, σ3)

def convFOps (ops : List MOp) (vm : FVMap) (bm : FBMap) (σ : Nat) :
    Except String (List IOp × FVMap × FBMap × Nat) :=
  match ops with
  | [] => .ok ([], vm, bm, σ)
  | op :: rest => do
    let (iop, vm1, bm1, σ1) ← iopFromMutable op vm bm σ
    let (iops, vm2, bm2, σ2) ← convFOps rest vm1 bm1 σ1
    .ok (iop :: iops, vm2, bm2, σ2)
end

/-- `IRegion.from_mutable`: converts the blocks in order with shared maps;
`assert blocks[0].parent is not None` runs after the conversion (indexing
an empty block list raises). -/
def iregionFromMutable (blocks : List MBlock) (vm : FVMap) (bm : FBMap)
    (σ : Nat) : Except String (IRegion × FVMap × FBMap × Nat) := do
  let (ibs, vm1, bm1, σ1) ← convFBlocks blocks vm bm σ
  match blocks with
  | [] => .error "IndexError"
  | b :: _ =>
    if b.parentSet then
      let (ir, σ2) := IRegion.make ibs σ1
      .ok (ir, vm1, bm1, σ2)
    else .error "AssertionError: blocks[0].parent is not None"

/-- The region step of `convMRegions` is exactly the
`IRegion.from_mutable` call of the source. -/
theorem convMRegions_cons_eq (r : MRegion) (rest : List MRegion) (vm : FVMap)
    (bm : FBMap) (σ : Nat) :
    convMRegions (r :: rest) vm bm σ =
      (do
        let (ir, vm1, bm1, σ1) ← iregionFromMutable r.mblocks vm bm σ
        let (irs, vm2, bm2, σ2) ← convMRegions rest vm1 bm1 σ1
        .ok (ir :: irs, vm2, bm2, σ2) :
        Except String (List IRegion × FVMap × FBMap × Nat)) := by
  cases r with
  | mk blocks =>
    rw [convMRegions, iregionFromMutable]
    simp only [MRegion.mblocks, bind, Except.bind]
    cases convFBlocks blocks vm bm σ with
    | error e => rfl
    | ok p =>
      obtain ⟨ibs, vm1, bm1, σ1⟩ := p
      match blocks with
      | [] => rfl
      | b :: bs =>
        by_cases hp : b.parentSet
        · simp [hp]
        · simp [hp]

/-- `get_immutable_copy(op) = IOp.from_mutable(op, {})`. -/
def getImmutableCopy (op : MOp) (σ : Nat) :
    Except String (IOp × FVMap × FBMap × Nat) :=
  iopFromMutable op [] [] σ

/-! ## `get_mutable_copy`: rebuilding a fresh mutable subgraph

`value_mapping : dict[ISSAValue, SSAValue]` is keyed by the immutable
values' `__eq__`/`__hash__`; `block_mapping : dict[IBlock, Block]` by
immutable block identity. -/

/-- `value_mapping` of the immutable-to-mutable direction. -/
abbrev TVMap := List (IVal × MVal)

/-- `block_mapping` of the immutable-to-mutable direction, keyed by
immutable block identity. -/
abbrev TBMap := List (Nat × MBlock)

def TVMap.find? (m : TVMap) (v : IVal) : Option MVal :=
  (List.find? (fun p => IVal.beqKey p.1 v) m).map (·.2)

def TBMap.find? (m : TBMap) (bid : Nat) : Option MBlock :=
  (List.find? (fun p => p.1 == bid) m).map (·.2)

/-- The operand loop of `IOp.get_mutable_copy`: a mapped operand resolves
through `value_mapping`; for an unmapped operand the code prints
`ERROR: op <name> uses SSAValue before definition` (an I/O effect outside
the embedding) and continues with a freshly allocated dangling placeholder
`OpResult(operand.typ, None, 0)`. -/
def copyTOperands (vals : List IVal) (vm : TVMap) (σ : Nat) :
    List MVal × Nat :=
  match vals with
  | [] => ([], σ)
  | v :: rest =>
    match TVMap.find? vm v with
    | some mv =>
      let (mvs, σ1) := copyTOperands rest vm σ
      (mv :: mvs, σ1)
    | none =>
      let ph := MVal.opResult σ v.typ none 0
      let (mvs, σ1) := copyTOperands rest vm (σ + 1)
      (ph :: mvs, σ1)

/-- The successor loop of `IOp.get_mutable_copy`: an unmapped successor
raises `Block used before definition`. -/
def copyTSuccessors (succ : List IBlock) (bm : TBMap) :
    Except String (List MBlock) :=
  match succ with
  | [] => .ok []
  | s :: rest =>
    match TBMap.find? bm s.bid with
    | some mb => do
      let mbs ← copyTSuccessors rest bm
      .ok (mb :: mbs)
    | none => .error "Block used before definition"

/-- The result-registration loop closing `IOp.get_mutable_copy`:
`value_mapping[result] = new_op.results[idx]`. -/
def registerTResults (iop : IOp) (mop : MOp) (vm : TVMap) : TVMap :=
  (iop.results.zip mop.results).foldl
    (fun m (p : IVal × MVal) => (p.1, p.2) :: m) vm

mutual
/-- `IOp.get_mutable_copy`: rebuilds a fresh mutable operation, threading
the value and block mappings. -/
def iopGetMutableCopy (op : IOp) (vm : TVMap) (bm : TBMap) (σ : Nat) :
    Except String (MOp × TVMap × TBMap × Nat) :=
  match op with
  | .mk oid d os ts ss rs => do
    let (mopnds, σ1) := copyTOperands os vm σ
    let msuccs ← copyTSuccessors ss bm
    let (mregs, vm1, bm1, σ2) ← copyTRegions rs vm bm σ1
    let (mop, σ3) := MOp.create d.opType mopnds ts d.attributes msuccs mregs σ2
    .ok (mop, registerTResults (.mk oid d os ts ss rs) mop vm1, bm1, σ3)

def copyTRegions (regions : List IRegion) (vm : TVMap) (bm : TBMap) (σ : Nat) :
    Except String (List MRegion × TVMap × TBMap × Nat) :=
  match regions with
  | [] => .ok ([], vm, bm, σ)
  | r :: rest => do
    let (mr, vm1, bm1, σ1) ← iregionGetMutableCopy r vm bm σ
    let (mrs, vm2, bm2, σ2) ← copyTRegions rest vm1 bm1 σ1
    .ok (mr :: mrs, vm2, bm2, σ2)

/-- `IRegion.get_mutable_copy`: copies the blocks in order (sharing the
maps) and attaches them through `Region.from_block_list`. -/
def iregionGetMutableCopy (r : IRegion) (vm : TVMap) (bm : TBMap) (σ : Nat) :
    Except String (MRegion × TVMap × TBMap × Nat) :=
  match r with
  | .mk rid blocks => do
    let (mbs, vm1, bm1, σ1) ← copyTBlocks blocks vm bm σ
    .ok (MRegion.fromBlockList mbs, vm1, bm1, σ1)

def copyTBlocks (blocks : List IBlock) (vm : TVMap) (bm : TBMap) (σ : Nat) :
    Except String (List MBlock × TVMap × TBMap × Nat) :=
  match blocks with
  | [] => .ok ([], vm, bm, σ)
  | b :: rest => do
    let (mb, vm1, bm1, σ1) ← iblockGetMutableCopy b vm bm σ
    let (mbs, vm2, bm2, σ2) ← copyTBlocks rest vm1 bm1 σ1
    .ok (mb :: mbs, vm2, bm2, σ2)

/-- `IBlock.get_mutable_copy`: mints a fresh mutable block from the
argument types, records the argument correspondences and the block
mapping, then copies and appends the operations.  In Python the same
block object is mutated in place by `add_op`, so the reference recorded in
`block_mapping` observes the appended operations; the term recorded here
is the block as of registration, with its identity `mbid` — the only part
any embedded lookup reads — already final. -/
def iblockGetMutableCopy (b : IBlock) (vm : TVMap) (bm : TBMap) (σ : Nat) :
    Except String (MBlock × TVMap × TBMap × Nat) :=
  match b with
  | .mk bid args ops => do
    let (shell, σ1) := MBlock.fromArgTypes (args.map (·.typ)) σ
    let vm1 := (args.zip shell.margs).foldl
      (fun m (p : IBlockArg × MBlockArg) =>
        (IVal.blockArg p.1, MVal.blockArg p.2) :: m) vm
    let bm1 := (bid, shell) :: bm
    let (mopsL, vm2, bm2, σ2) ← copyTOps ops vm1 bm1 σ1
    .ok (mopsL.foldl MBlock.addOp shell, vm2, bm2, σ2)

def copyTOps (ops : List IOp) (vm : TVMap) (bm : TBMap) (σ : Nat) :
    Except String (List MOp × TVMap × TBMap × Nat) :=
  match ops with
  | [] => .ok ([], vm, bm, σ)
  | op :: rest => do
    let (mop, vm1, bm1, σ1) ← iopGetMutableCopy op vm bm σ
    let (mops, vm2, bm2, σ2) ← copyTOps rest vm1 bm1 σ1
    .ok (mop :: mops, vm2, bm2, σ2)
end

/-! ## The constraint matcher (`sasha_rewrite_pattern.py`)

The matcher operates on the mutable `xdsl.ir` operations, which are not
part of the provided sources; the operation view it needs is modelled from
the spec's operation-factory contract (named field projection via
`getattr`, identity-based node equality, structural attribute equality). -/

mutual
/-- Modelled from the spec: the operation view seen by the matcher — an
identity, a kind (Python class) and the named fields reachable via
`getattr` (dialect accessors such as `lhs` or an attribute property). -/
inductive QOp : Type where
  | mk (qoid : Nat) (tyTag : OpType) (fields : List (String × QVal))

/-- A value bindable in a match context: an operation, an attribute, an
operation result (carrying its producing operation, as the `.op`
reference does) or a plain SSA value. -/
inductive QVal : Type where
  | qop (o : QOp)
  | qattr (a : Attr)
  | qres (vid : Nat) (producer : QOp) (index : Nat)
  | qssa (vid : Nat)
end

def QOp.qoid : QOp → Nat
  | .mk i _ _ => i

def QOp.tyTag : QOp → OpType
  | .mk _ t _ => t

def QOp.fields : QOp → List (String × QVal)
  | .mk _ _ f => f

/-- Python `==` on bindable values: identity for IR nodes (operations,
results, values), structural for attributes, `False` across variants. -/
def qvalBeq : QVal → QVal → Bool
  | .qop a, .qop b => a.qoid == b.qoid
  | .qattr a, .qattr b => a == b
  | .qres v _ _, .qres w _ _ => v == w
  | .qssa a, .qssa b => a == b
  | _, _ => false

/-- A Python class as used in `isinstance` checks by `TypeConstraint`. -/
inductive PyClass : Type where
  | opClass (t : OpType)
  deriving DecidableEq, Repr

/-- `isinstance(value, cls)`. -/
def QVal.isInst : QVal → PyClass → Bool
  | .qop o, .opClass t => o.tyTag == t
  | _, _ => false

/-- `MatchContext.ctx : dict[str, Any]`. -/
abbrev MatchCtx := List (String × QVal)

def MatchCtx.find? (ctx : MatchCtx) (name : String) : Option QVal :=
  (List.find? (fun p => p.1 == name) ctx).map (·.2)

/-- `Variable.get`: reads the binding, a `KeyError` when unbound. -/
def varGet (name : String) (ctx : MatchCtx) : Except String QVal :=
  match ctx.find? name with
  | some v => .ok v
  | none => .error ("KeyError: " ++ name)

/-- `Variable.set`: establishes a new binding and returns `True` when the
name is unbound; when already bound, leaves the context unchanged and
returns whether the new value equals the existing binding. -/
def varSet (name : String) (ctx : MatchCtx) (val : QVal) : Bool × MatchCtx :=
  match ctx.find? name with
  | some existing => (qvalBeq val existing, ctx)
  | none => (true, (name, val) :: ctx)

/-- `getattr(op_value, field_name)`: an `AttributeError` when the bound
value is not an operation or lacks the field. -/
def getattrQ (v : QVal) (fieldName : String) : Except String QVal :=
  match v with
  | .qop o =>
    match (List.find? (fun p => p.1 == fieldName) o.fields).map (·.2) with
    | some w => .ok w
    | none => .error "AttributeError"
  | _ => .error "AttributeError"

/-- The constraint kinds of `sasha_rewrite_pattern.py`, referring to
variables by name. -/
inductive Constraint : Type where
  | eqC (lhsVar rhsVar : String)
  | typeC (var : String) (cls : PyClass)
  | attrValueC (attrVar : String) (attr : Attr)
  | opAttrC (opVar : String) (attrName : String) (attrVar : String)
  | opOperandC (opVar : String) (operandName : String) (operandVar : String)
  | opResultC (opVar : String) (resName : String) (resVar : String)
  | opResultOpC (resVar : String) (opVar : String)

/-- The shared body of the three field-projection constraints:
`b_obj = getattr(a_obj, name); return var.set(ctx, b_obj)`. -/
def projMatch (srcVar fieldName dstVar : String) (ctx : MatchCtx) :
    Except String (Bool × MatchCtx) := do
  let a ← varGet srcVar ctx
  let b ← getattrQ a fieldName
  .ok (varSet dstVar ctx b)

/-- `Constraint.match`: evaluates one constraint against the context;
reading an unbound variable raises. -/
def Constraint.matchC : Constraint → MatchCtx → Except String (Bool × MatchCtx)
  | .eqC lhsVar rhsVar, ctx => do
    let val ← varGet lhsVar ctx
    .ok (varSet rhsVar ctx val)
  | .typeC var cls, ctx => do
    let v ← varGet var ctx
    .ok (v.isInst cls, ctx)
  | .attrValueC attrVar attr, ctx => do
    let v ← varGet attrVar ctx
    .ok (qvalBeq v (.qattr attr), ctx)
  | .opAttrC opVar attrName attrVar, ctx => projMatch opVar attrName attrVar ctx
  | .opOperandC opVar operandName operandVar, ctx =>
    projMatch opVar operandName operandVar ctx
  | .opResultC opVar resName resVar, ctx => projMatch opVar resName resVar ctx
  | .opResultOpC resVar opVar, ctx => do
    let v ← varGet resVar ctx
    match v with
    | .qres _ producer _ => .ok (varSet opVar ctx (.qop producer))
    | _ => .error "AttributeError"

/-- `Query`: declared variable names (`variables` in the source) and
ordered constraints. -/
structure Query where
  varNames : List String
  constraints : List Constraint

/-- `Query.root(root_type)`: the `root` variable pre-constrained to the
required kind. -/
def Query.root (rootType : OpType) : Query :=
  ⟨["root"], [.typeC "root" (.opClass rootType)]⟩

/-- The constraint loop of `Query.match`: evaluates the constraints in
declaration order, short-circuiting to the no-match result on the first
constraint returning `False` (an exception from a constraint
propagates). -/
def runConstraints : List Constraint → MatchCtx → Except String (Option MatchCtx)
  | [], ctx => .ok (some ctx)
  | c :: rest, ctx => do
    let (b, ctx') ← c.matchC ctx
    if b then runConstraints rest ctx' else .ok none

/-- The binding-collection comprehension of `Query.match`:
`{name: ctx.ctx[name] for name in var_names}` — a `KeyError` for any
declared variable left unbound. -/
def buildBindings (names : List String) (ctx : MatchCtx) :
    Except String (List (String × QVal)) :=
  match names with
  | [] => .ok []
  | n :: rest =>
    match ctx.find? n with
    | some v => do
      let m ← buildBindings rest ctx
      .ok ((n, v) :: m)
    | none => .error ("KeyError: " ++ n)

/-- `Query.match(operation)`: runs the constraints from the context
pre-binding `root` to the operation; on success collects one binding per
declared variable name (`var_names` is a Python `set`, modelled by
deduplicating the name list; the closing
`assert var_names == set(match)` always holds once the comprehension has
succeeded). -/
def Query.matchQ (q : Query) (operation : QOp) :
    Except String (Option (List (String × QVal))) := do
  let ctx0 : MatchCtx := [("root", .qop operation)]
  match ← runConstraints q.constraints ctx0 with
  | none => .ok none
  | some ctx => do
    let m ← buildBindings q.varNames.dedup ctx
    .ok (some m)

/-! # Theorems -/

/-! ## C2: sealing of the immutable mirror's containers -/

/-- C2 counterexample: the claim asserts that no sealed container ever
changes its length or element order after sealing, by any means.  That is
false: `IList` overrides only six mutators, and `list.reverse` — inherited
unchanged from the built-in `list` — reorders a sealed container without
raising.  Here a frozen `IList` holding `[1, 2]` is reversed to `[2, 1]`
with no error. -/
theorem C2_counterexample :
    (IList.freeze (IList.ofList [1, 2])).frozenFlag = true ∧
    IList.reverse (IList.freeze (IList.ofList [1, 2])) =
      { data := [2, 1], frozenFlag := true } ∧
    ([2, 1] : List Nat) ≠ [1, 2] :=
  ⟨rfl, rfl, by decide⟩

/-- C2 (amended): after sealing, each of the six overridden mutators —
`append`, `extend`, `insert`, `remove`, `pop`, `clear` — raises the
immutability-violation error; mutators inherited from the built-in `list`
(such as `reverse` or item assignment) are not overridden and can still
change a sealed container. -/
theorem C2_sealed_overrides_raise {α : Type} [DecidableEq α] (l : IList α)
    (x : α) (xs : List α) (i : Nat) (h : l.frozenFlag = true) :
    l.append x = .error "frozen list can not be modified" ∧
    l.extend xs = .error "frozen list can not be modified" ∧
    l.insertAt i x = .error "frozen list can not be modified" ∧
    l.removeVal x = .error "frozen list can not be modified" ∧
    l.pop i = .error "frozen list can not be modified" ∧
    l.clear = .error "frozen list can not be modified" := by
  refine ⟨?_, ?_, ?_, ?_, ?_, ?_⟩ <;>
    simp [IList.append, IList.extend, IList.insertAt, IList.removeVal,
      IList.pop, IList.clear, h]

/-- C2 witness: the amended theorem applied to a concrete sealed list. -/
theorem C2_witness :
    (IList.mk [1, 2] true).append 3 = .error "frozen list can not be modified" ∧
    (IList.mk [1, 2] true).extend [4] = .error "frozen list can not be modified" ∧
    (IList.mk [1, 2] true).insertAt 0 3 = .error "frozen list can not be modified" ∧
    (IList.mk [1, 2] true).removeVal 3 = .error "frozen list can not be modified" ∧
    (IList.mk [1, 2] true).pop 0 = .error "frozen list can not be modified" ∧
    (IList.mk [1, 2] true).clear = .error "frozen list can not be modified" :=
  C2_sealed_overrides_raise (IList.mk [1, 2] true) 3 [4] 0 rfl

/-! ## C9: identity-based node equality, structural attribute equality -/

/-- C9: equality of immutable IR nodes is identity-based, not structural.
Running the same constructor twice (the second starting from the
allocation state the first left behind) yields structurally identical but
unequal nodes, for operations (`IOp.get`), blocks, regions and block
arguments; an `IResult` equals another exactly when the producing
operation is the same instance and the result index coincides; attributes
by contrast compare structurally, so separately constructed equal-payload
attributes are equal. -/
theorem C9_identity_equality (σ : Nat) (name : String) (t : OpType)
    (os : List IVal) (ts : List Attr) (ats : AttrDict) (ss : List IBlock)
    (rs : List IRegion) (args : List IBlockArg) (ops : List IOp)
    (blocks : List IBlock) (ta : Attr) (ia : Nat) :
    -- two separately constructed, structurally identical operations
    IOp.beqId (IOp.get name t os ts ats ss rs σ).1
      (IOp.get name t os ts ats ss rs σ).1 = true ∧
    IOp.beqId (IOp.get name t os ts ats ss rs σ).1
      (IOp.get name t os ts ats ss rs (IOp.get name t os ts ats ss rs σ).2).1
      = false ∧
    -- `IResult.__eq__`: same producing instance and same index
    (∀ (ty ty' : Attr) (i j : Nat),
      IVal.beqKey (.result ty (IOp.get name t os ts ats ss rs σ).1 i)
        (.result ty' (IOp.get name t os ts ats ss rs σ).1 j) = (i == j)) ∧
    (∀ (ty ty' : Attr) (i : Nat),
      IVal.beqKey (.result ty (IOp.get name t os ts ats ss rs σ).1 i)
        (.result ty'
          (IOp.get name t os ts ats ss rs
            (IOp.get name t os ts ats ss rs σ).2).1 i) = false) ∧
    -- separately constructed blocks, regions and block arguments
    IBlock.beqId (IBlock.makeFromArgs args ops σ).1
      (IBlock.makeFromArgs args ops (IBlock.makeFromArgs args ops σ).2).1
      = false ∧
    IRegion.beqId (IRegion.make blocks σ).1
      (IRegion.make blocks (IRegion.make blocks σ).2).1 = false ∧
    IVal.beqKey (.blockArg ⟨ta, σ, ia⟩) (.blockArg ⟨ta, σ + 1, ia⟩) = false ∧
    -- attributes: structural value equality
    (∀ a : Attr, (a == a) = true) ∧
    (∀ v w : Nat, ((Attr.intAttr v w) == (Attr.intAttr v w)) = true) := by
  refine ⟨?_, ?_, ?_, ?_, ?_, ?_, ?_, ?_, ?_⟩ <;>
    simp [IOp.get, IOp.make, OpData.make, IOp.beqId, IOp.oid, IVal.beqKey,
      IBlock.makeFromArgs, IBlock.beqId, IBlock.bid, IRegion.make,
      IRegion.beqId, IRegion.rid]

/-! ## C10: the `RewriteId` special case of `_unpack_operands` -/

/-- The value placed at position `k` of the unpacked operand list is the
one `unpackStep` computes for the `k`-th operand argument (from some
intermediate accumulator). -/
theorem unpackGo_pos (args : List OpndArg) (env : Env) :
    ∀ (acc : List IOp) (vals : List IVal) (rops : List IOp) (k : Nat)
      (a : OpndArg),
      unpackGo args env acc = .ok (vals, rops) → args[k]? = some a →
      ∃ v acc1 acc2, unpackStep a env acc1 = .ok (v, acc2) ∧
        vals[k]? = some v := by
  induction args with
  | nil =>
    intro acc vals rops k a h hk
    simp at hk
  | cons hd tl ih =>
    intro acc vals rops k a h hk
    rw [unpackGo] at h
    simp only [bind, Except.bind] at h
    cases hstep : unpackStep hd env acc with
    | error e => simp [hstep] at h
    | ok p =>
      obtain ⟨v0, acc1⟩ := p
      simp only [hstep] at h
      cases hrest : unpackGo tl env acc1 with
      | error e => simp [hrest] at h
      | ok q =>
        obtain ⟨vs, acc2⟩ := q
        simp only [hrest] at h
        simp at h
        obtain ⟨hv, _⟩ := h
        cases k with
        | zero =>
          simp at hk
          subst hk
          exact ⟨v0, acc, acc1, hstep, by simp [← hv]⟩
        | succ k' =>
          simp at hk
          obtain ⟨v, a1, a2, hs, hidx⟩ := ih acc1 vs acc2 k' a hrest hk
          exact ⟨v, a1, a2, hs, by simp [← hv, hidx]⟩

/-- C10: an operand of `new_op` that resolves to a result of a
`RewriteId`-kind operation is not used as the constructed operation's
operand; the last operand of that `RewriteId` operation silently takes its
place. -/
theorem C10_rewriteid_unwrap (t : OpType) (args : List OpndArg)
    (rts : Option (List Attr)) (ats : Option AttrDict)
    (ss : Option (List IBlock)) (rgs : Option (List IRegion)) (σ : Nat)
    (k : Nat) (ty : Attr) (ro : IOp) (i : Nat) (w : IVal)
    (res : List IOp) (σ' : Nat)
    (hk : args[k]? = some (.val (.result ty ro i)))
    (hrw : ro.opType = .rewriteId)
    (hlast : ro.operands.getLast? = some w)
    (hok : newOp t (some args) rts ats ss rgs σ = .ok (res, σ')) :
    ∃ newO, res.getLast? = some newO ∧ newO.operands[k]? = some w := by
  rw [newOp] at hok
  simp only [Option.getD_some, bind, Except.bind] at hok
  cases hup : unpackOperands args [] with
  | error e => simp [hup] at hok
  | ok p =>
    obtain ⟨vals, rewritten⟩ := p
    simp only [hup] at hok
    simp at hok
    obtain ⟨hres, _⟩ := hok
    obtain ⟨v, a1, a2, hs, hidx⟩ :=
      unpackGo_pos args [] [] vals rewritten k _ hup hk
    -- the step on a RewriteId result resolves to its last operand
    have hv : v = w := by
      rw [unpackStep] at hs
      rw [resolveVal] at hs
      simp [Env.applyTo, Env.find?, IVal.isRewriteIdResult, hrw, hlast,
        bind, Except.bind] at hs
      exact hs.1.symm
    refine ⟨(IOp.get t.pyName t vals (rts.getD []) (ats.getD [])
      (ss.getD []) (rgs.getD []) σ).1, ?_, ?_⟩
    · rw [← hres]
      simp
    · simp [IOp.get, IOp.make, IOp.operands, hidx, hv]

/-- C10 witness: a `new_op` whose operand is the sole result of a
`RewriteId` operation (whose only operand is a block argument) builds the
new operation with that block argument as its operand. -/
theorem C10_witness :
    ∃ newO,
      ([IOp.mk 11 (OpData.mk 10 "arith.addi" .addOp [])
          [IVal.blockArg ⟨.unitAttr, 5, 0⟩] [] [] []] : List IOp).getLast?
        = some newO ∧
      newO.operands[0]? = some (.blockArg ⟨.unitAttr, 5, 0⟩) :=
  C10_rewriteid_unwrap .addOp
    [.val (.result .unitAttr
      (IOp.mk 1 (OpData.mk 0 "rewrite.id" .rewriteId [])
        [IVal.blockArg ⟨.unitAttr, 5, 0⟩] [.unitAttr] [] []) 0)]
    none none none none 10 0 .unitAttr
    (IOp.mk 1 (OpData.mk 0 "rewrite.id" .rewriteId [])
      [IVal.blockArg ⟨.unitAttr, 5, 0⟩] [.unitAttr] [] []) 0
    (.blockArg ⟨.unitAttr, 5, 0⟩)
    [IOp.mk 11 (OpData.mk 10 "arith.addi" .addOp [])
      [IVal.blockArg ⟨.unitAttr, 5, 0⟩] [] [] []] 12
    rfl rfl rfl rfl

/-! ## C8: `from_op` without an attribute override shares the `OpData` -/

/-- C8: when `from_op` is called without an `attributes` argument, the
operation it builds carries `old_op`'s `OpData` record itself — the very
instance (equal identity tag `did`), hence the same name, operation kind
and attribute map — while the operands come from unpacking the supplied
(or inherited) operand arguments and the result types, successors and
regions are exactly the overridden ones when supplied and the old ones
otherwise. -/
theorem C8_from_op_shares_opdata (oldOp : IOp) (opnds : Option (List OpndArg))
    (rts : Option (List Attr)) (succ : Option (List IBlock))
    (regs : Option (List IRegion)) (env : Option Env) (σ : Nat)
    (l : List IOp) (envOut : Option Env) (σ' : Nat)
    (hok : fromOp oldOp opnds rts none succ regs env σ = .ok (l, envOut, σ')) :
    ∃ newO, l.getLast? = some newO ∧
      newO.opData = oldOp.opData ∧
      newO.name = oldOp.name ∧
      newO.opType = oldOp.opType ∧
      newO.attributes = oldOp.attributes ∧
      newO.resultTypes = rts.getD oldOp.resultTypes ∧
      newO.successors = succ.getD oldOp.successors ∧
      newO.regions = regs.getD oldOp.regions ∧
      (∃ ro, unpackOperands (opnds.getD (oldOp.operands.map OpndArg.val))
        (env.getD []) = .ok (newO.operands, ro)) := by
  rw [fromOp] at hok
  simp only [bind, Except.bind] at hok
  cases hup : unpackOperands (opnds.getD (oldOp.operands.map OpndArg.val))
      (env.getD []) with
  | error e => simp [hup] at hok
  | ok p =>
    obtain ⟨uo, rewritten⟩ := p
    simp only [hup] at hok
    refine ⟨IOp.mk σ oldOp.opData uo (rts.getD oldOp.resultTypes)
      (succ.getD oldOp.successors) (regs.getD oldOp.regions), ?_, rfl, rfl,
      rfl, rfl, rfl, rfl, rfl, ⟨rewritten, ?_⟩⟩
    · cases env with
      | none =>
        simp [IOp.make] at hok
        rw [← hok.1]
        simp
      | some e =>
        simp only [IOp.make] at hok
        cases hadd : addResultMappings e oldOp
            (IOp.mk σ oldOp.opData uo (rts.getD oldOp.resultTypes)
              (succ.getD oldOp.successors) (regs.getD oldOp.regions)) with
        | error er => simp [hadd] at hok
        | ok e2 =>
          simp [hadd] at hok
          rw [← hok.1]
          simp
    · simpa [IOp.operands] using hup

/-- C8 witness: deriving from a concrete operation with only the result
types overridden yields an operation sharing the old `OpData` instance. -/
theorem C8_witness :
    ∃ newO,
      ([IOp.mk 20 (OpData.mk 0 "arith.addi" .addOp [("a", Attr.unitAttr)])
          [] [.intType 32] [] []] : List IOp).getLast? = some newO ∧
      newO.opData =
        (IOp.mk 1 (OpData.mk 0 "arith.addi" .addOp [("a", Attr.unitAttr)])
          [] [.intType 64] [] []).opData ∧
      newO.name =
        (IOp.mk 1 (OpData.mk 0 "arith.addi" .addOp [("a", Attr.unitAttr)])
          [] [.intType 64] [] []).name ∧
      newO.opType =
        (IOp.mk 1 (OpData.mk 0 "arith.addi" .addOp [("a", Attr.unitAttr)])
          [] [.intType 64] [] []).opType ∧
      newO.attributes =
        (IOp.mk 1 (OpData.mk 0 "arith.addi" .addOp [("a", Attr.unitAttr)])
          [] [.intType 64] [] []).attributes ∧
      newO.resultTypes = (some [Attr.intType 32]).getD
        (IOp.mk 1 (OpData.mk 0 "arith.addi" .addOp [("a", Attr.unitAttr)])
          [] [.intType 64] [] []).resultTypes ∧
      newO.successors = (none : Option (List IBlock)).getD
        (IOp.mk 1 (OpData.mk 0 "arith.addi" .addOp [("a", Attr.unitAttr)])
          [] [.intType 64] [] []).successors ∧
      newO.regions = (none : Option (List IRegion)).getD
        (IOp.mk 1 (OpData.mk 0 "arith.addi" .addOp [("a", Attr.unitAttr)])
          [] [.intType 64] [] []).regions ∧
      (∃ ro, unpackOperands ((none : Option (List OpndArg)).getD
          ((IOp.mk 1 (OpData.mk 0 "arith.addi" .addOp [("a", Attr.unitAttr)])
            [] [.intType 64] [] []).operands.map OpndArg.val))
        ((none : Option Env).getD []) = .ok (newO.operands, ro)) :=
  C8_from_op_shares_opdata
    (IOp.mk 1 (OpData.mk 0 "arith.addi" .addOp [("a", Attr.unitAttr)])
      [] [.intType 64] [] [])
    none (some [Attr.intType 32]) none none none 20
    [IOp.mk 20 (OpData.mk 0 "arith.addi" .addOp [("a", Attr.unitAttr)])
      [] [.intType 32] [] []] none 21 rfl

/-! ## C6: `Variable.set` is unification by equality -/

/-- C6: `set` establishes the binding and returns `True` when the variable
is unbound; on a bound variable it leaves the context unchanged and
returns `True` exactly when the new value equals the existing binding.
Consequently a query whose two constraints bind the same variable name
(here two field projections into the same attribute variable) succeeds
exactly when the two bound values are equal, and fails as a no-match
otherwise. -/
theorem C6_set_unification (name : String) (ctx : MatchCtx) (v : QVal) :
    (ctx.find? name = none →
      varSet name ctx v = (true, (name, v) :: ctx) ∧
      MatchCtx.find? ((name, v) :: ctx) name = some v) ∧
    (∀ w, ctx.find? name = some w →
      varSet name ctx v = (qvalBeq v w, ctx)) ∧
    (∀ (opVar f1 f2 n : String) (o : QOp) (a1 a2 : Attr) (ctx0 : MatchCtx),
      ctx0.find? opVar = some (.qop o) →
      getattrQ (.qop o) f1 = .ok (.qattr a1) →
      getattrQ (.qop o) f2 = .ok (.qattr a2) →
      ctx0.find? n = none → n ≠ opVar →
      ((a1 = a2 →
        runConstraints [.opAttrC opVar f1 n, .opAttrC opVar f2 n] ctx0 =
          .ok (some ((n, .qattr a1) :: ctx0))) ∧
       (a1 ≠ a2 →
        runConstraints [.opAttrC opVar f1 n, .opAttrC opVar f2 n] ctx0 =
          .ok none))) := by
  refine ⟨?_, ?_, ?_⟩
  · intro h
    constructor
    · simp [varSet, h]
    · simp [MatchCtx.find?]
  · intro w h
    simp [varSet, h]
  · intro opVar f1 f2 n o a1 a2 ctx0 hop hg1 hg2 hn hneq
    have hstep1 : Constraint.matchC (.opAttrC opVar f1 n) ctx0 =
        .ok (true, (n, .qattr a1) :: ctx0) := by
      simp [Constraint.matchC, projMatch, varGet, hop, hg1, varSet, hn,
        bind, Except.bind]
    have hfind1 : MatchCtx.find? ((n, .qattr a1) :: ctx0) opVar =
        some (.qop o) := by
      have : (n == opVar) = false := by
        simp [hneq]
      simp [MatchCtx.find?, this]
      simpa [MatchCtx.find?] using hop
    have hstep2 : Constraint.matchC (.opAttrC opVar f2 n)
        ((n, .qattr a1) :: ctx0) =
        .ok ((a2 == a1), (n, .qattr a1) :: ctx0) := by
      have hfn : MatchCtx.find? ((n, .qattr a1) :: ctx0) n =
          some (.qattr a1) := by
        simp [MatchCtx.find?]
      simp [Constraint.matchC, projMatch, varGet, hfind1, hg2, varSet, hfn,
        qvalBeq, bind, Except.bind]
    constructor
    · intro heq
      subst heq
      simp [runConstraints, hstep1, hstep2, bind, Except.bind]
    · intro hne
      have : (a2 == a1) = false := by
        simp
        exact fun h => hne h.symm
      simp [runConstraints, hstep1, hstep2, this, bind, Except.bind]

/-- C6 witness: the three parts at concrete inputs — binding a fresh
variable, rejecting a conflicting rebinding, and a two-constraint query
on disagreeing fields producing a no-match. -/
theorem C6_witness :
    varSet "x" [] (.qattr .unitAttr) = (true, [("x", .qattr .unitAttr)]) ∧
    varSet "x" [("x", .qattr .unitAttr)] (.qattr (.intType 8)) =
      (false, [("x", .qattr .unitAttr)]) ∧
    runConstraints [.opAttrC "op" "f1" "x", .opAttrC "op" "f2" "x"]
      [("op", .qop (QOp.mk 0 .addOp
        [("f1", .qattr .unitAttr), ("f2", .qattr (.intType 8))]))] =
      .ok none := by
  refine ⟨?_, ?_, ?_⟩
  · exact ((C6_set_unification "x" [] (.qattr .unitAttr)).1 rfl).1
  · have := (C6_set_unification "x" [("x", .qattr .unitAttr)]
      (.qattr (.intType 8))).2.1 (.qattr .unitAttr) rfl
    simpa [qvalBeq] using this
  · exact ((C6_set_unification "x" [] (.qattr .unitAttr)).2.2 "op" "f1" "f2"
      "x" (QOp.mk 0 .addOp
        [("f1", .qattr .unitAttr), ("f2", .qattr (.intType 8))])
      .unitAttr (.intType 8)
      [("op", .qop (QOp.mk 0 .addOp
        [("f1", .qattr .unitAttr), ("f2", .qattr (.intType 8))]))]
      rfl rfl rfl rfl (by decide)).2 (by decide)

/-! ## C5: match-failure propagation of `Query.match` -/

/-- Splitting the constraint run at an append. -/
theorem runConstraints_append (cs1 cs2 : List Constraint) (ctx : MatchCtx) :
    runConstraints (cs1 ++ cs2) ctx =
      match runConstraints cs1 ctx with
      | .error e => .error e
      | .ok none => .ok none
      | .ok (some c') => runConstraints cs2 c' := by
  induction cs1 generalizing ctx with
  | nil => simp [runConstraints]
  | cons c rest ih =>
    simp only [List.cons_append, runConstraints, bind, Except.bind]
    cases Constraint.matchC c ctx with
    | error e => rfl
    | ok p =>
      obtain ⟨b, ctx'⟩ := p
      cases b with
      | true => simpa using ih ctx'
      | false => rfl

/-- When every requested name is bound, the binding comprehension
succeeds. -/
theorem buildBindings_total (names : List String) (ctx : MatchCtx)
    (h : ∀ n ∈ names, (ctx.find? n).isSome) :
    ∃ m, buildBindings names ctx = .ok m := by
  induction names with
  | nil => exact ⟨[], rfl⟩
  | cons n rest ih =>
    have hn := h n (by simp)
    cases hfind : MatchCtx.find? ctx n with
    | none => rw [hfind] at hn; simp at hn
    | some v =>
      obtain ⟨m, hm⟩ := ih (fun x hx => h x (by simp [hx]))
      exact ⟨(n, v) :: m, by simp [buildBindings, hfind, hm, bind, Except.bind]⟩

/-- C5 (amended): a constraint evaluating to `False` short-circuits
`Query.match` to the `None` no-match result (never an exception from that
path), and when all constraints pass and every declared variable is bound
the match returns a binding set; but — contrary to the claim as stated — a
declared variable left unbound after the constraints pass makes
`Query.match` raise a `KeyError` (see the counterexample), as does a
constraint reading an unbound variable. -/
theorem C5_match_failure_paths (q : Query) (op : QOp) :
    (∀ cs1 c cs2 ctx' ctx'',
      q.constraints = cs1 ++ c :: cs2 →
      runConstraints cs1 [("root", .qop op)] = .ok (some ctx') →
      c.matchC ctx' = .ok (false, ctx'') →
      Query.matchQ q op = .ok none) ∧
    (∀ ctxF,
      runConstraints q.constraints [("root", .qop op)] = .ok (some ctxF) →
      (∀ n ∈ q.varNames, (ctxF.find? n).isSome) →
      ∃ m, Query.matchQ q op = .ok (some m)) := by
  constructor
  · intro cs1 c cs2 ctx' ctx'' hsplit h1 hc
    have hall : runConstraints q.constraints [("root", .qop op)] = .ok none := by
      rw [hsplit, runConstraints_append, h1]
      simp [runConstraints, hc, bind, Except.bind]
    simp [Query.matchQ, hall, bind, Except.bind]
  · intro ctxF hok hbound
    have hdedup : ∀ n ∈ q.varNames.dedup, (ctxF.find? n).isSome := by
      intro n hn
      exact hbound n (List.mem_dedup.mp hn)
    obtain ⟨m, hm⟩ := buildBindings_total q.varNames.dedup ctxF hdedup
    exact ⟨m, by simp [Query.matchQ, hok, hm, bind, Except.bind]⟩

/-- C5 counterexample: the claim says a query leaving a declared variable
unbound yields the `None` result and that failure is never propagated as
an exception.  A query declaring `x` with no constraint binding it makes
`Query.match` raise `KeyError` instead of returning `None`. -/
theorem C5_counterexample :
    Query.matchQ ⟨["root", "x"], []⟩ (QOp.mk 0 .addOp []) =
      .error "KeyError: x" := by
  rfl

/-- C5 witness: a `Query.root(AddOp)` run against an operation of a
different kind — the type constraint fails and the match result is the
`None` no-match value. -/
theorem C5_witness :
    Query.matchQ (Query.root .addOp) (QOp.mk 0 .constOp []) = .ok none :=
  (C5_match_failure_paths (Query.root .addOp) (QOp.mk 0 .constOp [])).1
    [] (.typeC "root" (.opClass .addOp)) []
    [("root", .qop (QOp.mk 0 .constOp []))]
    [("root", .qop (QOp.mk 0 .constOp []))] rfl rfl rfl

/-! ## C4: unresolved operands during mutable reconstruction -/

/-- C4, code evaluated at the failing input: rebuilding a mutable copy of
an operation whose single operand (a block argument) has no entry in the
value mapping does **not** fail with an unresolved-reference error — it
prints a diagnostic (an I/O effect outside the embedding) and returns
successfully, the missing operand silently replaced by the freshly
allocated dangling placeholder `OpResult(typ, None, 0)` (here the operand
`opResult 200 (.intType 32) none 0`, producer `None`, index `0`).  The
spec (§7, §9) mandates an explicit failure here, so this is a defect of
the code, not of the claim. -/
theorem C4_placeholder_not_error :
    iopGetMutableCopy
      (IOp.get "test.op0" (.otherOp 0) [.blockArg ⟨.intType 32, 7, 0⟩]
        [] [] [] [] 100).1 [] [] 200 =
    .ok (MOp.mk 201 (.otherOp 0) [.opResult 200 (.intType 32) none 0] []
      202 [] [] [], [], [], 202) := by
  rfl

/-! ## C1: the `from_mutable`/`get_mutable_copy` round trip -/

/-- C1, code evaluated at the failing input: a module of two blocks where
an operation of the second block names the first as successor.
`from_mutable` succeeds, but — because `IBlock.from_mutable` never
records the blocks it converts in `block_map` — the successor is
converted into a detached duplicate, and `get_mutable_copy` then fails
with `Block used before definition` instead of reproducing the module.
The round trip therefore does not hold for modules with successor wiring
(the conversion code itself carries a TODO admitting successor handling
is wrong). -/
theorem C1_roundtrip_successor_error :
    (match getImmutableCopy
        (MOp.mk 3 .moduleOp [] [] 70 [] []
          [MRegion.mk
            [MBlock.mk 10 [] [MOp.mk 1 .constOp [] [] 50 [] [] []] true,
             MBlock.mk 11 [] [MOp.mk 2 .branchOp [] [] 60 []
               [MBlock.mk 10 [] [MOp.mk 1 .constOp [] [] 50 [] [] []] true]
               []] true]]) 100 with
      | .ok _ => true
      | .error _ => false) = true ∧
    (do
      let (im, _, _, _) ← getImmutableCopy
        (MOp.mk 3 .moduleOp [] [] 70 [] []
          [MRegion.mk
            [MBlock.mk 10 [] [MOp.mk 1 .constOp [] [] 50 [] [] []] true,
             MBlock.mk 11 [] [MOp.mk 2 .branchOp [] [] 60 []
               [MBlock.mk 10 [] [MOp.mk 1 .constOp [] [] 50 [] [] []] true]
               []] true]]) 100
      iopGetMutableCopy im [] [] 200 :
        Except String (MOp × TVMap × TBMap × Nat)) =
      .error "Block used before definition" :=
  ⟨rfl, rfl⟩

/-! ## C7: the insert-list discipline of `new_op`/`from_op` -/

/-- Whether operation `a` uses a result of operation `b` as a direct
operand (operations compared by identity, as `IOp.__eq__` does). -/
def refsOp (a b : IOp) : Bool :=
  a.operands.any (fun v => match v with
    | .result _ p _ => p.oid == b.oid
    | .blockArg _ => false)

/-- All operations supplied through `Sequence[IOp]` operand arguments. -/
def listArgOps (args : List OpndArg) : List IOp :=
  match args with
  | [] => []
  | .ops l :: rest => l ++ listArgOps rest
  | _ :: rest => listArgOps rest

/-- Python `op in rewritten_ops` (membership by `IOp.__eq__`). -/
def memBeq (l : List IOp) (x : IOp) : Bool :=
  l.any (fun o => IOp.beqId o x)

/-- Occurrences of `o` (by identity) in a list. -/
def countBeq (l : List IOp) (o : IOp) : Nat :=
  l.countP (fun x => IOp.beqId x o)

/-- C7 counterexample: the claim says that a not-yet-inserted operation
supplied **as a bare `IOp` operand** is folded into the returned list of
operations to insert.  It is not: `_unpack_operands` threads its first
result through as the operand but never appends it to `rewritten_ops`, so
`new_op` over a bare-`IOp` operand returns a list holding only the new
operation — which references a result of an operation appearing nowhere
in the list (the claimed exactly-once containment fails with count 0). -/
theorem C7_counterexample :
    newOp .addOp
      (some [.op (IOp.mk 1 (OpData.mk 0 "arith.constant" .constOp [])
        [] [.intType 32] [] [])])
      (some [.intType 32]) none none none 10 =
    .ok ([IOp.mk 11 (OpData.mk 10 "arith.addi" .addOp [])
      [.result (.intType 32)
        (IOp.mk 1 (OpData.mk 0 "arith.constant" .constOp [])
          [] [.intType 32] [] []) 0] [.intType 32] [] []], 12) ∧
    countBeq
      [IOp.mk 11 (OpData.mk 10 "arith.addi" .addOp [])
        [.result (.intType 32)
          (IOp.mk 1 (OpData.mk 0 "arith.constant" .constOp [])
            [] [.intType 32] [] []) 0] [.intType 32] [] []]
      (IOp.mk 1 (OpData.mk 0 "arith.constant" .constOp [])
        [] [.intType 32] [] []) = 0 ∧
    refsOp
      (IOp.mk 11 (OpData.mk 10 "arith.addi" .addOp [])
        [.result (.intType 32)
          (IOp.mk 1 (OpData.mk 0 "arith.constant" .constOp [])
            [] [.intType 32] [] []) 0] [.intType 32] [] [])
      (IOp.mk 1 (OpData.mk 0 "arith.constant" .constOp [])
        [] [.intType 32] [] []) = true :=
  ⟨rfl, rfl, rfl⟩

/-- A `Sequence[IOp]` operand argument in dependency order: every operand
of an element that is a result of one of the batch's new operations
(identified through the oid set `S`) is produced by an earlier element of
the same list. -/
def ClosedOrdered (S : List Nat) (l : List IOp) : Prop :=
  ∀ (i : Nat) (o : IOp), l[i]? = some o → ∀ v ∈ o.operands,
    ∀ (t : Attr) (p : IOp) (ri : Nat),
    v = IVal.result t p ri → p.oid ∈ S →
    ∃ (j : Nat) (q : IOp), j < i ∧ l[j]? = some q ∧ q.oid = p.oid

theorem beqId_comm (a b : IOp) : IOp.beqId a b = IOp.beqId b a := by
  by_cases h : a.oid = b.oid <;> simp [IOp.beqId, h] <;>
    simp [Ne.symm h]

/-- With at most one identity match (no duplicate identities),
`list.remove` behaves as dropping every match. -/
theorem eraseP_eq_filter_of_nodup (acc : List IOp) (h : IOp)
    (hnd : (acc.map IOp.oid).Nodup) :
    acc.eraseP (fun o => IOp.beqId o h) =
      acc.filter (fun o => !(IOp.beqId o h)) := by
  induction acc with
  | nil => rfl
  | cons x rest ih =>
    simp only [List.map_cons, List.nodup_cons] at hnd
    by_cases hx : IOp.beqId x h
    · simp only [List.eraseP_cons, hx, cond_true, List.filter_cons,
        Bool.not_true, if_neg]
      have : ∀ a ∈ rest, (!(IOp.beqId a h)) = true := by
        intro a ha
        have hax : a.oid ≠ x.oid := by
          intro e
          exact hnd.1 (e ▸ List.mem_map_of_mem IOp.oid ha)
        have hxh : x.oid = h.oid := by
          simpa [IOp.beqId] using hx
        simp [IOp.beqId, hxh ▸ hax]
      rw [List.filter_eq_self.mpr this]
      simp
    · simp only [List.eraseP_cons, hx, cond_false, List.filter_cons]
      simp only [Bool.not_eq_true'] at hx
      simp [hx, ih hnd.2]

/-- The closed form of the duplicate-removing prepend loop: with
duplicate-free identities, processing a list prepends it in order and
drops its members from the old accumulator. -/
theorem prependDedup_eq (l acc : List IOp)
    (hl : (l.map IOp.oid).Nodup) (hacc : (acc.map IOp.oid).Nodup) :
    prependDedup l acc = l ++ acc.filter (fun x => !(memBeq l x)) := by
  induction l with
  | nil =>
    simp [prependDedup, memBeq]
  | cons h t ih =>
    simp only [List.map_cons, List.nodup_cons] at hl
    have hstep : prependDedup (h :: t) acc =
        h :: (prependDedup t acc).eraseP (fun o => IOp.beqId o h) := rfl
    rw [hstep, ih hl.2]
    have hnotinT : ∀ b ∈ t, ¬((fun o => IOp.beqId o h) b = true) := by
      intro b hb e
      have : b.oid = h.oid := by simpa [IOp.beqId] using e
      exact hl.1 (this ▸ List.mem_map_of_mem IOp.oid hb)
    rw [List.eraseP_append_right _ hnotinT]
    have hfilnd : ((acc.filter (fun x => !(memBeq t x))).map IOp.oid).Nodup :=
      List.Nodup.sublist
        (List.Sublist.map IOp.oid (List.filter_sublist acc)) hacc
    rw [eraseP_eq_filter_of_nodup _ _ hfilnd, List.filter_filter]
    have : ∀ a : IOp,
        ((!(IOp.beqId a h)) && (!(memBeq t a))) = (!(memBeq (h :: t) a)) := by
      intro a
      simp [memBeq, beqId_comm a h]
    simp only [this]
    rfl

theorem memBeq_congr_oid (l : List IOp) (x o : IOp) (e : x.oid = o.oid) :
    memBeq l x = memBeq l o := by
  simp [memBeq, IOp.beqId, e]

theorem countBeq_of_not_mem (l : List IOp) (o : IOp)
    (hm : memBeq l o = false) : countBeq l o = 0 := by
  rw [countBeq, List.countP_eq_zero]
  intro x hx
  simp only [memBeq, List.any_eq_false] at hm
  simpa [beqId_comm] using hm x hx

theorem countBeq_of_mem_nodup (l : List IOp) (o : IOp)
    (hnd : (l.map IOp.oid).Nodup) (hm : memBeq l o = true) :
    countBeq l o = 1 := by
  induction l with
  | nil => simp [memBeq] at hm
  | cons x rest ih =>
    simp only [List.map_cons, List.nodup_cons] at hnd
    by_cases hx : IOp.beqId x o = true
    · have hrest : rest.countP (fun y => IOp.beqId y o) = 0 := by
        rw [List.countP_eq_zero]
        intro y hy
        have hyx : y.oid ≠ x.oid := by
          intro e
          exact hnd.1 (e ▸ List.mem_map_of_mem IOp.oid hy)
        have hxo : x.oid = o.oid := by simpa [IOp.beqId] using hx
        simp [IOp.beqId, hxo ▸ hyx]
      rw [countBeq, List.countP_cons]
      simp [hx, hrest]
    · have hx' : IOp.beqId x o = false := by simpa using hx
      have hm' : memBeq rest o = true := by
        have h2 := hm
        simp only [memBeq, List.any_cons, hx', Bool.false_or] at h2
        exact h2
      have := ih hnd.2 hm'
      rw [countBeq, List.countP_cons]
      rw [countBeq] at this
      simp [hx', this]

/-- The invariant step for one `Sequence[IOp]` operand argument: the
duplicate-removing prepend keeps identities duplicate-free, stays within
the batch (`S`, `G`), keeps the list dependency-ordered, and contains
each of the list's operations exactly once while other accumulated
operations keep their counts. -/
theorem step_invariant (S : List Nat) (G : IOp → Prop) (l acc : List IOp)
    (hlnd : (l.map IOp.oid).Nodup)
    (hlS : ∀ o ∈ l, o.oid ∈ S)
    (hlG : ∀ o ∈ l, G o)
    (hlCO : ClosedOrdered S l)
    (haccnd : (acc.map IOp.oid).Nodup)
    (haccS : ∀ x ∈ acc, x.oid ∈ S)
    (haccG : ∀ x ∈ acc, G x)
    (haccP : acc.Pairwise (fun a b => refsOp a b = false)) :
    ((prependDedup l acc).map IOp.oid).Nodup ∧
    (∀ x ∈ prependDedup l acc, x.oid ∈ S) ∧
    (∀ x ∈ prependDedup l acc, G x) ∧
    (prependDedup l acc).Pairwise (fun a b => refsOp a b = false) ∧
    (∀ o : IOp, countBeq (prependDedup l acc) o =
      if memBeq l o then 1 else countBeq acc o) := by
  rw [prependDedup_eq l acc hlnd haccnd]
  have hfsub : List.Sublist (acc.filter (fun x => !(memBeq l x))) acc :=
    List.filter_sublist acc
  have hfmem : ∀ x ∈ acc.filter (fun x => !(memBeq l x)), x ∈ acc :=
    fun x hx => List.mem_of_mem_filter hx
  have hfnotin : ∀ x ∈ acc.filter (fun x => !(memBeq l x)),
      memBeq l x = false := by
    intro x hx
    have := List.of_mem_filter hx
    simpa using this
  refine ⟨?_, ?_, ?_, ?_, ?_⟩
  · rw [List.map_append]
    refine List.Nodup.append hlnd
      (List.Nodup.sublist (List.Sublist.map IOp.oid hfsub) haccnd) ?_
    intro a ha hb
    obtain ⟨o, ho, hoa⟩ := List.mem_map.mp ha
    obtain ⟨x, hx, hxa⟩ := List.mem_map.mp hb
    have : memBeq l x = true := by
      rw [memBeq, List.any_eq_true]
      exact ⟨o, ho, by simp [IOp.beqId, hoa, hxa]⟩
    rw [hfnotin x hx] at this
    exact Bool.false_ne_true this
  · intro x hx
    rcases List.mem_append.mp hx with h | h
    · exact hlS x h
    · exact haccS x (hfmem x h)
  · intro x hx
    rcases List.mem_append.mp hx with h | h
    · exact hlG x h
    · exact haccG x (hfmem x h)
  · rw [List.pairwise_append]
    refine ⟨?_, List.Pairwise.sublist hfsub haccP, ?_⟩
    · rw [List.pairwise_iff_getElem]
      intro i j hi hj hij
      by_contra hne
      have htrue : refsOp l[i] l[j] = true := by
        revert hne
        cases refsOp l[i] l[j] <;> simp
      rw [refsOp, List.any_eq_true] at htrue
      obtain ⟨v, hv, hmatch⟩ := htrue
      cases v with
      | blockArg a => simp at hmatch
      | result t p ri =>
        have hpo : p.oid = l[j].oid := by simpa using hmatch
        obtain ⟨j', q, hj'i, hq, hqoid⟩ :=
          hlCO i l[i] (by rw [List.getElem?_eq_getElem hi])
            (IVal.result t p ri) hv t p ri rfl
            (hpo ▸ hlS l[j] (List.getElem_mem hj))
        have hj' : j' < l.length := by
          rcases List.getElem?_eq_some_iff.mp hq with ⟨h1, _⟩
          exact h1
        have hqval : q = l[j'] := by
          rw [List.getElem?_eq_getElem hj'] at hq
          exact (Option.some_inj.mp hq).symm
        have hjm : j' < (l.map IOp.oid).length := by simpa using hj'
        have hjm2 : j < (l.map IOp.oid).length := by simpa using hj
        have : (l.map IOp.oid)[j'] = (l.map IOp.oid)[j] := by
          simp only [List.getElem_map]
          rw [← hqval, hqoid, hpo]
        have hidx : j' = j :=
          List.Nodup.getElem_inj_iff hlnd |>.mp this
        omega
    · intro a ha b hb
      by_contra hne
      have htrue : refsOp a b = true := by
        revert hne
        cases refsOp a b <;> simp
      rw [refsOp, List.any_eq_true] at htrue
      obtain ⟨v, hv, hmatch⟩ := htrue
      cases v with
      | blockArg w => simp at hmatch
      | result t p ri =>
        have hpo : p.oid = b.oid := by simpa using hmatch
        obtain ⟨i, hi, hia⟩ := List.getElem_of_mem ha
        obtain ⟨j', q, hj'i, hq, hqoid⟩ :=
          hlCO i a (by rw [List.getElem?_eq_getElem hi, hia])
            (IVal.result t p ri) hv t p ri rfl
            (hpo ▸ haccS b (hfmem b hb))
        have hqmem : q ∈ l := List.getElem?_mem hq
        have : memBeq l b = true := by
          rw [memBeq, List.any_eq_true]
          exact ⟨q, hqmem, by simp [IOp.beqId, hqoid, hpo]⟩
        rw [hfnotin b hb] at this
        simp at this
  · intro o
    rw [countBeq, List.countP_append, ← countBeq, ← countBeq]
    by_cases hm : memBeq l o = true
    · rw [if_pos hm, countBeq_of_mem_nodup l o hlnd hm]
      have : countBeq (acc.filter (fun x => !(memBeq l x))) o = 0 := by
        rw [countBeq, List.countP_eq_zero]
        intro x hx
        have hxl := hfnotin x hx
        by_contra hbeq
        have hxo : x.oid = o.oid := by
          revert hbeq
          by_cases e : x.oid = o.oid <;> simp [IOp.beqId, e]
        rw [memBeq_congr_oid l x o hxo, hm] at hxl
        simp at hxl
      omega
    · rw [if_neg hm]
      simp only [Bool.not_eq_true] at hm
      rw [countBeq_of_not_mem l o hm]
      have : countBeq (acc.filter (fun x => !(memBeq l x))) o =
          countBeq acc o := by
        rw [countBeq, countBeq, List.countP_filter]
        refine List.countP_congr ?_
        intro x _
        by_cases hbeq : IOp.beqId x o = true
        · have hxo : x.oid = o.oid := by simpa [IOp.beqId] using hbeq
          rw [hbeq, memBeq_congr_oid l x o hxo, hm]
          simp
        · simp only [Bool.not_eq_true] at hbeq
          rw [hbeq]
          simp
      omega

theorem memBeq_append (l1 l2 : List IOp) (o : IOp) :
    memBeq (l1 ++ l2) o = (memBeq l1 o || memBeq l2 o) := by
  simp [memBeq, List.any_append]

theorem mem_listArgOps (args : List OpndArg) (l : List IOp)
    (hl : OpndArg.ops l ∈ args) : ∀ o ∈ l, o ∈ listArgOps args := by
  induction args with
  | nil => simp at hl
  | cons hd tl ih =>
    intro o ho
    rcases List.mem_cons.mp hl with h | h
    · subst h
      rw [listArgOps]
      exact List.mem_append_left _ ho
    · cases hd with
      | ops l2 => exact List.mem_append_right _ (ih h o ho)
      | val v => exact ih h o ho
      | op o2 => exact ih h o ho

/-- The accumulated `rewritten_ops` invariant carried through the whole
`_unpack_operands` loop: duplicate-free identities, containment in the
supplied batch, dependency-correct ordering, and the exactly-once count
for every list-supplied operation. -/
theorem unpackGo_invariant (S : List Nat) (G : IOp → Prop) (env : Env)
    (args : List OpndArg) :
    ∀ (acc : List IOp) (vals : List IVal) (rout : List IOp),
    (∀ l, OpndArg.ops l ∈ args → (l.map IOp.oid).Nodup) →
    (∀ l, OpndArg.ops l ∈ args → ∀ o ∈ l, o.oid ∈ S) →
    (∀ l, OpndArg.ops l ∈ args → ∀ o ∈ l, G o) →
    (∀ l, OpndArg.ops l ∈ args → ClosedOrdered S l) →
    (acc.map IOp.oid).Nodup →
    (∀ x ∈ acc, x.oid ∈ S) →
    (∀ x ∈ acc, G x) →
    acc.Pairwise (fun a b => refsOp a b = false) →
    unpackGo args env acc = .ok (vals, rout) →
    (rout.map IOp.oid).Nodup ∧ (∀ x ∈ rout, x.oid ∈ S) ∧
    (∀ x ∈ rout, G x) ∧
    rout.Pairwise (fun a b => refsOp a b = false) ∧
    (∀ o : IOp, countBeq rout o =
      if memBeq (listArgOps args) o then 1 else countBeq acc o) := by
  induction args with
  | nil =>
    intro acc vals rout _ _ _ _ hnd hS hG hP h
    rw [unpackGo] at h
    simp at h
    rw [← h.2]
    exact ⟨hnd, hS, hG, hP, fun o => by simp [listArgOps, memBeq]⟩
  | cons hd tl ih =>
    intro acc vals rout h1 h2 h3 h4 hnd hS hG hP h
    rw [unpackGo] at h
    simp only [bind, Except.bind] at h
    cases hstep : unpackStep hd env acc with
    | error e => simp [hstep] at h
    | ok p =>
      obtain ⟨v0, acc1⟩ := p
      simp only [hstep] at h
      cases hrest : unpackGo tl env acc1 with
      | error e => simp [hrest] at h
      | ok q =>
        obtain ⟨vs, acc2⟩ := q
        simp only [hrest] at h
        simp at h
        have hr : rout = acc2 := h.2.symm
        subst hr
        have hsub1 : ∀ l, OpndArg.ops l ∈ tl → (l.map IOp.oid).Nodup :=
          fun l hl => h1 l (List.mem_cons_of_mem _ hl)
        have hsub2 : ∀ l, OpndArg.ops l ∈ tl → ∀ o ∈ l, o.oid ∈ S :=
          fun l hl => h2 l (List.mem_cons_of_mem _ hl)
        have hsub3 : ∀ l, OpndArg.ops l ∈ tl → ∀ o ∈ l, G o :=
          fun l hl => h3 l (List.mem_cons_of_mem _ hl)
        have hsub4 : ∀ l, OpndArg.ops l ∈ tl → ClosedOrdered S l :=
          fun l hl => h4 l (List.mem_cons_of_mem _ hl)
        cases hd with
        | val v =>
          have hacc1 : acc1 = acc := by
            rw [unpackStep] at hstep
            simp only [bind, Except.bind] at hstep
            cases hres : resolveVal env v with
            | error e => simp [hres] at hstep
            | ok w =>
              simp only [hres] at hstep
              simp at hstep
              exact hstep.2.symm
          subst hacc1
          have := ih acc1 vs rout hsub1 hsub2 hsub3 hsub4 hnd hS hG hP hrest
          exact ⟨this.1, this.2.1, this.2.2.1, this.2.2.2.1,
            fun o => by rw [this.2.2.2.2 o]; rfl⟩
        | op o2 =>
          have hacc1 : acc1 = acc := by
            rw [unpackStep] at hstep
            simp only [bind, Except.bind] at hstep
            cases hro : o2.resultOpt with
            | none => simp [hro] at hstep
            | some r =>
              simp only [hro] at hstep
              cases hres : resolveVal env r with
              | error e => simp [hres] at hstep
              | ok w =>
                simp only [hres] at hstep
                simp at hstep
                exact hstep.2.symm
          subst hacc1
          have := ih acc1 vs rout hsub1 hsub2 hsub3 hsub4 hnd hS hG hP hrest
          exact ⟨this.1, this.2.1, this.2.2.1, this.2.2.2.1,
            fun o => by rw [this.2.2.2.2 o]; rfl⟩
        | ops l =>
          have hmem : OpndArg.ops l ∈ OpndArg.ops l :: tl :=
            List.mem_cons_self _ _
          have hacc1 : acc1 = prependDedup l acc := by
            rw [unpackStep] at hstep
            simp only [bind, Except.bind] at hstep
            cases hlast : l.getLast? with
            | none => simp [hlast] at hstep
            | some lastOp =>
              simp only [hlast] at hstep
              cases hro : lastOp.resultOpt with
              | none => simp [hro] at hstep
              | some r =>
                simp only [hro] at hstep
                cases hres : resolveVal env r with
                | error e => simp [hres] at hstep
                | ok w =>
                  simp only [hres] at hstep
                  simp at hstep
                  exact hstep.2.symm
          obtain ⟨s1, s2, s3, s4, s5⟩ := step_invariant S G l acc
            (h1 l hmem) (h2 l hmem) (h3 l hmem) (h4 l hmem) hnd hS hG hP
          rw [← hacc1] at s1 s2 s3 s4 s5
          have := ih acc1 vs rout hsub1 hsub2 hsub3 hsub4 s1 s2 s3 s4 hrest
          refine ⟨this.1, this.2.1, this.2.2.1, this.2.2.2.1, fun o => ?_⟩
          rw [this.2.2.2.2 o, s5 o]
          have hsplit : memBeq (listArgOps (OpndArg.ops l :: tl)) o =
              (memBeq l o || memBeq (listArgOps tl) o) := by
            rw [listArgOps, memBeq_append]
          rw [hsplit]
          by_cases hA : memBeq l o = true <;>
            by_cases hB : memBeq (listArgOps tl) o = true <;>
              simp [hA, hB]

/-- C7 (amended): for `new_op` over operand arguments given as values and
dependency-ordered, duplicate-free `Sequence[IOp]` lists of
not-yet-inserted operations (with fresh identities below the allocation
counter), the returned list contains each list-supplied operation exactly
once, ends with the newly constructed operation, and no operation in it
references a result of an operation appearing after it.  (Operations
supplied as bare `IOp` operands are threaded as operands but not folded
into the list — the correction recorded by the counterexample.) -/
theorem C7_insert_list_discipline (t : OpType) (args : List OpndArg)
    (rts : Option (List Attr)) (ats : Option AttrDict)
    (ss : Option (List IBlock)) (rgs : Option (List IRegion)) (σ : Nat)
    (res : List IOp) (σ' : Nat)
    (h1 : ∀ l, OpndArg.ops l ∈ args → (l.map IOp.oid).Nodup)
    (h4 : ∀ l, OpndArg.ops l ∈ args →
      ClosedOrdered ((listArgOps args).map IOp.oid) l)
    (hfresh : ∀ o ∈ listArgOps args, o.oid < σ)
    (hfresh2 : ∀ o ∈ listArgOps args, ∀ v ∈ o.operands,
      ∀ (ty : Attr) (p : IOp) (ri : Nat), v = IVal.result ty p ri →
        p.oid < σ)
    (hok : newOp t (some args) rts ats ss rgs σ = .ok (res, σ')) :
    (∃ newO, res.getLast? = some newO ∧ newO.oid = σ + 1) ∧
    (∀ o ∈ listArgOps args, countBeq res o = 1) ∧
    res.Pairwise (fun a b => refsOp a b = false) := by
  rw [newOp] at hok
  simp only [Option.getD_some, bind, Except.bind] at hok
  cases hup : unpackOperands args [] with
  | error e => simp [hup] at hok
  | ok p =>
    obtain ⟨vals, rewritten⟩ := p
    simp only [hup] at hok
    simp at hok
    have hres : res = rewritten ++
        [(IOp.get t.pyName t vals (rts.getD []) (ats.getD []) (ss.getD [])
          (rgs.getD []) σ).1] := hok.1.symm
    have hnew : (IOp.get t.pyName t vals (rts.getD []) (ats.getD [])
        (ss.getD []) (rgs.getD []) σ).1.oid = σ + 1 := rfl
    obtain ⟨u1, u2, u3, u4, u5⟩ := unpackGo_invariant
      ((listArgOps args).map IOp.oid) (fun x => x ∈ listArgOps args) []
      args [] vals rewritten h1
      (fun l hl o ho =>
        List.mem_map_of_mem IOp.oid (mem_listArgOps args l hl o ho))
      (fun l hl o ho => mem_listArgOps args l hl o ho)
      h4 (by simp) (by simp) (by simp) (by simp) hup
    refine ⟨⟨_, by rw [hres]; simp, hnew⟩, ?_, ?_⟩
    · intro o ho
      have hmB : memBeq (listArgOps args) o = true := by
        rw [memBeq, List.any_eq_true]
        exact ⟨o, ho, by simp [IOp.beqId]⟩
      have hcr : countBeq rewritten o = 1 := by
        rw [u5 o, if_pos hmB]
      have hcn : countBeq [(IOp.get t.pyName t vals (rts.getD [])
          (ats.getD []) (ss.getD []) (rgs.getD []) σ).1] o = 0 := by
        rw [countBeq, List.countP_eq_zero]
        intro x hx
        simp at hx
        subst hx
        have : o.oid < σ := hfresh o ho
        simp [IOp.beqId, hnew]
        omega
      rw [hres, countBeq, List.countP_append, ← countBeq, ← countBeq, hcr,
        hcn]
    · rw [hres, List.pairwise_append]
      refine ⟨u4, by simp, ?_⟩
      intro a ha b hb
      simp at hb
      subst hb
      by_contra hne
      have htrue : refsOp a ((IOp.get t.pyName t vals (rts.getD [])
          (ats.getD []) (ss.getD []) (rgs.getD []) σ).1) = true := by
        revert hne
        cases refsOp a ((IOp.get t.pyName t vals (rts.getD []) (ats.getD [])
          (ss.getD []) (rgs.getD []) σ).1) <;> simp
      rw [refsOp, List.any_eq_true] at htrue
      obtain ⟨v, hv, hmatch⟩ := htrue
      cases v with
      | blockArg w => simp at hmatch
      | result ty pr ri =>
        have hpo : pr.oid = σ + 1 := by simpa [hnew] using hmatch
        have := hfresh2 a (u3 a ha) (IVal.result ty pr ri) hv ty pr ri rfl
        omega

/-- C7 witness: the amended theorem applied to two overlapping
dependency-ordered operation lists — the shared first operation is
inserted once, dependencies precede their users, and the new operation
comes last. -/
theorem C7_witness :
    (∃ newO, ([IOp.mk 1 (OpData.mk 0 "arith.constant" .constOp []) [] [.intType 32] [] [],
   IOp.mk 3 (OpData.mk 0 "arith.constant" .constOp [])
      [.result (.intType 32) (IOp.mk 1 (OpData.mk 0 "arith.constant" .constOp []) [] [.intType 32] [] []) 0] [.intType 32] [] [],
   IOp.mk 2 (OpData.mk 0 "arith.constant" .constOp [])
      [.result (.intType 32) (IOp.mk 1 (OpData.mk 0 "arith.constant" .constOp []) [] [.intType 32] [] []) 0] [.intType 32] [] [],
   IOp.mk 11 (OpData.mk 10 "arith.addi" .addOp [])
    [.result (.intType 32) (IOp.mk 2 (OpData.mk 0 "arith.constant" .constOp [])
      [.result (.intType 32) (IOp.mk 1 (OpData.mk 0 "arith.constant" .constOp []) [] [.intType 32] [] []) 0] [.intType 32] [] []) 0,
     .result (.intType 32) (IOp.mk 3 (OpData.mk 0 "arith.constant" .constOp [])
      [.result (.intType 32) (IOp.mk 1 (OpData.mk 0 "arith.constant" .constOp []) [] [.intType 32] [] []) 0] [.intType 32] [] []) 0] [.intType 32] [] []] : List IOp).getLast? = some newO ∧ newO.oid = 10 + 1) ∧
    (∀ o ∈ listArgOps ([OpndArg.ops [IOp.mk 1 (OpData.mk 0 "arith.constant" .constOp []) [] [.intType 32] [] [],
    IOp.mk 2 (OpData.mk 0 "arith.constant" .constOp [])
      [.result (.intType 32) (IOp.mk 1 (OpData.mk 0 "arith.constant" .constOp []) [] [.intType 32] [] []) 0] [.intType 32] [] []],
   OpndArg.ops [IOp.mk 1 (OpData.mk 0 "arith.constant" .constOp []) [] [.intType 32] [] [],
    IOp.mk 3 (OpData.mk 0 "arith.constant" .constOp [])
      [.result (.intType 32) (IOp.mk 1 (OpData.mk 0 "arith.constant" .constOp []) [] [.intType 32] [] []) 0] [.intType 32] [] []]]),
      countBeq ([IOp.mk 1 (OpData.mk 0 "arith.constant" .constOp []) [] [.intType 32] [] [],
   IOp.mk 3 (OpData.mk 0 "arith.constant" .constOp [])
      [.result (.intType 32) (IOp.mk 1 (OpData.mk 0 "arith.constant" .constOp []) [] [.intType 32] [] []) 0] [.intType 32] [] [],
   IOp.mk 2 (OpData.mk 0 "arith.constant" .constOp [])
      [.result (.intType 32) (IOp.mk 1 (OpData.mk 0 "arith.constant" .constOp []) [] [.intType 32] [] []) 0] [.intType 32] [] [],
   IOp.mk 11 (OpData.mk 10 "arith.addi" .addOp [])
    [.result (.intType 32) (IOp.mk 2 (OpData.mk 0 "arith.constant" .constOp [])
      [.result (.intType 32) (IOp.mk 1 (OpData.mk 0 "arith.constant" .constOp []) [] [.intType 32] [] []) 0] [.intType 32] [] []) 0,
     .result (.intType 32) (IOp.mk 3 (OpData.mk 0 "arith.constant" .constOp [])
      [.result (.intType 32) (IOp.mk 1 (OpData.mk 0 "arith.constant" .constOp []) [] [.intType 32] [] []) 0] [.intType 32] [] []) 0] [.intType 32] [] []]) o = 1) ∧
    ([IOp.mk 1 (OpData.mk 0 "arith.constant" .constOp []) [] [.intType 32] [] [],
   IOp.mk 3 (OpData.mk 0 "arith.constant" .constOp [])
      [.result (.intType 32) (IOp.mk 1 (OpData.mk 0 "arith.constant" .constOp []) [] [.intType 32] [] []) 0] [.intType 32] [] [],
   IOp.mk 2 (OpData.mk 0 "arith.constant" .constOp [])
      [.result (.intType 32) (IOp.mk 1 (OpData.mk 0 "arith.constant" .constOp []) [] [.intType 32] [] []) 0] [.intType 32] [] [],
   IOp.mk 11 (OpData.mk 10 "arith.addi" .addOp [])
    [.result (.intType 32) (IOp.mk 2 (OpData.mk 0 "arith.constant" .constOp [])
      [.result (.intType 32) (IOp.mk 1 (OpData.mk 0 "arith.constant" .constOp []) [] [.intType 32] [] []) 0] [.intType 32] [] []) 0,
     .result (.intType 32) (IOp.mk 3 (OpData.mk 0 "arith.constant" .constOp [])
      [.result (.intType 32) (IOp.mk 1 (OpData.mk 0 "arith.constant" .constOp []) [] [.intType 32] [] []) 0] [.intType 32] [] []) 0] [.intType 32] [] []] : List IOp).Pairwise (fun a b => refsOp a b = false) := by
  refine C7_insert_list_discipline .addOp ([OpndArg.ops [IOp.mk 1 (OpData.mk 0 "arith.constant" .constOp []) [] [.intType 32] [] [],
    IOp.mk 2 (OpData.mk 0 "arith.constant" .constOp [])
      [.result (.intType 32) (IOp.mk 1 (OpData.mk 0 "arith.constant" .constOp []) [] [.intType 32] [] []) 0] [.intType 32] [] []],
   OpndArg.ops [IOp.mk 1 (OpData.mk 0 "arith.constant" .constOp []) [] [.intType 32] [] [],
    IOp.mk 3 (OpData.mk 0 "arith.constant" .constOp [])
      [.result (.intType 32) (IOp.mk 1 (OpData.mk 0 "arith.constant" .constOp []) [] [.intType 32] [] []) 0] [.intType 32] [] []]])
    (some [.intType 32]) none none none 10 ([IOp.mk 1 (OpData.mk 0 "arith.constant" .constOp []) [] [.intType 32] [] [],
   IOp.mk 3 (OpData.mk 0 "arith.constant" .constOp [])
      [.result (.intType 32) (IOp.mk 1 (OpData.mk 0 "arith.constant" .constOp []) [] [.intType 32] [] []) 0] [.intType 32] [] [],
   IOp.mk 2 (OpData.mk 0 "arith.constant" .constOp [])
      [.result (.intType 32) (IOp.mk 1 (OpData.mk 0 "arith.constant" .constOp []) [] [.intType 32] [] []) 0] [.intType 32] [] [],
   IOp.mk 11 (OpData.mk 10 "arith.addi" .addOp [])
    [.result (.intType 32) (IOp.mk 2 (OpData.mk 0 "arith.constant" .constOp [])
      [.result (.intType 32) (IOp.mk 1 (OpData.mk 0 "arith.constant" .constOp []) [] [.intType 32] [] []) 0] [.intType 32] [] []) 0,
     .result (.intType 32) (IOp.mk 3 (OpData.mk 0 "arith.constant" .constOp [])
      [.result (.intType 32) (IOp.mk 1 (OpData.mk 0 "arith.constant" .constOp []) [] [.intType 32] [] []) 0] [.intType 32] [] []) 0] [.intType 32] [] []]) 12 ?_ ?_ ?_ ?_ rfl
  · intro l hl
    rcases List.mem_cons.mp hl with h | h
    · injection h with h2
      subst h2
      decide
    · rcases List.mem_cons.mp h with h2 | h2
      · injection h2 with h3
        subst h3
        decide
      · simp at h2
  · intro l hl
    rcases List.mem_cons.mp hl with h | h
    · injection h with h2
      subst h2
      intro i o hio v hv ty p ri hveq hpS
      match i, hio with
      | 0, h =>
        injection h with h
        subst h
        simp [IOp.operands] at hv
      | 1, h =>
        injection h with h
        subst h
        simp [IOp.operands] at hv
        subst hv
        injection hveq.symm with e1 e2 e3
        subst e2
        exact ⟨0, _, by omega, rfl, rfl⟩
    · rcases List.mem_cons.mp h with h2 | h2
      · injection h2 with h3
        subst h3
        intro i o hio v hv ty p ri hveq hpS
        match i, hio with
        | 0, h =>
          injection h with h
          subst h
          simp [IOp.operands] at hv
        | 1, h =>
          injection h with h
          subst h
          simp [IOp.operands] at hv
          subst hv
          injection hveq.symm with e1 e2 e3
          subst e2
          exact ⟨0, _, by omega, rfl, rfl⟩
      · simp at h2
  · intro o ho
    simp only [listArgOps, List.append_nil] at ho
    rcases List.mem_cons.mp ho with h | h
    · subst h; decide
    · rcases List.mem_cons.mp h with h | h
      · subst h; decide
      · rcases List.mem_cons.mp h with h | h
        · subst h; decide
        · rcases List.mem_cons.mp h with h | h
          · subst h; decide
          · simp at h
  · intro o ho v hv ty p ri hveq
    simp only [listArgOps, List.append_nil] at ho
    rcases List.mem_cons.mp ho with h | h
    · subst h; simp [IOp.operands] at hv
    · rcases List.mem_cons.mp h with h | h
      · subst h
        simp [IOp.operands] at hv
        subst hv
        injection hveq.symm with e1 e2 e3
        subst e2
        decide
      · rcases List.mem_cons.mp h with h | h
        · subst h; simp [IOp.operands] at hv
        · rcases List.mem_cons.mp h with h | h
          · subst h
            simp [IOp.operands] at hv
            subst hv
            injection hveq.symm with e1 e2 e3
            subst e2
            decide
          · simp at h

/-! ## C3: localized rebuild with structural sharing

Auxiliary notions for the `from_iblock` theorem.  Identity tags play the
role of Python object addresses, so the hypotheses below spell out the
ambient well-formedness the runtime provides for free: definition sites
carry pairwise distinct identities below the allocation counter,
operands reference visible definitions (SSA scoping), and a substitution
maps to values that are not further substituted. -/

/-- The definition-site identity of a value: the producing operation's
identity for a result, the argument's own identity for a block
argument. -/
def IVal.defId : IVal → Nat
  | .result _ o _ => o.oid
  | .blockArg a => a.argId

mutual
/-- All definition-site identities of an operation: its own and those of
everything defined inside its regions (successor references are not
definition sites). -/
def IOp.defIds : IOp → List Nat
  | .mk oid _ _ _ _ rs => oid :: IOp.defIdsRegions rs

def IOp.defIdsRegions : List IRegion → List Nat
  | [] => []
  | r :: rs => IOp.defIdsRegion r ++ IOp.defIdsRegions rs

def IOp.defIdsRegion : IRegion → List Nat
  | .mk rid bs => rid :: IOp.defIdsBlocks bs

def IOp.defIdsBlocks : List IBlock → List Nat
  | [] => []
  | b :: bs => IOp.defIdsBlock b ++ IOp.defIdsBlocks bs

def IOp.defIdsBlock : IBlock → List Nat
  | .mk bid args ops => bid :: (args.map IBlockArg.argId ++ IOp.defIdsOps ops)

def IOp.defIdsOps : List IOp → List Nat
  | [] => []
  | o :: os => o.defIds ++ IOp.defIdsOps os
end

/-- Block arguments as operand values. -/
def argVals (args : List IBlockArg) : List IVal := args.map IVal.blockArg

/-- Membership of a value in a key list, by the dictionary equality. -/
def valInKeys (keys : List IVal) (v : IVal) : Bool :=
  keys.any (fun k => IVal.beqKey k v)

/-- Whether any direct operand of the operation is among the keys. -/
def opDirectRefs (keys : List IVal) (op : IOp) : Bool :=
  op.operands.any (fun v => valInKeys keys v)

/-- Whether the operation references a key directly or anywhere inside its
regions — the claim's "transitively, including through nested regions,
references a substituted value". -/
def opDeepRefs (keys : List IVal) (op : IOp) : Bool :=
  opDirectRefs keys op || IOp.deepAnyRegions (opDirectRefs keys) op.regions

mutual
/-- Every operand value appearing at any depth below a list of
operations. -/
def deepOperandVals : List IOp → List IVal
  | [] => []
  | o :: os => deepOperandValsOp o ++ deepOperandVals os

def deepOperandValsOp : IOp → List IVal
  | .mk _ _ operands _ _ rs => operands ++ deepOperandValsRegions rs

def deepOperandValsRegions : List IRegion → List IVal
  | [] => []
  | r :: rs => deepOperandValsRegion r ++ deepOperandValsRegions rs

def deepOperandValsRegion : IRegion → List IVal
  | .mk _ bs => deepOperandValsBlocks bs

def deepOperandValsBlocks : List IBlock → List IVal
  | [] => []
  | b :: bs => deepOperandValsBlock b ++ deepOperandValsBlocks bs

def deepOperandValsBlock : IBlock → List IVal
  | .mk _ _ ops => deepOperandVals ops
end

/-- SSA scoping of a sequence of operations against a set of visible
values: each operation's operands are visible, operations inside a nested
block additionally see that block's arguments (and, recursively, the
prefix of their own block), and each operation's results become visible
to its successors in the sequence. -/
inductive ScopedOps : List IVal → List IOp → Prop where
  | nil : ∀ allowed, ScopedOps allowed []
  | cons : ∀ allowed op rest,
      (∀ v ∈ op.operands, v ∈ allowed) →
      (∀ r ∈ op.regions, ∀ b ∈ r.blocks,
        ScopedOps (allowed ++ argVals b.args) b.ops) →
      ScopedOps (allowed ++ op.results) rest →
      ScopedOps allowed (op :: rest)

/-- Discipline of the visible external values: defined outside the
processed structure, already allocated, and not results of `RewriteId`
operations. -/
def AllowedGood (allowed : List IVal) (banned : List Nat) (σ : Nat) : Prop :=
  ∀ v ∈ allowed, v.defId ∉ banned ∧ v.defId < σ ∧
    IVal.isRewriteIdResult v = false

/-- Discipline of a substitution environment: keys and values already
allocated, values never keys themselves, defined outside the processed
structure and not results of `RewriteId` operations. -/
def EnvGood (env : Env) (banned : List Nat) (σ : Nat) : Prop :=
  ∀ p ∈ env, (p.1).defId < σ ∧ (p.2).defId < σ ∧
    (p.2).defId ∉ env.map (fun q => (q.1).defId) ∧
    (p.2).defId ∉ banned ∧ IVal.isRewriteIdResult p.2 = false

/-- Shape of the entries an environment gains during a rebuild: keys are
definition sites of the processed structure, values are freshly allocated
in the consumed counter range and are never `RewriteId` results. -/
def ExtraProps (extra : Env) (src : List Nat) (σ σ2 : Nat) : Prop :=
  ∀ p ∈ extra, (p.1).defId ∈ src ∧ σ ≤ (p.2).defId ∧
    (p.2).defId < σ2 ∧ IVal.isRewriteIdResult p.2 = false

/-- No operation of `RewriteId` kind anywhere in the list (deep). -/
def NoRwOps (ops : List IOp) : Prop :=
  IOp.deepAnyOps (fun o => o.opType == OpType.rewriteId) ops = false

/-- The claim-side specification of the rebuild: processing the
operations in order with a substitution environment, an operation that
does not (transitively, including through nested regions) reference a
substituted value is kept — the same instance; one that does is replaced
by a freshly allocated operation with the same shared `OpData`, result
types and successors, its operands remapped through the environment,
which then gains the correspondence from its old results to the new
ones.  (Nested region contents of rebuilt operations are existentially
quantified; the claim constrains only the operation-level sharing and
operand remapping.) -/
inductive RebuildSpec : Env → Nat → List IOp → List IOp → Prop where
  | nil : ∀ e σ, RebuildSpec e σ [] []
  | clean : ∀ e σ op rest rest2,
      opDeepRefs (e.map Prod.fst) op = false →
      RebuildSpec e σ rest rest2 →
      RebuildSpec e σ (op :: rest) (op :: rest2)
  | dirty : ∀ e σ op rest rest2 oid2 rs2,
      opDeepRefs (e.map Prod.fst) op = true →
      σ ≤ oid2 →
      RebuildSpec
        ((op.results.zip
          (IOp.mk oid2 op.opData (op.operands.map (Env.applyTo e))
            op.resultTypes op.successors rs2).results) ++ e) σ rest rest2 →
      RebuildSpec e σ (op :: rest)
        (IOp.mk oid2 op.opData (op.operands.map (Env.applyTo e))
          op.resultTypes op.successors rs2 :: rest2)

/-! ### Environment lemmas -/

theorem containsKey_eq_valInKeys (env : Env) (v : IVal) :
    Env.containsKey env v = valInKeys (env.map Prod.fst) v := by
  induction env with
  | nil => rfl
  | cons p rest ih =>
    by_cases h : IVal.beqKey p.1 v = true
    · simp [Env.containsKey, Env.find?, valInKeys, List.find?_cons, h]
    · simp only [Bool.not_eq_true] at h
      simp only [Env.containsKey, Env.find?, List.find?_cons, h,
        List.map_cons, valInKeys, List.any_cons, Bool.false_or]
      exact ih

theorem opRefsEnv_eq (env : Env) (op : IOp) :
    opRefsEnv env op = opDirectRefs (env.map Prod.fst) op := by
  rw [opRefsEnv, opDirectRefs]
  congr 1
  funext v
  exact containsKey_eq_valInKeys env v

theorem env_find_append (e1 e2 : Env) (v : IVal) :
    Env.find? (e1 ++ e2) v =
      match Env.find? e1 v with
      | some w => some w
      | none => Env.find? e2 v := by
  rw [Env.find?, List.find?_append]
  cases h : List.find? (fun p => IVal.beqKey p.1 v) e1 with
  | none => simp [Env.find?, h, Option.orElse]
  | some p => simp [Env.find?, h, Option.orElse]

theorem beqKey_false_of_defId_ne (k v : IVal) (h : k.defId ≠ v.defId) :
    IVal.beqKey k v = false := by
  cases k with
  | result t o i =>
    cases v with
    | result t2 o2 i2 =>
      simp only [IVal.defId] at h
      simp [IVal.beqKey, h]
    | blockArg a => rfl
  | blockArg a =>
    cases v with
    | result t2 o2 i2 => rfl
    | blockArg a2 =>
      simp only [IVal.defId] at h
      simp [IVal.beqKey, h]

theorem env_find_none_of_defId (e : Env) (v : IVal)
    (h : ∀ p ∈ e, (p.1).defId ≠ v.defId) : Env.find? e v = none := by
  rw [Env.find?]
  have hf : List.find? (fun p => IVal.beqKey p.1 v) e = none := by
    rw [List.find?_eq_none]
    intro p hp
    simp [beqKey_false_of_defId_ne p.1 v (h p hp)]
  rw [hf]
  rfl

theorem env_find_append_of_skip (e1 e2 : Env) (v : IVal)
    (h : ∀ p ∈ e1, (p.1).defId ≠ v.defId) :
    Env.find? (e1 ++ e2) v = Env.find? e2 v := by
  rw [env_find_append, env_find_none_of_defId e1 v h]

/-! ### `mintArgs` characterization -/

/-- The fresh arguments minted for a block's argument list. -/
def mintSpec (args : List IBlockArg) (idx σ : Nat) : List IBlockArg :=
  match args with
  | [] => []
  | a :: rest => ⟨a.typ, σ, idx⟩ :: mintSpec rest (idx + 1) (σ + 1)

/-- The old-argument-to-new-argument entries `from_iblock` records, in
the order they end up in the environment (later insertions in front). -/
def mintPairs (args : List IBlockArg) (idx σ : Nat) : Env :=
  match args with
  | [] => []
  | a :: rest =>
    mintPairs rest (idx + 1) (σ + 1) ++
      [(.blockArg a, .blockArg ⟨a.typ, σ, idx⟩)]

theorem mintArgs_go_spec (args : List IBlockArg) :
    ∀ (idx : Nat) (env : Env) (σ : Nat),
    mintArgs.go args idx env σ =
      (mintSpec args idx σ, mintPairs args idx σ ++ env, σ + args.length) := by
  induction args with
  | nil => intro idx env σ; simp [mintArgs.go, mintSpec, mintPairs]
  | cons a rest ih =>
    intro idx env σ
    rw [mintArgs.go]
    rw [ih (idx + 1) (Env.insert env (.blockArg a) (.blockArg ⟨a.typ, σ, idx⟩)) (σ + 1)]
    rw [mintSpec, mintPairs, Env.insert]
    have h3 : σ + 1 + rest.length = σ + (a :: rest).length := by
      simp
      omega
    rw [List.append_assoc, List.singleton_append, h3]

theorem mintArgs_spec (args : List IBlockArg) (env : Env) (σ : Nat) :
    mintArgs args env σ =
      (mintSpec args 0 σ, mintPairs args 0 σ ++ env, σ + args.length) :=
  mintArgs_go_spec args 0 env σ

theorem mintSpec_get (args : List IBlockArg) :
    ∀ (idx σ i : Nat) (a : IBlockArg), args[i]? = some a →
      (mintSpec args idx σ)[i]? = some ⟨a.typ, σ + i, idx + i⟩ := by
  induction args with
  | nil => intro idx σ i a h; simp at h
  | cons x rest ih =>
    intro idx σ i a h
    cases i with
    | zero =>
      simp at h
      subst h
      simp [mintSpec]
    | succ n =>
      simp at h
      have := ih (idx + 1) (σ + 1) n a h
      rw [mintSpec]
      rw [List.getElem?_cons_succ]
      have e1 : σ + 1 + n = σ + (n + 1) := by omega
      have e2 : idx + 1 + n = idx + (n + 1) := by omega
      rw [e1, e2] at this
      exact this

theorem mintPairs_mem (args : List IBlockArg) :
    ∀ (idx σ : Nat) (p : IVal × IVal), p ∈ mintPairs args idx σ →
      ∃ (a : IBlockArg) (i : Nat), i < args.length ∧ args[i]? = some a ∧
        p = (.blockArg a, .blockArg ⟨a.typ, σ + i, idx + i⟩) := by
  induction args with
  | nil => intro idx σ p h; simp [mintPairs] at h
  | cons x rest ih =>
    intro idx σ p h
    rw [mintPairs] at h
    rcases List.mem_append.mp h with h | h
    · obtain ⟨a, i, hi, hget, hp⟩ := ih (idx + 1) (σ + 1) p h
      refine ⟨a, i + 1, by simpa using hi, by simpa using hget, ?_⟩
      have e1 : σ + 1 + i = σ + (i + 1) := by omega
      have e2 : idx + 1 + i = idx + (i + 1) := by omega
      rw [e1, e2] at hp
      exact hp
    · simp at h
      exact ⟨x, 0, by simp, by simp, by simpa using h⟩

/-! ### C3: counterexample input -/

/-- Counterexample block argument for claim C3. -/
def c3A0 : IBlockArg := ⟨.intType 32, 5, 0⟩

/-- A `rewrite.id` operation whose only operand is the block argument. -/
def c3R : IOp :=
  IOp.mk 7 (OpData.mk 6 "rewrite.id" .rewriteId []) [.blockArg c3A0] [.intType 32] [] []

/-- An ordinary operation consuming the `rewrite.id` operation's result. -/
def c3X : IOp :=
  IOp.mk 9 (OpData.mk 8 "test.op0" (.otherOp 0) []) [.result (.intType 32) c3R 0] [] [] []

/-- The counterexample block: one argument, the two operations above. -/
def c3Blk : IBlock := IBlock.mk 50 [c3A0] [c3R, c3X]

/-- The freshly minted block argument of the rebuilt block. -/
def c3A0n : IBlockArg := ⟨.intType 32, 100, 0⟩

/-- The rebuilt `rewrite.id` operation. -/
def c3Rn : IOp :=
  IOp.mk 101 (OpData.mk 6 "rewrite.id" .rewriteId []) [.blockArg c3A0n] [.intType 32] [] []

/-- The rebuilt consumer operation: its operand has been unwrapped through
the `rewrite.id` operation to the fresh block argument, not remapped to the
environment image of the old result. -/
def c3Xn : IOp :=
  IOp.mk 102 (OpData.mk 8 "test.op0" (.otherOp 0) []) [.blockArg c3A0n] [] [] []

/-- The environment produced by the rebuild of the counterexample block. -/
def c3EnvOut : Env :=
  [(.result (.intType 32) c3R 0, .result (.intType 32) c3Rn 0),
   (.blockArg c3A0, .blockArg c3A0n)]

/-- Counterexample to C3 as stated: rebuilding the block maps the old
result `c3R#0` to the new result `c3Rn#0` in the environment, yet the
rebuilt consumer operation `c3Xn` does not carry that remapped operand —
`from_op`'s RewriteId unwrapping replaced it by the block argument. -/
theorem C3_counterexample :
    fromIBlock [c3R, c3X] c3Blk [] 100 =
      .ok (IBlock.mk 103 [c3A0n] [c3Rn, c3Xn], c3EnvOut, 104) ∧
    Env.applyTo c3EnvOut (.result (.intType 32) c3R 0) =
      .result (.intType 32) c3Rn 0 ∧
    c3Xn.operands ≠ [.result (.intType 32) c3Rn 0] := by
  refine ⟨rfl, rfl, ?_⟩
  intro h
  simp [c3Xn, IOp.operands] at h

/-! ### Key/identity helpers -/

theorem defId_eq_of_beqKey (k v : IVal) (h : IVal.beqKey k v = true) :
    k.defId = v.defId := by
  cases k with
  | result t o i =>
    cases v with
    | result t2 o2 i2 =>
      simp only [IVal.beqKey, Bool.and_eq_true, beq_iff_eq] at h
      simp [IVal.defId, h.1]
    | blockArg a => simp [IVal.beqKey] at h
  | blockArg a =>
    cases v with
    | result t2 o2 i2 => simp [IVal.beqKey] at h
    | blockArg a2 =>
      simp only [IVal.beqKey, beq_iff_eq] at h
      simp [IVal.defId, h]

theorem valInKeys_append (k1 k2 : List IVal) (v : IVal) :
    valInKeys (k1 ++ k2) v = (valInKeys k1 v || valInKeys k2 v) := by
  simp [valInKeys, List.any_append]

theorem valInKeys_false_of_defId (keys : List IVal) (v : IVal)
    (h : ∀ k ∈ keys, k.defId ≠ v.defId) : valInKeys keys v = false := by
  rw [valInKeys]
  rw [List.any_eq_false]
  intro k hk
  intro hb
  exact h k hk (defId_eq_of_beqKey k v hb)

theorem env_find_mem (env : Env) (v w : IVal) (h : Env.find? env v = some w) :
    ∃ k, (k, w) ∈ env ∧ IVal.beqKey k v = true := by
  rw [Env.find?] at h
  cases hf : List.find? (fun p => IVal.beqKey p.1 v) env with
  | none => rw [hf] at h; simp at h
  | some p =>
    rw [hf] at h
    simp at h
    have hmem := List.mem_of_find?_eq_some hf
    have hpred := List.find?_some hf
    refine ⟨p.1, ?_, by simpa using hpred⟩
    have : p = (p.1, w) := by
      cases p
      simp only at h
      simp [h]
    rw [this] at hmem
    exact hmem

theorem applyTo_of_find_none (env : Env) (v : IVal)
    (h : Env.find? env v = none) : Env.applyTo env v = v := by
  rw [Env.applyTo, h]
  rfl

theorem applyTo_of_find_some (env : Env) (v w : IVal)
    (h : Env.find? env v = some w) : Env.applyTo env v = w := by
  rw [Env.applyTo, h]
  rfl

/-! ### `EnvGood` / `AllowedGood` / `ExtraProps` bookkeeping -/

theorem envGood_mono (env : Env) (banned banned2 : List Nat) (σ σ2 : Nat)
    (he : EnvGood env banned σ) (hsub : ∀ i ∈ banned2, i ∈ banned)
    (hσ : σ ≤ σ2) : EnvGood env banned2 σ2 := by
  intro p hp
  obtain ⟨h1, h2, h3, h4, h5⟩ := he p hp
  exact ⟨by omega, by omega, h3, fun hc => h4 (hsub _ hc), h5⟩

theorem allowedGood_mono (allowed : List IVal) (banned banned2 : List Nat)
    (σ σ2 : Nat) (ha : AllowedGood allowed banned σ)
    (hsub : ∀ i ∈ banned2, i ∈ banned) (hσ : σ ≤ σ2) :
    AllowedGood allowed banned2 σ2 := by
  intro v hv
  obtain ⟨h1, h2, h3⟩ := ha v hv
  exact ⟨fun hc => h1 (hsub _ hc), by omega, h3⟩

theorem allowedGood_append (a1 a2 : List IVal) (banned : List Nat) (σ : Nat)
    (h1 : AllowedGood a1 banned σ) (h2 : AllowedGood a2 banned σ) :
    AllowedGood (a1 ++ a2) banned σ := by
  intro v hv
  rcases List.mem_append.mp hv with h | h
  · exact h1 v h
  · exact h2 v h

theorem extraProps_mono (extra : Env) (src src2 : List Nat) (σl σ σ2 σ2u : Nat)
    (h : ExtraProps extra src σ σ2) (hsub : ∀ i ∈ src, i ∈ src2)
    (hl : σl ≤ σ) (hu : σ2 ≤ σ2u) : ExtraProps extra src2 σl σ2u := by
  intro p hp
  obtain ⟨h1, h2, h3, h4⟩ := h p hp
  exact ⟨hsub _ h1, by omega, by omega, h4⟩

theorem extraProps_nil (src : List Nat) (σ σ2 : Nat) :
    ExtraProps [] src σ σ2 := by
  intro p hp
  simp at hp

theorem extraProps_append (e1 e2 : Env) (src : List Nat) (σ σ1 σ2 : Nat)
    (h1 : ExtraProps e1 src σ σ1) (h2 : ExtraProps e2 src σ1 σ2)
    (hle : σ ≤ σ1) (hle2 : σ1 ≤ σ2) : ExtraProps (e2 ++ e1) src σ σ2 := by
  intro p hp
  rcases List.mem_append.mp hp with h | h
  · obtain ⟨a, b, c, d⟩ := h2 p h
    exact ⟨a, by omega, c, d⟩
  · obtain ⟨a, b, c, d⟩ := h1 p h
    exact ⟨a, b, by omega, d⟩

theorem envGood_extend (env extra : Env) (banned banned2 src : List Nat)
    (σ σ2 : Nat) (he : EnvGood env banned σ) (hx : ExtraProps extra src σ σ2)
    (hsrc : ∀ i ∈ src, i ∈ banned) (hsrclt : ∀ i ∈ src, i < σ)
    (hsub : ∀ i ∈ banned2, i ∈ banned) (hblt : ∀ i ∈ banned2, i < σ)
    (hσ : σ ≤ σ2) : EnvGood (extra ++ env) banned2 σ2 := by
  intro p hp
  rcases List.mem_append.mp hp with h | h
  · obtain ⟨h1, h2, h3, h4⟩ := hx p h
    refine ⟨?_, by omega, ?_, ?_, h4⟩
    · exact lt_of_lt_of_le (hsrclt _ h1) hσ
    · intro hc
      simp only [List.map_append, List.mem_append] at hc
      rcases hc with hc | hc
      · rw [List.mem_map] at hc
        obtain ⟨q, hq, hqe⟩ := hc
        have := hsrclt _ (hx q hq).1
        omega
      · rw [List.mem_map] at hc
        obtain ⟨q, hq, hqe⟩ := hc
        have := (he q hq).1
        omega
    · intro hc
      have := hblt _ hc
      omega
  · obtain ⟨h1, h2, h3, h4, h5⟩ := he p h
    refine ⟨by omega, by omega, ?_, fun hc => h4 (hsub _ hc), h5⟩
    intro hc
    simp only [List.map_append, List.mem_append] at hc
    rcases hc with hc | hc
    · rw [List.mem_map] at hc
      obtain ⟨q, hq, hqe⟩ := hc
      exact h4 (by rw [← hqe] at *; exact hsrc _ (hx q hq).1)
    · exact h3 hc

theorem envGood_find_props (env : Env) (banned : List Nat) (σ : Nat)
    (he : EnvGood env banned σ) (v w : IVal)
    (h : Env.find? env v = some w) :
    Env.find? env w = none ∧ IVal.isRewriteIdResult w = false := by
  obtain ⟨k, hmem, _⟩ := env_find_mem env v w h
  obtain ⟨_, _, h3, _, h5⟩ := he (k, w) hmem
  refine ⟨?_, h5⟩
  apply env_find_none_of_defId
  intro p hp hc
  apply h3
  rw [List.mem_map]
  exact ⟨p, hp, hc⟩

theorem applyTo_idem (env : Env) (banned : List Nat) (σ : Nat)
    (he : EnvGood env banned σ) (v : IVal) :
    Env.applyTo env (Env.applyTo env v) = Env.applyTo env v := by
  cases hf : Env.find? env v with
  | none =>
    rw [applyTo_of_find_none env v hf, applyTo_of_find_none env v hf]
  | some w =>
    rw [applyTo_of_find_some env v w hf]
    exact applyTo_of_find_none env w (envGood_find_props env banned σ he v w hf).1

theorem applyTo_rw_false (env : Env) (banned : List Nat) (σ : Nat)
    (he : EnvGood env banned σ) (v : IVal)
    (hv : IVal.isRewriteIdResult v = false) :
    IVal.isRewriteIdResult (Env.applyTo env v) = false := by
  cases hf : Env.find? env v with
  | none => rw [applyTo_of_find_none env v hf]; exact hv
  | some w =>
    rw [applyTo_of_find_some env v w hf]
    exact (envGood_find_props env banned σ he v w hf).2

/-! ### Result lists -/

theorem results_defId (op : IOp) : ∀ v ∈ op.results, v.defId = op.oid := by
  intro v hv
  rw [IOp.results, List.mem_mapIdx] at hv
  obtain ⟨i, hi, he⟩ := hv
  rw [← he]
  rfl

theorem results_rw_false (op : IOp) (h : (op.opType == OpType.rewriteId) = false) :
    ∀ v ∈ op.results, IVal.isRewriteIdResult v = false := by
  intro v hv
  rw [IOp.results, List.mem_mapIdx] at hv
  obtain ⟨i, hi, he⟩ := hv
  rw [← he, IVal.isRewriteIdResult]
  exact h

theorem results_length (op : IOp) : op.results.length = op.resultTypes.length := by
  rw [IOp.results]
  simp

theorem results_getElem (op : IOp) (k : Nat) (h : k < op.resultTypes.length) :
    op.results[k]? = some (IVal.result op.resultTypes[k] op k) := by
  rw [IOp.results, List.getElem?_mapIdx]
  rw [List.getElem?_eq_getElem h]
  rfl

/-- Two zip entries over the result lists of a pair of operations whose
keys both match `v` are the same entry (the result index is forced). -/
theorem zip_results_unique (oldOp newO : IOp) (v : IVal) :
    ∀ a ∈ oldOp.results.zip newO.results, ∀ b ∈ oldOp.results.zip newO.results,
      IVal.beqKey a.1 v = true → IVal.beqKey b.1 v = true → a = b := by
  intro a ha b hb hav hbv
  rw [List.mem_iff_getElem] at ha hb
  obtain ⟨i, hi, hae⟩ := ha
  obtain ⟨j, hj, hbe⟩ := hb
  rw [List.getElem_zip] at hae hbe
  have hiL : i < oldOp.results.length := by
    rw [List.length_zip] at hi
    omega
  have hjL : j < oldOp.results.length := by
    rw [List.length_zip] at hj
    omega
  have hiT : i < oldOp.resultTypes.length := by
    rw [← results_length]
    exact hiL
  have hjT : j < oldOp.resultTypes.length := by
    rw [← results_length]
    exact hjL
  have hgi : oldOp.results[i] = IVal.result oldOp.resultTypes[i] oldOp i := by
    have h1 := results_getElem oldOp i hiT
    rw [List.getElem?_eq_getElem hiL] at h1
    exact Option.some.inj h1
  have hgj : oldOp.results[j] = IVal.result oldOp.resultTypes[j] oldOp j := by
    have h1 := results_getElem oldOp j hjT
    rw [List.getElem?_eq_getElem hjL] at h1
    exact Option.some.inj h1
  have hij : i = j := by
    rw [← hae] at hav
    rw [← hbe] at hbv
    simp only at hav hbv
    rw [hgi] at hav
    rw [hgj] at hbv
    cases v with
    | result tv ov iv =>
      simp only [IVal.beqKey, Bool.and_eq_true, beq_iff_eq] at hav hbv
      omega
    | blockArg a0 => simp [IVal.beqKey] at hav
  subst hij
  rw [← hae, ← hbe]

/-! ### `find?` over a reversed prefix with a unique match -/

theorem find_reverse_unique {α : Type} (p : α → Bool) (l : List α)
    (h : ∀ a ∈ l, ∀ b ∈ l, p a = true → p b = true → a = b) :
    List.find? p l.reverse = List.find? p l := by
  cases hf : List.find? p l with
  | none =>
    rw [List.find?_eq_none] at hf
    rw [List.find?_eq_none]
    intro x hx
    exact hf x (List.mem_reverse.mp hx)
  | some a =>
    have hmem := List.mem_of_find?_eq_some hf
    have hpa := List.find?_some hf
    have : ∃ x ∈ l.reverse, p x = true := ⟨a, List.mem_reverse.mpr hmem, hpa⟩
    rw [← List.find?_isSome] at this
    cases hg : List.find? p l.reverse with
    | none => rw [hg] at this; simp at this
    | some b =>
      have hbm := List.mem_reverse.mp (List.mem_of_find?_eq_some hg)
      have hpb := List.find?_some hg
      rw [h b hbm a hmem hpb hpa]

/-! ### Membership plumbing for the deep-value and identity families -/

theorem mem_vals_blocks (bs : List IBlock) (v : IVal)
    (h : v ∈ deepOperandValsBlocks bs) :
    ∃ b ∈ bs, v ∈ deepOperandVals b.ops := by
  induction bs with
  | nil => rw [deepOperandValsBlocks] at h; simp at h
  | cons b rest ih =>
    rw [deepOperandValsBlocks] at h
    rcases List.mem_append.mp h with h | h
    · refine ⟨b, List.mem_cons_self b rest, ?_⟩
      cases b with
      | mk bid args ops =>
        rw [deepOperandValsBlock] at h
        exact h
    · obtain ⟨b', hb', hv⟩ := ih h
      exact ⟨b', List.mem_cons_of_mem b hb', hv⟩

theorem mem_vals_regions (rs : List IRegion) (v : IVal)
    (h : v ∈ deepOperandValsRegions rs) :
    ∃ r ∈ rs, ∃ b ∈ r.blocks, v ∈ deepOperandVals b.ops := by
  induction rs with
  | nil => rw [deepOperandValsRegions] at h; simp at h
  | cons r rest ih =>
    rw [deepOperandValsRegions] at h
    rcases List.mem_append.mp h with h | h
    · refine ⟨r, List.mem_cons_self r rest, ?_⟩
      cases r with
      | mk rid bs =>
        rw [deepOperandValsRegion] at h
        exact mem_vals_blocks bs v h
    · obtain ⟨r', hr', rest'⟩ := ih h
      exact ⟨r', List.mem_cons_of_mem r hr', rest'⟩

theorem defIdsBlock_sub_blocks (bs : List IBlock) (b : IBlock) (hb : b ∈ bs) :
    ∀ i ∈ IOp.defIdsBlock b, i ∈ IOp.defIdsBlocks bs := by
  induction bs with
  | nil => simp at hb
  | cons b0 rest ih =>
    intro i hi
    rw [IOp.defIdsBlocks]
    rcases List.mem_cons.mp hb with h | h
    · subst h
      exact List.mem_append.mpr (Or.inl hi)
    · exact List.mem_append.mpr (Or.inr (ih h i hi))

theorem defIdsBlock_sub_regions (rs : List IRegion) (r : IRegion) (b : IBlock)
    (hr : r ∈ rs) (hb : b ∈ r.blocks) :
    ∀ i ∈ IOp.defIdsBlock b, i ∈ IOp.defIdsRegions rs := by
  induction rs with
  | nil => simp at hr
  | cons r0 rest ih =>
    intro i hi
    rw [IOp.defIdsRegions]
    rcases List.mem_cons.mp hr with h | h
    · subst h
      refine List.mem_append.mpr (Or.inl ?_)
      cases r with
      | mk rid bs =>
        rw [IOp.defIdsRegion]
        refine List.mem_cons_of_mem rid ?_
        exact defIdsBlock_sub_blocks bs b hb i hi
    · exact List.mem_append.mpr (Or.inr (ih h i hi))

theorem mem_argVals (args : List IBlockArg) (v : IVal) (h : v ∈ argVals args) :
    ∃ a ∈ args, v = IVal.blockArg a := by
  rw [argVals, List.mem_map] at h
  obtain ⟨a, ha, he⟩ := h
  exact ⟨a, ha, he.symm⟩

theorem argVals_defId_mem (args : List IBlockArg) (v : IVal)
    (h : v ∈ argVals args) : v.defId ∈ args.map IBlockArg.argId := by
  obtain ⟨a, ha, he⟩ := mem_argVals args v h
  subst he
  rw [IVal.defId, List.mem_map]
  exact ⟨a, ha, rfl⟩

/-- Under SSA scoping every operand value appearing anywhere below the
operations is either a visible external value or defined inside. -/
theorem scoped_deep_vals (A : List IVal) (ops : List IOp)
    (h : ScopedOps A ops) :
    ∀ v ∈ deepOperandVals ops, v ∈ A ∨ v.defId ∈ IOp.defIdsOps ops := by
  induction h with
  | nil allowed => intro v hv; rw [deepOperandVals] at hv; simp at hv
  | cons allowed op rest hoprnd hregs hrest ihregs ihrest =>
    intro v hv
    rw [deepOperandVals] at hv
    have hop : IOp.defIdsOps (op :: rest) = op.defIds ++ IOp.defIdsOps rest := by
      rw [IOp.defIdsOps]
    rcases List.mem_append.mp hv with hv | hv
    · cases op with
      | mk oid d os ts ss rs =>
        rw [deepOperandValsOp] at hv
        rcases List.mem_append.mp hv with hv | hv
        · exact Or.inl (hoprnd v hv)
        · obtain ⟨r, hr, b, hb, hvb⟩ := mem_vals_regions rs v hv
          rcases ihregs r hr b hb v hvb with hva | hvi
          · rcases List.mem_append.mp hva with hva | hva
            · exact Or.inl hva
            · refine Or.inr ?_
              rw [hop]
              refine List.mem_append.mpr (Or.inl ?_)
              rw [IOp.defIds]
              refine List.mem_cons_of_mem oid ?_
              refine defIdsBlock_sub_regions rs r b hr hb _ ?_
              cases b with
              | mk bid args bops =>
                rw [IOp.defIdsBlock]
                refine List.mem_cons_of_mem bid ?_
                refine List.mem_append.mpr (Or.inl ?_)
                exact argVals_defId_mem args v hva
          · refine Or.inr ?_
            rw [hop]
            refine List.mem_append.mpr (Or.inl ?_)
            rw [IOp.defIds]
            refine List.mem_cons_of_mem oid ?_
            refine defIdsBlock_sub_regions rs r b hr hb _ ?_
            cases b with
            | mk bid args bops =>
              rw [IOp.defIdsBlock]
              refine List.mem_cons_of_mem bid ?_
              refine List.mem_append.mpr (Or.inr ?_)
              exact hvi
    · rcases ihrest v hv with hva | hvi
      · rcases List.mem_append.mp hva with hva | hva
        · exact Or.inl hva
        · refine Or.inr ?_
          rw [hop]
          refine List.mem_append.mpr (Or.inl ?_)
          have := results_defId op v hva
          rw [this]
          cases op with
          | mk oid d os ts ss rs =>
            rw [IOp.defIds]
            exact List.mem_cons_self _ _
      · refine Or.inr ?_
        rw [hop]
        exact List.mem_append.mpr (Or.inr hvi)

/-! ### Congruence of the deep reference checks -/

theorem any_congr_mem {α : Type} (l : List α) (f g : α → Bool)
    (h : ∀ x ∈ l, f x = g x) : l.any f = l.any g := by
  induction l with
  | nil => rfl
  | cons x xs ih =>
    simp only [List.any_cons]
    rw [h x (List.mem_cons_self x xs),
      ih (fun y hy => h y (List.mem_cons_of_mem x hy))]

mutual
/-- `walk`-style checks only look at each operation, so pointwise equal
predicates give equal outcomes. -/
theorem deepAnyCongrOp (p q : IOp → Bool) (h : ∀ o, p o = q o) :
    (op : IOp) → IOp.deepAny p op = IOp.deepAny q op
  | .mk oid d os ts ss rs => by
    simp only [IOp.deepAny]
    rw [h, deepAnyCongrRegions p q h rs]

theorem deepAnyCongrRegions (p q : IOp → Bool) (h : ∀ o, p o = q o) :
    (rs : List IRegion) → IOp.deepAnyRegions p rs = IOp.deepAnyRegions q rs
  | [] => rfl
  | r :: rest => by
    simp only [IOp.deepAnyRegions]
    rw [deepAnyCongrRegion p q h r, deepAnyCongrRegions p q h rest]

theorem deepAnyCongrRegion (p q : IOp → Bool) (h : ∀ o, p o = q o) :
    (r : IRegion) → IOp.deepAnyRegion p r = IOp.deepAnyRegion q r
  | .mk rid bs => by
    simp only [IOp.deepAnyRegion]
    exact deepAnyCongrBlocks p q h bs

theorem deepAnyCongrBlocks (p q : IOp → Bool) (h : ∀ o, p o = q o) :
    (bs : List IBlock) → IOp.deepAnyBlocks p bs = IOp.deepAnyBlocks q bs
  | [] => rfl
  | b :: rest => by
    simp only [IOp.deepAnyBlocks]
    rw [deepAnyCongrBlock p q h b, deepAnyCongrBlocks p q h rest]

theorem deepAnyCongrBlock (p q : IOp → Bool) (h : ∀ o, p o = q o) :
    (b : IBlock) → IOp.deepAnyBlock p b = IOp.deepAnyBlock q b
  | .mk bid args ops => by
    simp only [IOp.deepAnyBlock]
    exact deepAnyCongrOps p q h ops

theorem deepAnyCongrOps (p q : IOp → Bool) (h : ∀ o, p o = q o) :
    (ops : List IOp) → IOp.deepAnyOps p ops = IOp.deepAnyOps q ops
  | [] => rfl
  | o :: os => by
    simp only [IOp.deepAnyOps]
    rw [deepAnyCongrOp p q h o, deepAnyCongrOps p q h os]
end

mutual
/-- The deep reference check against two key lists agrees as soon as the
key lists agree on every operand value below the operation. -/
theorem deepRefCongrOp (k1 k2 : List IVal) :
    (op : IOp) →
    (∀ v ∈ deepOperandValsOp op, valInKeys k1 v = valInKeys k2 v) →
    IOp.deepAny (opDirectRefs k1) op = IOp.deepAny (opDirectRefs k2) op
  | .mk oid d os ts ss rs, h => by
    simp only [IOp.deepAny]
    have h1 : opDirectRefs k1 (.mk oid d os ts ss rs) =
        opDirectRefs k2 (.mk oid d os ts ss rs) := by
      rw [opDirectRefs, opDirectRefs]
      simp only [IOp.operands]
      refine any_congr_mem os _ _ ?_
      intro v hv
      refine h v ?_
      rw [deepOperandValsOp]
      exact List.mem_append.mpr (Or.inl hv)
    rw [h1, deepRefCongrRegions k1 k2 rs ?_]
    intro v hv
    refine h v ?_
    rw [deepOperandValsOp]
    exact List.mem_append.mpr (Or.inr hv)

theorem deepRefCongrRegions (k1 k2 : List IVal) :
    (rs : List IRegion) →
    (∀ v ∈ deepOperandValsRegions rs, valInKeys k1 v = valInKeys k2 v) →
    IOp.deepAnyRegions (opDirectRefs k1) rs =
      IOp.deepAnyRegions (opDirectRefs k2) rs
  | [], _ => rfl
  | r :: rest, h => by
    simp only [IOp.deepAnyRegions]
    rw [deepRefCongrRegion k1 k2 r ?_, deepRefCongrRegions k1 k2 rest ?_]
    · intro v hv
      refine h v ?_
      rw [deepOperandValsRegions]
      exact List.mem_append.mpr (Or.inr hv)
    · intro v hv
      refine h v ?_
      rw [deepOperandValsRegions]
      exact List.mem_append.mpr (Or.inl hv)

theorem deepRefCongrRegion (k1 k2 : List IVal) :
    (r : IRegion) →
    (∀ v ∈ deepOperandValsRegion r, valInKeys k1 v = valInKeys k2 v) →
    IOp.deepAnyRegion (opDirectRefs k1) r = IOp.deepAnyRegion (opDirectRefs k2) r
  | .mk rid bs, h => by
    simp only [IOp.deepAnyRegion]
    refine deepRefCongrBlocks k1 k2 bs ?_
    intro v hv
    refine h v ?_
    rw [deepOperandValsRegion]
    exact hv

theorem deepRefCongrBlocks (k1 k2 : List IVal) :
    (bs : List IBlock) →
    (∀ v ∈ deepOperandValsBlocks bs, valInKeys k1 v = valInKeys k2 v) →
    IOp.deepAnyBlocks (opDirectRefs k1) bs =
      IOp.deepAnyBlocks (opDirectRefs k2) bs
  | [], _ => rfl
  | b :: rest, h => by
    simp only [IOp.deepAnyBlocks]
    rw [deepRefCongrBlock k1 k2 b ?_, deepRefCongrBlocks k1 k2 rest ?_]
    · intro v hv
      refine h v ?_
      rw [deepOperandValsBlocks]
      exact List.mem_append.mpr (Or.inr hv)
    · intro v hv
      refine h v ?_
      rw [deepOperandValsBlocks]
      exact List.mem_append.mpr (Or.inl hv)

theorem deepRefCongrBlock (k1 k2 : List IVal) :
    (b : IBlock) →
    (∀ v ∈ deepOperandValsBlock b, valInKeys k1 v = valInKeys k2 v) →
    IOp.deepAnyBlock (opDirectRefs k1) b = IOp.deepAnyBlock (opDirectRefs k2) b
  | .mk bid args ops, h => by
    simp only [IOp.deepAnyBlock]
    refine deepRefCongrOps k1 k2 ops ?_
    intro v hv
    refine h v ?_
    rw [deepOperandValsBlock]
    exact hv

theorem deepRefCongrOps (k1 k2 : List IVal) :
    (ops : List IOp) →
    (∀ v ∈ deepOperandVals ops, valInKeys k1 v = valInKeys k2 v) →
    IOp.deepAnyOps (opDirectRefs k1) ops = IOp.deepAnyOps (opDirectRefs k2) ops
  | [], _ => rfl
  | o :: os, h => by
    simp only [IOp.deepAnyOps]
    rw [deepRefCongrOp k1 k2 o ?_, deepRefCongrOps k1 k2 os ?_]
    · intro v hv
      refine h v ?_
      rw [deepOperandVals]
      exact List.mem_append.mpr (Or.inr hv)
    · intro v hv
      refine h v ?_
      rw [deepOperandVals]
      exact List.mem_append.mpr (Or.inl hv)
end

/-! ### `_unpack_operands` on plain values and the result-mapping loop -/

theorem resolveVal_ok (env : Env) (v : IVal)
    (h : IVal.isRewriteIdResult (Env.applyTo env v) = false) :
    resolveVal env v = .ok (Env.applyTo env v) := by
  simp [resolveVal, h]

theorem unpackGo_vals_ok (env : Env) (vs : List IVal) (acc : List IOp)
    (h : ∀ v ∈ vs, IVal.isRewriteIdResult (Env.applyTo env v) = false) :
    unpackGo (vs.map OpndArg.val) env acc =
      .ok (vs.map (Env.applyTo env), acc) := by
  induction vs with
  | nil => rfl
  | cons v rest ih =>
    simp only [List.map_cons]
    rw [unpackGo]
    have hstep : unpackStep (OpndArg.val v) env acc =
        .ok (Env.applyTo env v, acc) := by
      rw [unpackStep]
      rw [resolveVal_ok env v (h v (List.mem_cons_self v rest))]
      rfl
    simp only [bind, Except.bind, hstep]
    rw [ih (fun x hx => h x (List.mem_cons_of_mem v hx))]

theorem addRM_go_spec (old : IOp) :
    ∀ (l : List (Nat × IVal)) (olds : List IVal) (e : Env),
    olds.length = l.length →
    (∀ (k : Nat) (pr : Nat × IVal) (ov : IVal),
      l[k]? = some pr → olds[k]? = some ov →
      (IOp.results old)[pr.1]? = some ov) →
    addResultMappings.go old l e =
      .ok ((olds.zip (l.map Prod.snd)).reverse ++ e) := by
  intro l
  induction l with
  | nil =>
    intro olds e hlen h
    cases olds with
    | nil => rfl
    | cons x xs => simp at hlen
  | cons pr rest ih =>
    intro olds e hlen h
    cases olds with
    | nil => simp at hlen
    | cons ov orest =>
      obtain ⟨idx, r⟩ := pr
      rw [addResultMappings.go]
      have h0 : (IOp.results old)[idx]? = some ov :=
        h 0 (idx, r) ov (by simp) (by simp)
      rw [h0]
      have hrec := ih orest (Env.insert e ov r) (by simpa using hlen) ?_
      · show addResultMappings.go old rest (Env.insert e ov r) = _
        rw [hrec]
        simp only [List.map_cons, List.zip_cons_cons, List.reverse_cons,
          Env.insert, List.append_assoc, List.singleton_append]
      · intro k pr' ov' hk hok
        exact h (k + 1) pr' ov' (by simpa using hk) (by simpa using hok)

theorem addResultMappings_spec (env : Env) (oldOp newO : IOp)
    (h : oldOp.resultTypes.length = newO.resultTypes.length) :
    addResultMappings env oldOp newO =
      .ok ((oldOp.results.zip newO.results).reverse ++ env) := by
  rw [addResultMappings]
  have hspec := addRM_go_spec oldOp newO.results.enum oldOp.results env ?_ ?_
  · rw [hspec, List.enum_map_snd]
  · rw [List.enum_length, results_length, results_length]
    exact h
  · intro k pr ov hk hok
    rw [List.getElem?_enum] at hk
    cases hg : (IOp.results newO)[k]? with
    | none => rw [hg] at hk; simp at hk
    | some w =>
      rw [hg] at hk
      have hk2 : (k, w) = pr := Option.some.inj hk
      rw [← hk2]
      exact hok

/-! ### Feeder lemmas for the rebuild theorems -/

theorem deepAny_false (p : IOp → Bool) (op : IOp)
    (h : IOp.deepAny p op = false) :
    p op = false ∧ IOp.deepAnyRegions p op.regions = false := by
  cases op with
  | mk oid d os ts ss rs =>
    rw [IOp.deepAny] at h
    rw [Bool.or_eq_false_iff] at h
    exact ⟨h.1, h.2⟩

/-- Scoped variant for a list of sibling blocks: every deep operand value
is external or defined among the blocks. -/
theorem scoped_vals_blocks (allowed : List IVal) (bs : List IBlock)
    (hsc : ∀ b ∈ bs, ScopedOps (allowed ++ argVals b.args) b.ops) :
    ∀ v ∈ deepOperandValsBlocks bs,
      v ∈ allowed ∨ v.defId ∈ IOp.defIdsBlocks bs := by
  intro v hv
  obtain ⟨b, hb, hvb⟩ := mem_vals_blocks bs v hv
  rcases scoped_deep_vals _ _ (hsc b hb) v hvb with hva | hvi
  · rcases List.mem_append.mp hva with hva | hva
    · exact Or.inl hva
    · refine Or.inr (defIdsBlock_sub_blocks bs b hb _ ?_)
      cases b with
      | mk bid args ops =>
        rw [IOp.defIdsBlock]
        refine List.mem_cons_of_mem bid (List.mem_append.mpr (Or.inl ?_))
        exact argVals_defId_mem args v hva
  · refine Or.inr (defIdsBlock_sub_blocks bs b hb _ ?_)
    cases b with
    | mk bid args ops =>
      rw [IOp.defIdsBlock]
      exact List.mem_cons_of_mem bid (List.mem_append.mpr (Or.inr hvi))

/-- Scoped variant for a list of regions of one operation. -/
theorem scoped_vals_regions (allowed : List IVal) (rs : List IRegion)
    (hsc : ∀ r ∈ rs, ∀ b ∈ r.blocks, ScopedOps (allowed ++ argVals b.args) b.ops) :
    ∀ v ∈ deepOperandValsRegions rs,
      v ∈ allowed ∨ v.defId ∈ IOp.defIdsRegions rs := by
  intro v hv
  obtain ⟨r, hr, b, hb, hvb⟩ := mem_vals_regions rs v hv
  rcases scoped_deep_vals _ _ (hsc r hr b hb) v hvb with hva | hvi
  · rcases List.mem_append.mp hva with hva | hva
    · exact Or.inl hva
    · refine Or.inr (defIdsBlock_sub_regions rs r b hr hb _ ?_)
      cases b with
      | mk bid args ops =>
        rw [IOp.defIdsBlock]
        refine List.mem_cons_of_mem bid (List.mem_append.mpr (Or.inl ?_))
        exact argVals_defId_mem args v hva
  · refine Or.inr (defIdsBlock_sub_regions rs r b hr hb _ ?_)
    cases b with
    | mk bid args ops =>
      rw [IOp.defIdsBlock]
      exact List.mem_cons_of_mem bid (List.mem_append.mpr (Or.inr hvi))

theorem mintPairs_extraProps (args : List IBlockArg) (σ : Nat) :
    ExtraProps (mintPairs args 0 σ) (args.map IBlockArg.argId) σ
      (σ + args.length) := by
  intro p hp
  obtain ⟨a, i, hi, hget, hpe⟩ := mintPairs_mem args 0 σ p hp
  subst hpe
  refine ⟨?_, by simp only [IVal.defId]; omega,
    by simp only [IVal.defId]; omega, rfl⟩
  simp only [IVal.defId]
  rw [List.mem_map]
  obtain ⟨hib, hie⟩ := List.getElem?_eq_some.mp hget
  exact ⟨a, hie ▸ List.getElem_mem hib, rfl⟩

/-- Keys of an environment prefix whose identities avoid a value's
definition site never capture that value. -/
theorem valInKeys_skip_prefix (pre env : Env) (v : IVal)
    (h : ∀ p ∈ pre, (p.1).defId ≠ v.defId) :
    valInKeys ((pre ++ env).map Prod.fst) v = valInKeys (env.map Prod.fst) v := by
  rw [List.map_append, valInKeys_append]
  have : valInKeys (pre.map Prod.fst) v = false := by
    refine valInKeys_false_of_defId _ _ ?_
    intro k hk
    rw [List.mem_map] at hk
    obtain ⟨p, hp, he⟩ := hk
    rw [← he]
    exact h p hp
  rw [this, Bool.false_or]

theorem oid_mem_defIds (op : IOp) : op.oid ∈ op.defIds := by
  cases op with
  | mk oid d os ts ss rs =>
    rw [IOp.defIds]
    exact List.mem_cons_self _ _

mutual

/-- Success and environment discipline of the operation-list rebuild. -/
theorem substOps_weak :
    (ops : List IOp) → ∀ (allowed : List IVal) (env : Env) (σ : Nat),
    (IOp.defIdsOps ops).Nodup →
    (∀ i ∈ IOp.defIdsOps ops, i < σ) →
    ScopedOps allowed ops →
    AllowedGood allowed (IOp.defIdsOps ops) σ →
    EnvGood env (IOp.defIdsOps ops) σ →
    NoRwOps ops →
    ∃ ops2 extra σ2,
      substOps ops env σ = .ok (ops2, extra ++ env, σ2) ∧
      ExtraProps extra (IOp.defIdsOps ops) σ σ2 ∧ σ ≤ σ2
  | [] => by
    intro allowed env σ _ _ _ _ _ _
    exact ⟨[], [], σ, rfl, extraProps_nil _ _ _, Nat.le_refl σ⟩
  | op :: rest => by
    intro allowed env σ hnd hlt hsc hal hev hnr
    rw [IOp.defIdsOps] at hnd hlt hal hev ⊢
    rw [List.nodup_append] at hnd
    obtain ⟨hnd1, hnd2, hdisj⟩ := hnd
    simp only [NoRwOps, IOp.deepAnyOps, Bool.or_eq_false_iff] at hnr
    obtain ⟨hnr1, hnr2⟩ := hnr
    cases hsc with
    | cons _ _ _ hoprnd hregs hrest =>
    obtain ⟨op2, extra1, σ1, heq1, hx1, hσ1, _⟩ :=
      substOp_weak op allowed env σ hnd1
        (fun i hi => hlt i (List.mem_append.mpr (Or.inl hi)))
        hoprnd hregs
        (allowedGood_mono _ _ _ _ _ hal
          (fun i hi => List.mem_append.mpr (Or.inl hi)) (Nat.le_refl σ))
        (envGood_mono _ _ _ _ _ hev
          (fun i hi => List.mem_append.mpr (Or.inl hi)) (Nat.le_refl σ))
        hnr1
    have haRes : AllowedGood (allowed ++ op.results) (IOp.defIdsOps rest) σ1 := by
      refine allowedGood_append _ _ _ _ ?_ ?_
      · exact allowedGood_mono _ _ _ _ _ hal
          (fun i hi => List.mem_append.mpr (Or.inr hi)) hσ1
      · intro v hv
        have hd := results_defId op v hv
        refine ⟨?_, ?_, ?_⟩
        · rw [hd]
          exact hdisj (oid_mem_defIds op)
        · rw [hd]
          have := hlt op.oid (List.mem_append.mpr (Or.inl (oid_mem_defIds op)))
          omega
        · exact results_rw_false op (deepAny_false _ _ hnr1).1 v hv
    have heRes : EnvGood (extra1 ++ env) (IOp.defIdsOps rest) σ1 :=
      envGood_extend env extra1 (op.defIds ++ IOp.defIdsOps rest)
        (IOp.defIdsOps rest) op.defIds σ σ1 hev hx1
        (fun i hi => List.mem_append.mpr (Or.inl hi))
        (fun i hi => hlt i (List.mem_append.mpr (Or.inl hi)))
        (fun i hi => List.mem_append.mpr (Or.inr hi))
        (fun i hi => hlt i (List.mem_append.mpr (Or.inr hi)))
        hσ1
    obtain ⟨ops2, extra2, σ2, heq2, hx2, hσ2⟩ :=
      substOps_weak rest (allowed ++ op.results) (extra1 ++ env) σ1 hnd2
        (fun i hi => lt_of_lt_of_le (hlt i (List.mem_append.mpr (Or.inr hi))) hσ1)
        hrest haRes heRes hnr2
    refine ⟨op2 :: ops2, extra2 ++ extra1, σ2, ?_, ?_, by omega⟩
    · rw [substOps]
      simp only [bind, Except.bind, heq1, heq2]
      rw [List.append_assoc]
    · refine extraProps_append extra1 extra2 _ σ σ1 σ2 ?_ ?_ hσ1 hσ2
      · exact extraProps_mono _ _ _ σ σ σ1 σ1 hx1
          (fun i hi => List.mem_append.mpr (Or.inl hi))
          (Nat.le_refl σ) (Nat.le_refl σ1)
      · exact extraProps_mono _ _ _ σ1 σ1 σ2 σ2 hx2
          (fun i hi => List.mem_append.mpr (Or.inr hi))
          (Nat.le_refl σ1) (Nat.le_refl σ2)

/-- Success and environment discipline of `substitute_if_required` on one
operation. -/
theorem substOp_weak :
    (op : IOp) → ∀ (allowed : List IVal) (env : Env) (σ : Nat),
    op.defIds.Nodup →
    (∀ i ∈ op.defIds, i < σ) →
    (∀ v ∈ op.operands, v ∈ allowed) →
    (∀ r ∈ op.regions, ∀ b ∈ r.blocks, ScopedOps (allowed ++ argVals b.args) b.ops) →
    AllowedGood allowed op.defIds σ →
    EnvGood env op.defIds σ →
    IOp.deepAny (fun o => o.opType == OpType.rewriteId) op = false →
    ∃ op2 extra σ2,
      substOp op env σ = .ok (op2, extra ++ env, σ2) ∧
      ExtraProps extra op.defIds σ σ2 ∧ σ ≤ σ2 ∧
      ((opDeepRefs (env.map Prod.fst) op = false ∧
        op2 = op ∧ extra = [] ∧ σ2 = σ) ∨
       (opDeepRefs (env.map Prod.fst) op = true ∧
        ∃ junk rs2 σJ,
          ExtraProps junk op.defIds σ σJ ∧ σ ≤ σJ ∧ σ2 = σJ + 1 ∧
          op2 = IOp.mk σJ op.opData
            (op.operands.map (Env.applyTo (junk ++ env)))
            op.resultTypes op.successors rs2 ∧
          extra = (op.results.zip
            (IOp.mk σJ op.opData
              (op.operands.map (Env.applyTo (junk ++ env)))
              op.resultTypes op.successors rs2).results).reverse ++ junk))
  | .mk oid d os ts ss rs => by
    intro allowed env σ hnd hlt hoprnd hregs hal hev hnr
    rw [IOp.defIds] at hnd hlt hal hev ⊢
    simp only [IOp.operands] at hoprnd
    simp only [IOp.regions] at hregs
    obtain ⟨hnrSelf, hnrRegs⟩ := deepAny_false _ _ hnr
    simp only [IOp.regions] at hnrRegs
    rw [List.nodup_cons] at hnd
    obtain ⟨hoidnot, hndr⟩ := hnd
    obtain ⟨rs2, extraR, σ1, heqR, hxR, hσR, hcleanR⟩ :=
      substRegions_weak rs allowed env σ hndr
        (fun i hi => hlt i (List.mem_cons_of_mem _ hi))
        hregs
        (allowedGood_mono _ _ _ _ _ hal
          (fun i hi => List.mem_cons_of_mem _ hi) (Nat.le_refl σ))
        (envGood_mono _ _ _ _ _ hev
          (fun i hi => List.mem_cons_of_mem _ hi) (Nat.le_refl σ))
        hnrRegs
    rw [substOp]
    simp only [bind, Except.bind, heqR]
    by_cases hcond : (IOp.deepAnyRegions (opDirectRefs (env.map Prod.fst)) rs ||
        os.any (fun v => Env.containsKey (extraR ++ env) v)) = true
    · -- rebuild branch
      rw [if_pos hcond]
      have henv1 : EnvGood (extraR ++ env) [] σ1 :=
        envGood_extend env extraR (oid :: IOp.defIdsRegions rs) []
          (IOp.defIdsRegions rs) σ σ1 hev hxR
          (fun i hi => List.mem_cons_of_mem _ hi)
          (fun i hi => hlt i (List.mem_cons_of_mem _ hi))
          (fun i hi => absurd hi (List.not_mem_nil i))
          (fun i hi => absurd hi (List.not_mem_nil i))
          hσR
      have hopfact : ∀ u ∈ os.map (Env.applyTo (extraR ++ env)),
          IVal.isRewriteIdResult (Env.applyTo (extraR ++ env) u) = false := by
        intro u hu
        rw [List.mem_map] at hu
        obtain ⟨v, hv, hue⟩ := hu
        rw [← hue, applyTo_idem _ _ _ henv1 v]
        exact applyTo_rw_false _ _ _ henv1 v (hal v (hoprnd v hv)).2.2
      have hunpack := unpackGo_vals_ok (extraR ++ env)
        (os.map (Env.applyTo (extraR ++ env))) [] hopfact
      have hmapidem : (os.map (Env.applyTo (extraR ++ env))).map
          (Env.applyTo (extraR ++ env)) = os.map (Env.applyTo (extraR ++ env)) := by
        rw [List.map_map]
        exact List.map_congr_left (fun v hv => applyTo_idem _ _ _ henv1 v)
      rw [fromOp]
      simp only [bind, Except.bind, Option.getD, unpackOperands]
      rw [hunpack, hmapidem]
      simp only [IOp.make, IOp.opData, IOp.resultTypes, IOp.successors]
      have haddrm := addResultMappings_spec (extraR ++ env)
        (IOp.mk oid d os ts ss rs)
        (IOp.mk σ1 d (os.map (Env.applyTo (extraR ++ env))) ts ss rs2) rfl
      rw [haddrm]
      refine ⟨IOp.mk σ1 d (os.map (Env.applyTo (extraR ++ env))) ts ss rs2,
        ((IOp.mk oid d os ts ss rs).results.zip
          (IOp.mk σ1 d (os.map (Env.applyTo (extraR ++ env))) ts ss rs2).results).reverse
          ++ extraR, σ1 + 1, ?_, ?_, by omega, ?_⟩
      · show Except.ok (IOp.mk σ1 d (List.map (Env.applyTo (extraR ++ env)) os)
            ts ss rs2,
          ((IOp.mk oid d os ts ss rs).results.zip
            (IOp.mk σ1 d (List.map (Env.applyTo (extraR ++ env)) os)
              ts ss rs2).results).reverse ++ (extraR ++ env), σ1 + 1) = _
        rw [List.append_assoc]
      · refine extraProps_append extraR _ _ σ σ1 (σ1 + 1) ?_ ?_ hσR (by omega)
        · exact extraProps_mono _ _ _ σ σ σ1 σ1 hxR
            (fun i hi => List.mem_cons_of_mem _ hi)
            (Nat.le_refl σ) (Nat.le_refl σ1)
        · intro p hp
          rw [List.mem_reverse] at hp
          obtain ⟨a, b⟩ := p
          obtain ⟨ha, hb⟩ := List.mem_zip hp
          have hda := results_defId _ _ ha
          have hdb := results_defId _ _ hb
          refine ⟨?_, ?_, ?_, ?_⟩
          · rw [hda]
            exact List.mem_cons_self _ _
          · rw [hdb]
            exact Nat.le_refl σ1
          · rw [hdb]
            exact Nat.lt_succ_self σ1
          · refine results_rw_false _ ?_ _ hb
            simpa only [IOp.opType, IOp.opData] using hnrSelf
      · have hopconv : (os.any fun v => Env.containsKey (extraR ++ env) v) =
            (os.any fun v => Env.containsKey env v) := by
          refine any_congr_mem os _ _ ?_
          intro v hv
          rw [containsKey_eq_valInKeys, containsKey_eq_valInKeys]
          refine valInKeys_skip_prefix extraR env v ?_
          intro p hp hc
          exact (hal v (hoprnd v hv)).1
            (List.mem_cons_of_mem oid (hc ▸ (hxR p hp).1))
        refine Or.inr ⟨?_, extraR, rs2, σ1, ?_, hσR, rfl, rfl, rfl⟩
        · rw [opDeepRefs]
          simp only [IOp.regions, IOp.operands, opDirectRefs]
          rw [Bool.or_comm]
          rw [hopconv] at hcond
          have hpt : (os.any fun v => Env.containsKey env v) =
              (os.any fun v => valInKeys (env.map Prod.fst) v) :=
            any_congr_mem os _ _ (fun v _ => containsKey_eq_valInKeys env v)
          rw [hpt] at hcond
          exact hcond
        · exact extraProps_mono _ _ _ σ σ σ1 σ1 hxR
            (fun i hi => List.mem_cons_of_mem _ hi)
            (Nat.le_refl σ) (Nat.le_refl σ1)
    · -- unchanged branch
      rw [if_neg hcond]
      rw [Bool.not_eq_true, Bool.or_eq_false_iff] at hcond
      obtain ⟨hext, hσe⟩ := hcleanR hcond.1
      refine ⟨IOp.mk oid d os ts ss rs, [], σ, ?_, extraProps_nil _ _ _,
        Nat.le_refl σ, Or.inl ⟨?_, rfl, rfl, rfl⟩⟩
      · rw [hext, hσe]
      · rw [opDeepRefs]
        simp only [IOp.regions, IOp.operands, opDirectRefs]
        rw [Bool.or_eq_false_iff]
        refine ⟨?_, hcond.1⟩
        have h2 := hcond.2
        rw [hext] at h2
        simp only [List.nil_append] at h2
        have hpt : (os.any fun v => valInKeys (env.map Prod.fst) v) =
            (os.any fun v => Env.containsKey env v) :=
          any_congr_mem os _ _ (fun v _ => (containsKey_eq_valInKeys env v).symm)
        rw [hpt]
        exact h2

/-- Success, environment discipline and flag of the region-list loop. -/
theorem substRegions_weak :
    (rs : List IRegion) → ∀ (allowed : List IVal) (env : Env) (σ : Nat),
    (IOp.defIdsRegions rs).Nodup →
    (∀ i ∈ IOp.defIdsRegions rs, i < σ) →
    (∀ r ∈ rs, ∀ b ∈ r.blocks, ScopedOps (allowed ++ argVals b.args) b.ops) →
    AllowedGood allowed (IOp.defIdsRegions rs) σ →
    EnvGood env (IOp.defIdsRegions rs) σ →
    IOp.deepAnyRegions (fun o => o.opType == OpType.rewriteId) rs = false →
    ∃ rs2 extra σ2,
      substRegions rs env σ =
        .ok (rs2, IOp.deepAnyRegions (opDirectRefs (env.map Prod.fst)) rs,
          extra ++ env, σ2) ∧
      ExtraProps extra (IOp.defIdsRegions rs) σ σ2 ∧ σ ≤ σ2 ∧
      (IOp.deepAnyRegions (opDirectRefs (env.map Prod.fst)) rs = false →
        extra = [] ∧ σ2 = σ)
  | [] => by
    intro allowed env σ _ _ _ _ _ _
    exact ⟨[], [], σ, rfl, extraProps_nil _ _ _, Nat.le_refl σ,
      fun _ => ⟨rfl, rfl⟩⟩
  | r :: rest => by
    intro allowed env σ hnd hlt hsc hal hev hnr
    rw [IOp.defIdsRegions] at hnd hlt hal hev ⊢
    rw [List.nodup_append] at hnd
    obtain ⟨hnd1, hnd2, hdisj⟩ := hnd
    simp only [IOp.deepAnyRegions, Bool.or_eq_false_iff] at hnr
    obtain ⟨hnr1, hnr2⟩ := hnr
    obtain ⟨r2, extra1, σ1, heq1, hx1, hσ1, hclean1⟩ :=
      substRegion_weak r allowed env σ hnd1
        (fun i hi => hlt i (List.mem_append.mpr (Or.inl hi)))
        (hsc r (List.mem_cons_self r rest))
        (allowedGood_mono _ _ _ _ _ hal
          (fun i hi => List.mem_append.mpr (Or.inl hi)) (Nat.le_refl σ))
        (envGood_mono _ _ _ _ _ hev
          (fun i hi => List.mem_append.mpr (Or.inl hi)) (Nat.le_refl σ))
        hnr1
    have heER : EnvGood (extra1 ++ env) (IOp.defIdsRegions rest) σ1 :=
      envGood_extend env extra1
        (IOp.defIdsRegion r ++ IOp.defIdsRegions rest)
        (IOp.defIdsRegions rest) (IOp.defIdsRegion r) σ σ1 hev hx1
        (fun i hi => List.mem_append.mpr (Or.inl hi))
        (fun i hi => hlt i (List.mem_append.mpr (Or.inl hi)))
        (fun i hi => List.mem_append.mpr (Or.inr hi))
        (fun i hi => hlt i (List.mem_append.mpr (Or.inr hi)))
        hσ1
    obtain ⟨rest2, extra2, σ2, heq2, hx2, hσ2, hclean2⟩ :=
      substRegions_weak rest allowed (extra1 ++ env) σ1 hnd2
        (fun i hi => lt_of_lt_of_le (hlt i (List.mem_append.mpr (Or.inr hi))) hσ1)
        (fun r' hr' => hsc r' (List.mem_cons_of_mem r hr'))
        (allowedGood_mono _ _ _ _ _ hal
          (fun i hi => List.mem_append.mpr (Or.inr hi)) hσ1)
        heER hnr2
    have hkeys : ∀ v ∈ deepOperandValsRegions rest,
        valInKeys ((extra1 ++ env).map Prod.fst) v =
          valInKeys (env.map Prod.fst) v := by
      intro v hv
      refine valInKeys_skip_prefix extra1 env v ?_
      intro p hp hc
      rcases scoped_vals_regions allowed rest
          (fun r' hr' => hsc r' (List.mem_cons_of_mem r hr')) v hv with hva | hvi
      · exact (hal v hva).1
          (List.mem_append.mpr (Or.inl (hc ▸ (hx1 p hp).1)))
      · exact hdisj (hc ▸ (hx1 p hp).1) hvi
    have hflagrest : IOp.deepAnyRegions
        (opDirectRefs ((extra1 ++ env).map Prod.fst)) rest =
        IOp.deepAnyRegions (opDirectRefs (env.map Prod.fst)) rest :=
      deepRefCongrRegions _ _ rest hkeys
    refine ⟨r2 :: rest2, extra2 ++ extra1, σ2, ?_, ?_, by omega, ?_⟩
    · rw [substRegions]
      simp only [bind, Except.bind, heq1, heq2]
      rw [hflagrest, List.append_assoc]
      simp only [IOp.deepAnyRegions]
    · refine extraProps_append extra1 extra2 _ σ σ1 σ2 ?_ ?_ hσ1 hσ2
      · exact extraProps_mono _ _ _ σ σ σ1 σ1 hx1
          (fun i hi => List.mem_append.mpr (Or.inl hi))
          (Nat.le_refl σ) (Nat.le_refl σ1)
      · exact extraProps_mono _ _ _ σ1 σ1 σ2 σ2 hx2
          (fun i hi => List.mem_append.mpr (Or.inr hi))
          (Nat.le_refl σ1) (Nat.le_refl σ2)
    · intro hfr
      simp only [IOp.deepAnyRegions, Bool.or_eq_false_iff] at hfr
      obtain ⟨hfr1, hfr2⟩ := hfr
      obtain ⟨he1, hσe1⟩ := hclean1 hfr1
      obtain ⟨he2, hσe2⟩ := hclean2 (by rw [hflagrest]; exact hfr2)
      refine ⟨?_, by omega⟩
      rw [he1, he2]
      rfl

/-- Success, environment discipline and flag for one region. -/
theorem substRegion_weak :
    (r : IRegion) → ∀ (allowed : List IVal) (env : Env) (σ : Nat),
    (IOp.defIdsRegion r).Nodup →
    (∀ i ∈ IOp.defIdsRegion r, i < σ) →
    (∀ b ∈ r.blocks, ScopedOps (allowed ++ argVals b.args) b.ops) →
    AllowedGood allowed (IOp.defIdsRegion r) σ →
    EnvGood env (IOp.defIdsRegion r) σ →
    IOp.deepAnyRegion (fun o => o.opType == OpType.rewriteId) r = false →
    ∃ r2 extra σ2,
      substRegion r env σ =
        .ok (r2, IOp.deepAnyRegion (opDirectRefs (env.map Prod.fst)) r,
          extra ++ env, σ2) ∧
      ExtraProps extra (IOp.defIdsRegion r) σ σ2 ∧ σ ≤ σ2 ∧
      (IOp.deepAnyRegion (opDirectRefs (env.map Prod.fst)) r = false →
        extra = [] ∧ σ2 = σ)
  | .mk rid bs => by
    intro allowed env σ hnd hlt hsc hal hev hnr
    rw [IOp.defIdsRegion] at hnd hlt hal hev ⊢
    simp only [IRegion.blocks] at hsc
    rw [IOp.deepAnyRegion] at hnr
    rw [List.nodup_cons] at hnd
    obtain ⟨rs2, extraB, σ1, heqB, hxB, hσB, hcleanB⟩ :=
      substBlocks_weak bs allowed env σ hnd.2
        (fun i hi => hlt i (List.mem_cons_of_mem _ hi))
        hsc
        (allowedGood_mono _ _ _ _ _ hal
          (fun i hi => List.mem_cons_of_mem _ hi) (Nat.le_refl σ))
        (envGood_mono _ _ _ _ _ hev
          (fun i hi => List.mem_cons_of_mem _ hi) (Nat.le_refl σ))
        hnr
    rw [substRegion]
    simp only [bind, Except.bind, heqB]
    by_cases hF : IOp.deepAnyBlocks (opDirectRefs (env.map Prod.fst)) bs = true
    · rw [if_pos hF]
      rw [IRegion.make]
      refine ⟨.mk σ1 rs2, extraB, σ1 + 1, ?_, ?_, by omega, ?_⟩
      · rw [IOp.deepAnyRegion, hF]
      · refine extraProps_mono _ _ _ σ σ σ1 (σ1 + 1) hxB
          (fun i hi => List.mem_cons_of_mem _ hi)
          (Nat.le_refl σ) (by omega)
      · intro hc
        rw [IOp.deepAnyRegion] at hc
        rw [hc] at hF
        exact absurd hF (by simp)
    · rw [if_neg hF]
      rw [Bool.not_eq_true] at hF
      obtain ⟨he, hσe⟩ := hcleanB hF
      refine ⟨.mk rid bs, [], σ, ?_, extraProps_nil _ _ _, Nat.le_refl σ,
        fun _ => ⟨rfl, rfl⟩⟩
      rw [IOp.deepAnyRegion, hF, he, hσe]

/-- Success, environment discipline and flag of the block loop, with the
localized rebuild inlined. -/
theorem substBlocks_weak :
    (bs : List IBlock) → ∀ (allowed : List IVal) (env : Env) (σ : Nat),
    (IOp.defIdsBlocks bs).Nodup →
    (∀ i ∈ IOp.defIdsBlocks bs, i < σ) →
    (∀ b ∈ bs, ScopedOps (allowed ++ argVals b.args) b.ops) →
    AllowedGood allowed (IOp.defIdsBlocks bs) σ →
    EnvGood env (IOp.defIdsBlocks bs) σ →
    IOp.deepAnyBlocks (fun o => o.opType == OpType.rewriteId) bs = false →
    ∃ bs2 extra σ2,
      substBlocks bs env σ =
        .ok (bs2, IOp.deepAnyBlocks (opDirectRefs (env.map Prod.fst)) bs,
          extra ++ env, σ2) ∧
      ExtraProps extra (IOp.defIdsBlocks bs) σ σ2 ∧ σ ≤ σ2 ∧
      (IOp.deepAnyBlocks (opDirectRefs (env.map Prod.fst)) bs = false →
        extra = [] ∧ σ2 = σ)
  | [] => by
    intro allowed env σ _ _ _ _ _ _
    exact ⟨[], [], σ, rfl, extraProps_nil _ _ _, Nat.le_refl σ,
      fun _ => ⟨rfl, rfl⟩⟩
  | .mk bid args ops :: rest => by
    intro allowed env σ hnd hlt hsc hal hev hnr
    rw [IOp.defIdsBlocks, IOp.defIdsBlock] at hnd hlt hal hev ⊢
    rw [List.nodup_append] at hnd
    obtain ⟨hndb, hndr, hdisj⟩ := hnd
    rw [List.nodup_cons] at hndb
    obtain ⟨hbidnot, hndb2⟩ := hndb
    rw [List.nodup_append] at hndb2
    obtain ⟨hndargs, hndops, hdisjao⟩ := hndb2
    simp only [IOp.deepAnyBlocks, Bool.or_eq_false_iff] at hnr
    obtain ⟨hnrb, hnrr⟩ := hnr
    rw [IOp.deepAnyBlock] at hnrb
    have hscb := hsc (.mk bid args ops) (List.mem_cons_self _ _)
    simp only [IBlock.args, IBlock.ops] at hscb
    rw [substBlocks]
    by_cases hgate : IOp.deepAnyBlock (opRefsEnv env) (.mk bid args ops) = true
    · -- rebuild this block
      rw [if_pos hgate]
      have hga : IOp.deepAnyBlock (opDirectRefs (env.map Prod.fst))
          (.mk bid args ops) = true := by
        rw [← deepAnyCongrBlock (opRefsEnv env) (opDirectRefs (env.map Prod.fst))
          (opRefsEnv_eq env) (.mk bid args ops)]
        exact hgate
      rw [mintArgs_spec args env σ]
      have halO : AllowedGood (allowed ++ argVals args) (IOp.defIdsOps ops)
          (σ + args.length) := by
        refine allowedGood_append _ _ _ _ ?_ ?_
        · refine allowedGood_mono _ _ _ _ _ hal ?_ (by omega)
          intro i hi
          exact List.mem_append.mpr (Or.inl (List.mem_cons_of_mem bid
            (List.mem_append.mpr (Or.inr hi))))
        · intro v hv
          have hda := argVals_defId_mem args v hv
          refine ⟨fun hc => hdisjao hda hc, ?_, ?_⟩
          · have := hlt v.defId (List.mem_append.mpr (Or.inl
              (List.mem_cons_of_mem bid (List.mem_append.mpr (Or.inl hda)))))
            omega
          · obtain ⟨a, ha, hae⟩ := mem_argVals args v hv
            rw [hae]
            rfl
      have hevO : EnvGood (mintPairs args 0 σ ++ env) (IOp.defIdsOps ops)
          (σ + args.length) := by
        refine envGood_extend env (mintPairs args 0 σ) _
          (IOp.defIdsOps ops) (args.map IBlockArg.argId) σ (σ + args.length)
          hev (mintPairs_extraProps args σ) ?_ ?_ ?_ ?_ (by omega)
        · intro i hi
          exact List.mem_append.mpr (Or.inl (List.mem_cons_of_mem bid
            (List.mem_append.mpr (Or.inl hi))))
        · intro i hi
          exact hlt i (List.mem_append.mpr (Or.inl (List.mem_cons_of_mem bid
            (List.mem_append.mpr (Or.inl hi)))))
        · intro i hi
          exact List.mem_append.mpr (Or.inl (List.mem_cons_of_mem bid
            (List.mem_append.mpr (Or.inr hi))))
        · intro i hi
          exact hlt i (List.mem_append.mpr (Or.inl (List.mem_cons_of_mem bid
            (List.mem_append.mpr (Or.inr hi)))))
      obtain ⟨newOps, extraO, σ2, heqO, hxO, hσO⟩ :=
        substOps_weak ops (allowed ++ argVals args)
          (mintPairs args 0 σ ++ env) (σ + args.length) hndops
          (fun i hi => by
            have := hlt i (List.mem_append.mpr (Or.inl (List.mem_cons_of_mem bid
              (List.mem_append.mpr (Or.inr hi)))))
            omega)
          hscb halO hevO hnrb
      simp only [bind, Except.bind, heqO]
      rw [IBlock.makeFromArgs]
      have hxBoth : ExtraProps (extraO ++ mintPairs args 0 σ)
          (args.map IBlockArg.argId ++ IOp.defIdsOps ops) σ (σ2 + 1) := by
        refine extraProps_append (mintPairs args 0 σ) extraO _ σ
          (σ + args.length) (σ2 + 1) ?_ ?_ (by omega) (by omega)
        · exact extraProps_mono _ _ _ σ σ (σ + args.length) (σ + args.length)
            (mintPairs_extraProps args σ)
            (fun i hi => List.mem_append.mpr (Or.inl hi))
            (Nat.le_refl σ) (Nat.le_refl _)
        · exact extraProps_mono _ _ _ (σ + args.length) (σ + args.length)
            σ2 (σ2 + 1) hxO
            (fun i hi => List.mem_append.mpr (Or.inr hi))
            (Nat.le_refl _) (by omega)
      have hevR : EnvGood (extraO ++ (mintPairs args 0 σ ++ env))
          (IOp.defIdsBlocks rest) (σ2 + 1) := by
        rw [← List.append_assoc]
        refine envGood_extend env (extraO ++ mintPairs args 0 σ) _
          (IOp.defIdsBlocks rest)
          (args.map IBlockArg.argId ++ IOp.defIdsOps ops) σ (σ2 + 1)
          hev hxBoth ?_ ?_ ?_ ?_ (by omega)
        · intro i hi
          refine List.mem_append.mpr (Or.inl (List.mem_cons_of_mem bid ?_))
          rcases List.mem_append.mp hi with h | h
          · exact List.mem_append.mpr (Or.inl h)
          · exact List.mem_append.mpr (Or.inr h)
        · intro i hi
          refine hlt i (List.mem_append.mpr (Or.inl (List.mem_cons_of_mem bid ?_)))
          rcases List.mem_append.mp hi with h | h
          · exact List.mem_append.mpr (Or.inl h)
          · exact List.mem_append.mpr (Or.inr h)
        · intro i hi
          exact List.mem_append.mpr (Or.inr hi)
        · intro i hi
          exact hlt i (List.mem_append.mpr (Or.inr hi))
      obtain ⟨rest2, extraR, σ4, heqR, hxR, hσR, hcleanR⟩ :=
        substBlocks_weak rest allowed (extraO ++ (mintPairs args 0 σ ++ env))
          (σ2 + 1) hndr
          (fun i hi => by
            have := hlt i (List.mem_append.mpr (Or.inr hi))
            omega)
          (fun b hb => hsc b (List.mem_cons_of_mem _ hb))
          (allowedGood_mono _ _ _ _ _ hal
            (fun i hi => List.mem_append.mpr (Or.inr hi)) (by omega))
          hevR hnrr
      simp only [bind, Except.bind, heqR]
      refine ⟨IBlock.mk σ2 (mintSpec args 0 σ) newOps :: rest2,
        extraR ++ (extraO ++ mintPairs args 0 σ), σ4, ?_, ?_, by omega, ?_⟩
      · simp only [IOp.deepAnyBlocks]
        rw [hga, Bool.true_or]
        rw [List.append_assoc, List.append_assoc]
      · refine extraProps_append (extraO ++ mintPairs args 0 σ) extraR _
          σ (σ2 + 1) σ4 ?_ ?_ (by omega) hσR
        · refine extraProps_mono _ _ _ σ σ (σ2 + 1) (σ2 + 1) hxBoth ?_
            (Nat.le_refl σ) (Nat.le_refl _)
          intro i hi
          refine List.mem_append.mpr (Or.inl (List.mem_cons_of_mem bid ?_))
          rcases List.mem_append.mp hi with h | h
          · exact List.mem_append.mpr (Or.inl h)
          · exact List.mem_append.mpr (Or.inr h)
        · exact extraProps_mono _ _ _ (σ2 + 1) (σ2 + 1) σ4 σ4 hxR
            (fun i hi => List.mem_append.mpr (Or.inr hi))
            (Nat.le_refl _) (Nat.le_refl σ4)
      · intro hc
        simp only [IOp.deepAnyBlocks, Bool.or_eq_false_iff] at hc
        rw [hc.1] at hga
        exact absurd hga (by simp)
    · -- reuse this block
      rw [if_neg hgate]
      rw [Bool.not_eq_true] at hgate
      have hga : IOp.deepAnyBlock (opDirectRefs (env.map Prod.fst))
          (.mk bid args ops) = false := by
        rw [← deepAnyCongrBlock (opRefsEnv env) (opDirectRefs (env.map Prod.fst))
          (opRefsEnv_eq env) (.mk bid args ops)]
        exact hgate
      obtain ⟨rest2, extraR, σ2, heqR, hxR, hσR, hcleanR⟩ :=
        substBlocks_weak rest allowed env σ hndr
          (fun i hi => hlt i (List.mem_append.mpr (Or.inr hi)))
          (fun b hb => hsc b (List.mem_cons_of_mem _ hb))
          (allowedGood_mono _ _ _ _ _ hal
            (fun i hi => List.mem_append.mpr (Or.inr hi)) (Nat.le_refl σ))
          (envGood_mono _ _ _ _ _ hev
            (fun i hi => List.mem_append.mpr (Or.inr hi)) (Nat.le_refl σ))
          hnrr
      simp only [bind, Except.bind, heqR]
      refine ⟨IBlock.mk bid args ops :: rest2, extraR, σ2, ?_, ?_, hσR, ?_⟩
      · simp only [IOp.deepAnyBlocks]
        rw [hga, Bool.false_or]
      · exact extraProps_mono _ _ _ σ σ σ2 σ2 hxR
          (fun i hi => List.mem_append.mpr (Or.inr hi))
          (Nat.le_refl σ) (Nat.le_refl σ2)
      · intro hc
        simp only [IOp.deepAnyBlocks, Bool.or_eq_false_iff] at hc
        exact hcleanR hc.2

end

/-! ### Link lemmas between the real and the junk-free environments -/

theorem applyTo_congr (e1 e2 : Env) (v : IVal)
    (h : Env.find? e1 v = Env.find? e2 v) :
    Env.applyTo e1 v = Env.applyTo e2 v := by
  rw [Env.applyTo, Env.applyTo, h]

theorem beqKey_self (v : IVal) : IVal.beqKey v v = true := by
  cases v with
  | result t o i => simp [IVal.beqKey]
  | blockArg a => simp [IVal.beqKey]

theorem env_find_zip_isSome (oldOp newO : IOp)
    (hlen : oldOp.resultTypes.length = newO.resultTypes.length) (v : IVal)
    (hv : v ∈ oldOp.results) :
    (Env.find? (oldOp.results.zip newO.results) v).isSome = true := by
  rw [Env.find?]
  have hf : (List.find? (fun p => IVal.beqKey p.1 v)
      (oldOp.results.zip newO.results)).isSome = true := by
    rw [List.find?_isSome]
    rw [List.mem_iff_getElem] at hv
    obtain ⟨i, hi, hie⟩ := hv
    have hizip : i < (oldOp.results.zip newO.results).length := by
      rw [List.length_zip, results_length, results_length]
      rw [results_length] at hi
      omega
    refine ⟨(oldOp.results.zip newO.results)[i], List.getElem_mem hizip, ?_⟩
    rw [List.getElem_zip]
    simp only [hie]
    exact beqKey_self v
  cases hg : List.find? (fun p => IVal.beqKey p.1 v)
      (oldOp.results.zip newO.results) with
  | none => rw [hg] at hf; simp at hf
  | some p => rfl

theorem env_find_reverse_zip (oldOp newO : IOp) (e : Env) (v : IVal) :
    Env.find? ((oldOp.results.zip newO.results).reverse ++ e) v =
      Env.find? (oldOp.results.zip newO.results ++ e) v := by
  rw [Env.find?, Env.find?, List.find?_append, List.find?_append]
  rw [find_reverse_unique _ _ (zip_results_unique oldOp newO v)]

theorem opDeepRefs_congr (k1 k2 : List IVal) (op : IOp)
    (h : ∀ v ∈ deepOperandValsOp op, valInKeys k1 v = valInKeys k2 v) :
    opDeepRefs k1 op = opDeepRefs k2 op := by
  cases op with
  | mk oid d os ts ss rs =>
    rw [opDeepRefs, opDeepRefs]
    simp only [IOp.regions]
    have h1 : opDirectRefs k1 (.mk oid d os ts ss rs) =
        opDirectRefs k2 (.mk oid d os ts ss rs) := by
      rw [opDirectRefs, opDirectRefs]
      simp only [IOp.operands]
      refine any_congr_mem os _ _ ?_
      intro v hv
      refine h v ?_
      rw [deepOperandValsOp]
      exact List.mem_append.mpr (Or.inl hv)
    rw [h1, deepRefCongrRegions k1 k2 rs ?_]
    intro v hv
    refine h v ?_
    rw [deepOperandValsOp]
    exact List.mem_append.mpr (Or.inr hv)

/-! ### `RebuildSpec` utilities -/

theorem rebuildSpec_mono (e : Env) (σ σ1 : Nat) (ops ops2 : List IOp)
    (h : RebuildSpec e σ1 ops ops2) : σ ≤ σ1 → RebuildSpec e σ ops ops2 := by
  induction h with
  | nil e0 σ0 => intro _; exact .nil e0 σ
  | clean e0 σ0 op rest rest2 hflag _ ih =>
    intro hle
    exact .clean e0 σ op rest rest2 hflag (ih hle)
  | dirty e0 σ0 op rest rest2 oid2 rs2 hflag hoid _ ih =>
    intro hle
    exact .dirty e0 σ op rest rest2 oid2 rs2 hflag (by omega) (ih hle)

theorem rebuildSpec_length (e : Env) (σ : Nat) (ops ops2 : List IOp)
    (h : RebuildSpec e σ ops ops2) : ops2.length = ops.length := by
  induction h with
  | nil _ _ => rfl
  | clean _ _ _ _ _ _ _ ih => simp [ih]
  | dirty _ _ _ _ _ _ _ _ _ _ ih => simp [ih]

theorem mem_operands_deepVals (op : IOp) (v : IVal) (h : v ∈ op.operands) :
    v ∈ deepOperandValsOp op := by
  cases op with
  | mk oid d os ts ss rs =>
    rw [deepOperandValsOp]
    simp only [IOp.operands] at h
    exact List.mem_append.mpr (Or.inl h)

/-- The strong rebuild lemma: the operation loop of `from_iblock` follows
the claim-side rebuild specification against a junk-free environment that
agrees with the real one on every reachable operand value. -/
theorem substOps_strong :
    (ops : List IOp) → ∀ (allowed : List IVal) (env sEnv : Env) (σ : Nat),
    (IOp.defIdsOps ops).Nodup →
    (∀ i ∈ IOp.defIdsOps ops, i < σ) →
    ScopedOps allowed ops →
    AllowedGood allowed (IOp.defIdsOps ops) σ →
    EnvGood env (IOp.defIdsOps ops) σ →
    NoRwOps ops →
    (∀ v ∈ deepOperandVals ops, Env.find? env v = Env.find? sEnv v) →
    ∃ ops2 extra σ2,
      substOps ops env σ = .ok (ops2, extra ++ env, σ2) ∧
      ExtraProps extra (IOp.defIdsOps ops) σ σ2 ∧ σ ≤ σ2 ∧
      RebuildSpec sEnv σ ops ops2
  | [] => by
    intro allowed env sEnv σ _ _ _ _ _ _ _
    exact ⟨[], [], σ, rfl, extraProps_nil _ _ _, Nat.le_refl σ, .nil sEnv σ⟩
  | op :: rest => by
    intro allowed env sEnv σ hnd hlt hsc hal hev hnr hlink
    rw [IOp.defIdsOps] at hnd hlt hal hev ⊢
    rw [List.nodup_append] at hnd
    obtain ⟨hnd1, hnd2, hdisj⟩ := hnd
    simp only [NoRwOps, IOp.deepAnyOps, Bool.or_eq_false_iff] at hnr
    obtain ⟨hnr1, hnr2⟩ := hnr
    cases hsc with
    | cons _ _ _ hoprnd hregs hrest =>
    obtain ⟨op2, extra1, σ1, heq1, hx1, hσ1, hshape⟩ :=
      substOp_weak op allowed env σ hnd1
        (fun i hi => hlt i (List.mem_append.mpr (Or.inl hi)))
        hoprnd hregs
        (allowedGood_mono _ _ _ _ _ hal
          (fun i hi => List.mem_append.mpr (Or.inl hi)) (Nat.le_refl σ))
        (envGood_mono _ _ _ _ _ hev
          (fun i hi => List.mem_append.mpr (Or.inl hi)) (Nat.le_refl σ))
        hnr1
    have hkeyop : ∀ v ∈ deepOperandValsOp op,
        valInKeys (env.map Prod.fst) v = valInKeys (sEnv.map Prod.fst) v := by
      intro v hv
      rw [← containsKey_eq_valInKeys, ← containsKey_eq_valInKeys,
        Env.containsKey, Env.containsKey,
        hlink v (by
          rw [deepOperandVals]
          exact List.mem_append.mpr (Or.inl hv))]
    have hflagco := opDeepRefs_congr _ _ op hkeyop
    have haRes : AllowedGood (allowed ++ op.results) (IOp.defIdsOps rest) σ1 := by
      refine allowedGood_append _ _ _ _ ?_ ?_
      · exact allowedGood_mono _ _ _ _ _ hal
          (fun i hi => List.mem_append.mpr (Or.inr hi)) hσ1
      · intro v hv
        have hd := results_defId op v hv
        refine ⟨?_, ?_, ?_⟩
        · rw [hd]
          exact hdisj (oid_mem_defIds op)
        · rw [hd]
          have := hlt op.oid (List.mem_append.mpr (Or.inl (oid_mem_defIds op)))
          omega
        · exact results_rw_false op (deepAny_false _ _ hnr1).1 v hv
    have heRes : EnvGood (extra1 ++ env) (IOp.defIdsOps rest) σ1 :=
      envGood_extend env extra1 (op.defIds ++ IOp.defIdsOps rest)
        (IOp.defIdsOps rest) op.defIds σ σ1 hev hx1
        (fun i hi => List.mem_append.mpr (Or.inl hi))
        (fun i hi => hlt i (List.mem_append.mpr (Or.inl hi)))
        (fun i hi => List.mem_append.mpr (Or.inr hi))
        (fun i hi => hlt i (List.mem_append.mpr (Or.inr hi)))
        hσ1
    rcases hshape with ⟨hfl, hop2, hext, hσe⟩ |
      ⟨hfl, junk, rs2, σJ, hxJ, hσJ, hσe, hop2, hext⟩
    · -- the operation is kept
      rw [hop2] at heq1
      rw [hext] at heq1 heRes
      rw [hσe] at heq1 heRes hσ1 haRes
      simp only [List.nil_append] at heq1 heRes
      obtain ⟨ops2, extra2, σ2, heq2, hx2, hσ2, hrb⟩ :=
        substOps_strong rest (allowed ++ op.results) env sEnv σ hnd2
          (fun i hi => hlt i (List.mem_append.mpr (Or.inr hi)))
          hrest haRes heRes hnr2
          (fun v hv => hlink v (by
            rw [deepOperandVals]
            exact List.mem_append.mpr (Or.inr hv)))
      refine ⟨op :: ops2, extra2, σ2, ?_, ?_, by omega, ?_⟩
      · rw [substOps]
        simp only [bind, Except.bind, heq1, heq2]
      · exact extraProps_mono _ _ _ σ σ σ2 σ2 hx2
          (fun i hi => List.mem_append.mpr (Or.inr hi))
          (Nat.le_refl σ) (Nat.le_refl σ2)
      · refine RebuildSpec.clean sEnv σ op rest ops2 ?_ hrb
        rw [← hflagco]
        exact hfl
    · -- the operation is rebuilt
      have hmapconv : op.operands.map (Env.applyTo (junk ++ env)) =
          op.operands.map (Env.applyTo sEnv) := by
        refine List.map_congr_left ?_
        intro v hv
        refine applyTo_congr _ _ v ?_
        rw [env_find_append_of_skip junk env v ?_]
        · exact hlink v (by
            rw [deepOperandVals]
            exact List.mem_append.mpr (Or.inl (mem_operands_deepVals op v hv)))
        · intro p hp hc
          exact (hal v (hoprnd v hv)).1
            (List.mem_append.mpr (Or.inl (hc ▸ (hxJ p hp).1)))
      rw [hmapconv] at hop2 hext
      have hlink2 : ∀ v ∈ deepOperandVals rest,
          Env.find? (extra1 ++ env) v =
          Env.find? ((op.results.zip
            (IOp.mk σJ op.opData (op.operands.map (Env.applyTo sEnv))
              op.resultTypes op.successors rs2).results) ++ sEnv) v := by
        intro v hv
        rw [hext]
        rw [List.append_assoc]
        rw [env_find_reverse_zip op
          (IOp.mk σJ op.opData (op.operands.map (Env.applyTo sEnv))
            op.resultTypes op.successors rs2) (junk ++ env) v]
        rw [env_find_append (op.results.zip
            (IOp.mk σJ op.opData (op.operands.map (Env.applyTo sEnv))
              op.resultTypes op.successors rs2).results) (junk ++ env) v,
          env_find_append (op.results.zip
            (IOp.mk σJ op.opData (op.operands.map (Env.applyTo sEnv))
              op.resultTypes op.successors rs2).results) sEnv v]
        cases hfz : Env.find? (op.results.zip
            (IOp.mk σJ op.opData (op.operands.map (Env.applyTo sEnv))
              op.resultTypes op.successors rs2).results) v with
        | some w => rfl
        | none =>
          have hvnotres : v ∉ op.results := by
            intro hvr
            have hs := env_find_zip_isSome op
              (IOp.mk σJ op.opData (op.operands.map (Env.applyTo sEnv))
                op.resultTypes op.successors rs2) rfl v hvr
            rw [hfz] at hs
            simp at hs
          rw [env_find_append_of_skip junk env v ?_]
          · exact hlink v (by
              rw [deepOperandVals]
              exact List.mem_append.mpr (Or.inr hv))
          · intro p hp hc
            rcases scoped_deep_vals (allowed ++ op.results) rest hrest v hv
              with hva | hvi
            · rcases List.mem_append.mp hva with hva | hvr
              · exact (hal v hva).1
                  (List.mem_append.mpr (Or.inl (hc ▸ (hxJ p hp).1)))
              · exact hvnotres hvr
            · exact hdisj (hc ▸ (hxJ p hp).1) hvi
      obtain ⟨ops2, extra2, σ2, heq2, hx2, hσ2, hrb⟩ :=
        substOps_strong rest (allowed ++ op.results) (extra1 ++ env)
          ((op.results.zip
            (IOp.mk σJ op.opData (op.operands.map (Env.applyTo sEnv))
              op.resultTypes op.successors rs2).results) ++ sEnv) σ1 hnd2
          (fun i hi =>
            lt_of_lt_of_le (hlt i (List.mem_append.mpr (Or.inr hi))) hσ1)
          hrest haRes heRes hnr2 hlink2
      refine ⟨op2 :: ops2, extra2 ++ extra1, σ2, ?_, ?_, by omega, ?_⟩
      · rw [substOps]
        simp only [bind, Except.bind, heq1, heq2]
        rw [List.append_assoc]
      · refine extraProps_append extra1 extra2 _ σ σ1 σ2 ?_ ?_ hσ1 hσ2
        · exact extraProps_mono _ _ _ σ σ σ1 σ1 hx1
            (fun i hi => List.mem_append.mpr (Or.inl hi))
            (Nat.le_refl σ) (Nat.le_refl σ1)
        · exact extraProps_mono _ _ _ σ1 σ1 σ2 σ2 hx2
            (fun i hi => List.mem_append.mpr (Or.inr hi))
            (Nat.le_refl σ1) (Nat.le_refl σ2)
      · rw [hop2]
        refine RebuildSpec.dirty sEnv σ op rest ops2 σJ rs2 ?_ hσJ ?_
        · rw [← hflagco]
          exact hfl
        · exact rebuildSpec_mono _ σ σ1 rest ops2 hrb (by omega)

/-- C3 (amended): for a block with runtime-wellformed identities
(pairwise distinct definition sites below the allocation counter), SSA
scoping of its operations over external values and its own arguments, an
environment mapping only to already-allocated external values, and no
`RewriteId` operations inside (the counterexample `C3_counterexample`
shows the claim fails on those), `IBlock.from_iblock(B.ops, B, env)`
succeeds and returns a new block whose arguments are freshly minted with
the same types and indices as the old ones, and whose operations follow
`RebuildSpec`: every operation that does not (transitively, through
nested regions) reference a substituted value is the same instance as in
B, and every operation that does is a newly allocated operation sharing
the old `OpData`, with its operands remapped through the environment,
which then also maps its old results to the new ones. -/
theorem C3_localized_rebuild (bid : Nat) (args : List IBlockArg)
    (ops : List IOp) (ext : List IVal) (env : Env) (σ : Nat)
    (hnd : (IOp.defIdsBlock (.mk bid args ops)).Nodup)
    (hlt : ∀ i ∈ IOp.defIdsBlock (.mk bid args ops), i < σ)
    (hsc : ScopedOps (ext ++ argVals args) ops)
    (hext : AllowedGood ext (IOp.defIdsBlock (.mk bid args ops)) σ)
    (henv : EnvGood env (IOp.defIdsBlock (.mk bid args ops)) σ)
    (hnr : NoRwOps ops) :
    ∃ ops2 extra σ2,
      fromIBlock ops (IBlock.mk bid args ops) env σ =
        .ok (IBlock.mk σ2 (mintSpec args 0 σ) ops2,
          extra ++ (mintPairs args 0 σ ++ env), σ2 + 1) ∧
      (∀ (i : Nat) (a : IBlockArg), args[i]? = some a →
        (mintSpec args 0 σ)[i]? = some ⟨a.typ, σ + i, i⟩) ∧
      ops2.length = ops.length ∧
      RebuildSpec (mintPairs args 0 σ ++ env) (σ + args.length) ops ops2 := by
  rw [IOp.defIdsBlock] at hnd hlt hext henv
  rw [List.nodup_cons] at hnd
  obtain ⟨hbid, hnd2⟩ := hnd
  rw [List.nodup_append] at hnd2
  obtain ⟨hndargs, hndops, hdisjao⟩ := hnd2
  have halO : AllowedGood (ext ++ argVals args) (IOp.defIdsOps ops)
      (σ + args.length) := by
    refine allowedGood_append _ _ _ _ ?_ ?_
    · refine allowedGood_mono _ _ _ _ _ hext ?_ (by omega)
      intro i hi
      exact List.mem_cons_of_mem bid (List.mem_append.mpr (Or.inr hi))
    · intro v hv
      have hda := argVals_defId_mem args v hv
      refine ⟨fun hc => hdisjao hda hc, ?_, ?_⟩
      · have := hlt v.defId
          (List.mem_cons_of_mem bid (List.mem_append.mpr (Or.inl hda)))
        omega
      · obtain ⟨a, ha, hae⟩ := mem_argVals args v hv
        rw [hae]
        rfl
  have hevO : EnvGood (mintPairs args 0 σ ++ env) (IOp.defIdsOps ops)
      (σ + args.length) := by
    refine envGood_extend env (mintPairs args 0 σ) _ (IOp.defIdsOps ops)
      (args.map IBlockArg.argId) σ (σ + args.length) henv
      (mintPairs_extraProps args σ) ?_ ?_ ?_ ?_ (by omega)
    · intro i hi
      exact List.mem_cons_of_mem bid (List.mem_append.mpr (Or.inl hi))
    · intro i hi
      exact hlt i (List.mem_cons_of_mem bid (List.mem_append.mpr (Or.inl hi)))
    · intro i hi
      exact List.mem_cons_of_mem bid (List.mem_append.mpr (Or.inr hi))
    · intro i hi
      exact hlt i (List.mem_cons_of_mem bid (List.mem_append.mpr (Or.inr hi)))
  obtain ⟨ops2, extra, σ2, heqO, hx, hσ, hrb⟩ :=
    substOps_strong ops (ext ++ argVals args) (mintPairs args 0 σ ++ env)
      (mintPairs args 0 σ ++ env) (σ + args.length) hndops
      (fun i hi => by
        have := hlt i
          (List.mem_cons_of_mem bid (List.mem_append.mpr (Or.inr hi)))
        omega)
      hsc halO hevO hnr (fun v _ => rfl)
  refine ⟨ops2, extra, σ2, ?_, ?_, rebuildSpec_length _ _ _ _ hrb, hrb⟩
  · rw [fromIBlock]
    simp only [IBlock.args, IBlock.ops]
    rw [mintArgs_spec args env σ]
    simp only [bind, Except.bind, heqO]
    rw [IBlock.makeFromArgs]
  · intro i a hgeti
    have := mintSpec_get args 0 σ i a hgeti
    simpa using this

/-- Witness block argument for the amended C3 theorem. -/
def w3A : IBlockArg := ⟨.intType 32, 5, 0⟩

/-- Witness operation: an ordinary operation reading the block
argument. -/
def w3X : IOp :=
  IOp.mk 9 (OpData.mk 8 "test.op0" (.otherOp 0) []) [.blockArg w3A] [] [] []

/-- Witness for C3: the amended theorem applied to a concrete block with
one argument and one argument-reading operation, at allocation counter
100 with the empty substitution. -/
theorem C3_witness :
    ∃ ops2 extra σ2,
      fromIBlock [w3X] (IBlock.mk 50 [w3A] [w3X]) [] 100 =
        .ok (IBlock.mk σ2 (mintSpec [w3A] 0 100) ops2,
          extra ++ (mintPairs [w3A] 0 100 ++ []), σ2 + 1) ∧
      (∀ (i : Nat) (a : IBlockArg), [w3A][i]? = some a →
        (mintSpec [w3A] 0 100)[i]? = some ⟨a.typ, 100 + i, i⟩) ∧
      ops2.length = [w3X].length ∧
      RebuildSpec (mintPairs [w3A] 0 100 ++ []) (100 + [w3A].length)
        [w3X] ops2 :=
  C3_localized_rebuild 50 [w3A] [w3X] [] [] 100
    (by decide)
    (by decide)
    (by
      refine ScopedOps.cons _ _ _ ?_ ?_ (ScopedOps.nil _)
      · intro v hv
        simp only [w3X, IOp.operands, List.mem_singleton] at hv
        subst hv
        simp [argVals]
      · intro r hr
        simp only [w3X, IOp.regions] at hr
        simp at hr)
    (by intro v hv; simp at hv)
    (by intro p hp; simp at hp)
    (by rfl)

end XdslSpec
